import Mathlib

/-! # Red-black tree (`rbtree.c`): embedding and verification

The C structure is a pointer graph: every node carries `left`, `right` and a
back link `parent`, and the handle `rbtree` carries `root`.  The embedding is
an inductive tree for the `left`/`right` links; a node pointer `n` inside a
tree is a cursor, i.e. the subtree rooted at `n` together with the chain of
ancestors reached by following `parent`, nearest ancestor first.  Each
ancestor is recorded with its own fields, with its other child
(`sibling(n)` at that level) and with the side on which the chain continues.
Writes through `n->parent` are writes to the head of that chain, and a
function of type `void f(rbtree t, node n)` becomes a function from a cursor
to the new state.  A failed `assert` or a dereference of `NULL` is `none`.
-/

namespace Rbtree

/-- The enum `rbtree_node_color` of `rbtree.h`. -/
inductive rbtree_node_color where
  | RED
  | BLACK
  deriving DecidableEq

export rbtree_node_color (RED BLACK)

/-- The struct `rbtree_node_s` of `rbtree.h`, without the `parent` back link
(which is the ancestor chain of a cursor); `NULL` is the absent node. -/
inductive rbtree_node (κ ν : Type) where
  | NULL : rbtree_node κ ν
  | mk (key : κ) (value : ν) (left right : rbtree_node κ ν)
      (color : rbtree_node_color) : rbtree_node κ ν
  deriving DecidableEq

export rbtree_node (NULL)

/-- The struct `rbtree_s` of `rbtree.h`. -/
structure rbtree (κ ν : Type) where
  root : rbtree_node κ ν
  deriving DecidableEq

/-- Which child of its parent a node is: `n == n->parent->left` is `LEFT`. -/
inductive child_side where
  | LEFT
  | RIGHT
  deriving DecidableEq

export child_side (LEFT RIGHT)

/-- One step of the `parent` chain: the fields of the parent, the parent's
other child, and the side of the parent on which the node hangs. -/
structure ancestor (κ ν : Type) where
  side : child_side
  key : κ
  value : ν
  sibling : rbtree_node κ ν
  color : rbtree_node_color
  deriving DecidableEq

/-- A node pointer in its tree: the subtree at the node and its ancestors. -/
structure cursor (κ ν : Type) where
  node : rbtree_node κ ν
  parents : List (ancestor κ ν)
  deriving DecidableEq

variable {κ ν : Type}

/-- The C `node_color`: an absent node counts as BLACK. -/
def node_color : rbtree_node κ ν → rbtree_node_color
  | .NULL => BLACK
  | .mk _ _ _ _ c => c

/-- The parent node seen from above: the ancestor's fields with `n` hung on
its recorded side and the sibling on the other. -/
def attach (a : ancestor κ ν) (n : rbtree_node κ ν) : rbtree_node κ ν :=
  match a.side with
  | LEFT => .mk a.key a.value n a.sibling a.color
  | RIGHT => .mk a.key a.value a.sibling n a.color

/-- Following `parent` up to the node whose parent is absent: the tree's root
as reached from the cursor. -/
def root_of : rbtree_node κ ν → List (ancestor κ ν) → rbtree_node κ ν
  | n, [] => n
  | n, a :: up => root_of (attach a n) up

/-- The C `rbtree_create`: the handle with an absent root. -/
def rbtree_create : rbtree κ ν := ⟨NULL⟩

/-- The C `new_node` as called by `rbtree_insert` (parent absent). -/
def new_node (key : κ) (value : ν) (c : rbtree_node_color)
    (left right : rbtree_node κ ν) : rbtree_node κ ν :=
  .mk key value left right c

/-- The C `lookup_node`, as a cursor: the loop descends from `n` comparing
`key` with `n->key`; `none` is the `NULL` result. -/
def lookup_node (cmp : κ → κ → Int) (key : κ) :
    rbtree_node κ ν → List (ancestor κ ν) → Option (cursor κ ν)
  | .NULL, _ => none
  | .mk k v l r c, up =>
    if cmp key k = 0 then some ⟨.mk k v l r c, up⟩
    else if cmp key k < 0 then lookup_node cmp key l (⟨LEFT, k, v, r, c⟩ :: up)
    else lookup_node cmp key r (⟨RIGHT, k, v, l, c⟩ :: up)

/-- The C `rbtree_lookup`: `none` is the `NULL` returned when no node is found,
`some v` the value pointer stored in the node found.  (A C caller cannot tell
a stored `NULL` value from absence; the embedding keeps the two apart.) -/
def rbtree_lookup (cmp : κ → κ → Int) (t : rbtree κ ν) (key : κ) : Option ν :=
  match lookup_node cmp key t.root [] with
  | some ⟨.mk _ v _ _ _, _⟩ => some v
  | _ => none

/-- The C `traverse`: the (key, value) pairs handed to the visitor, in call
order. -/
def traverse : rbtree_node κ ν → List (κ × ν)
  | .NULL => []
  | .mk k v l r _ => traverse l ++ (k, v) :: traverse r

/-- The C `rbtree_traverse`. -/
def rbtree_traverse (t : rbtree κ ν) : List (κ × ν) := traverse t.root

/-- The cursor of `n->parent`; `none` when the parent is absent. -/
def parent_cursor : rbtree_node κ ν → List (ancestor κ ν) → Option (cursor κ ν)
  | _, [] => none
  | n, a :: up => some ⟨attach a n, up⟩

/-- The cursor of `n->left` (`LEFT`) or `n->right` (`RIGHT`); `none` when `n`
itself is absent. -/
def child_cursor (s : child_side) :
    rbtree_node κ ν → List (ancestor κ ν) → Option (cursor κ ν)
  | .NULL, _ => none
  | .mk k v l r c, up =>
    match s with
    | LEFT => some ⟨l, ⟨LEFT, k, v, r, c⟩ :: up⟩
    | RIGHT => some ⟨r, ⟨RIGHT, k, v, l, c⟩ :: up⟩

/-- The C `rotate_left(t, n)`: `r = n->right` takes the place of `n`
(`replace_node`), `n` adopts `r->left` as its right child and becomes the left
child of `r`.  The result is the cursor of `n` after the call. -/
def rotate_left : rbtree_node κ ν → List (ancestor κ ν) → Option (cursor κ ν)
  | .mk k v l (.mk rk rv rl rr rc) c, up =>
    some ⟨.mk k v l rl c, ⟨LEFT, rk, rv, rr, rc⟩ :: up⟩
  | _, _ => none

/-- The C `rotate_right(t, n)`, the mirror image of `rotate_left`. -/
def rotate_right : rbtree_node κ ν → List (ancestor κ ν) → Option (cursor κ ν)
  | .mk k v (.mk lk lv ll lr lc) r c, up =>
    some ⟨.mk k v lr r c, ⟨RIGHT, lk, lv, ll, lc⟩ :: up⟩
  | _, _ => none

/-- The write `n->color = c`; `none` when `n` is absent. -/
def set_color (c : rbtree_node_color) : rbtree_node κ ν → Option (rbtree_node κ ν)
  | .NULL => none
  | .mk k v l r _ => some (.mk k v l r c)

/-- Case 4 of the C `augment_insert`, with `p` the parent and `g` the
grandparent of `n`: a zig-zag is straightened by a rotation at the parent.
After it `n = n->left` (resp. `n->right`) is the former parent, which is
where the rotation's cursor stands. -/
def augment_insert_case4 (n : rbtree_node κ ν) (p g : ancestor κ ν)
    (up : List (ancestor κ ν)) : Option (cursor κ ν) :=
  if p.side = RIGHT ∧ g.side = LEFT then rotate_left (attach p n) (g :: up)
  else if p.side = LEFT ∧ g.side = RIGHT then rotate_right (attach p n) (g :: up)
  else some ⟨n, p :: g :: up⟩

/-- Case 5 of the C `augment_insert`: parent BLACK, grandparent RED, rotation
at the grandparent away from `n`; the `else` branch carries the C assertion.
The result is the tree on return. -/
def augment_insert_case5 : cursor κ ν → Option (rbtree κ ν)
  | ⟨n, p :: g :: up⟩ =>
    let gp := attach ⟨g.side, g.key, g.value, g.sibling, RED⟩
      (attach ⟨p.side, p.key, p.value, p.sibling, BLACK⟩ n)
    if p.side = LEFT ∧ g.side = LEFT then
      (rotate_right gp up).map fun c => ⟨root_of c.node c.parents⟩
    else if p.side = RIGHT ∧ g.side = RIGHT then
      (rotate_left gp up).map fun c => ⟨root_of c.node c.parents⟩
    else none
  | _ => none

/-- The C `augment_insert(t, n)`.  The cursor is `n` with its ancestors
(`p` the parent, `g` the grandparent, `g.sibling` the uncle); the result is
the tree once the call has returned. -/
def augment_insert : rbtree_node κ ν → List (ancestor κ ν) → Option (rbtree κ ν)
  -- Case 1: n->parent == NULL, n->color = BLACK
  | n, [] => (set_color BLACK n).map fun n => ⟨n⟩
  | n, [p] =>
    -- Case 2
    if p.color = BLACK then some ⟨root_of n [p]⟩
    -- uncle(n): assert(n->parent->parent != NULL)
    else none
  | n, p :: g :: up =>
    -- Case 2
    if p.color = BLACK then some ⟨root_of n (p :: g :: up)⟩
    -- Case 3: uncle(n) is g.sibling
    else if node_color g.sibling = RED then do
      let u ← set_color BLACK g.sibling
      augment_insert
        (attach ⟨g.side, g.key, g.value, u, RED⟩
          (attach ⟨p.side, p.key, p.value, p.sibling, BLACK⟩ n))
        up
    else do
      let c4 ← augment_insert_case4 n p g up
      augment_insert_case5 c4

/-- The loop of the C `rbtree_insert`, entered with `n` present: overwrite on
an equal key, otherwise descend, and at an absent child link the new RED node
there (`new->parent = n`) and run `augment_insert` on it. -/
def insert_loop (cmp : κ → κ → Int) (key : κ) (value : ν) :
    rbtree_node κ ν → List (ancestor κ ν) → Option (rbtree κ ν)
  | .NULL, _ => none
  | .mk k v l r c, up =>
    if cmp key k = 0 then some ⟨root_of (.mk k value l r c) up⟩
    else if cmp key k < 0 then
      match l with
      | .NULL => augment_insert (new_node key value RED NULL NULL) (⟨LEFT, k, v, r, c⟩ :: up)
      | .mk lk lv ll lr lc =>
        insert_loop cmp key value (.mk lk lv ll lr lc) (⟨LEFT, k, v, r, c⟩ :: up)
    else
      match r with
      | .NULL => augment_insert (new_node key value RED NULL NULL) (⟨RIGHT, k, v, l, c⟩ :: up)
      | .mk rk rv rl rr rc =>
        insert_loop cmp key value (.mk rk rv rl rr rc) (⟨RIGHT, k, v, l, c⟩ :: up)

/-- The C `rbtree_insert`; the result is the state of `t` on return. -/
def rbtree_insert (cmp : κ → κ → Int) (t : rbtree κ ν) (key : κ) (value : ν) :
    Option (rbtree κ ν) :=
  match t.root with
  | .NULL => augment_insert (new_node key value RED NULL NULL) []
  | n => insert_loop cmp key value n []

/-- The C `maximum_node`, as a cursor: follow `right` while it is present. -/
def maximum_node : rbtree_node κ ν → List (ancestor κ ν) → Option (cursor κ ν)
  | .NULL, _ => none
  | .mk k v l .NULL c, up => some ⟨.mk k v l NULL c, up⟩
  | .mk k v l (.mk rk rv rl rr rc) c, up =>
    maximum_node (.mk rk rv rl rr rc) (⟨RIGHT, k, v, l, c⟩ :: up)

/-- Case 2 of the C `augment_delete`: when `sibling(n)` is RED, recolour the
parent RED and the sibling BLACK and rotate at the parent towards `n`.  The
result is the cursor of `n`. -/
def augment_delete_case2 (n : rbtree_node κ ν) (p : ancestor κ ν)
    (up : List (ancestor κ ν)) : Option (cursor κ ν) :=
  if node_color p.sibling = RED then do
    let s ← set_color BLACK p.sibling
    let pn := attach ⟨p.side, p.key, p.value, s, RED⟩ n
    let pc ← if p.side = LEFT then rotate_left pn up else rotate_right pn up
    child_cursor p.side pc.node pc.parents
  else some ⟨n, p :: up⟩

/-- Case 5 of the C `augment_delete`, entered with `sibling(n)` present and
given by its fields: when the sibling is BLACK with a RED near child and a
BLACK far child, recolour and rotate at the sibling.  The result is
`sibling(n)` after the step. -/
def augment_delete_case5 (n : rbtree_node κ ν) (p : ancestor κ ν)
    (up : List (ancestor κ ν)) (sk : κ) (sv : ν) (sl sr : rbtree_node κ ν)
    (sc : rbtree_node_color) : Option (rbtree_node κ ν) :=
  if p.side = LEFT ∧ sc = BLACK ∧ node_color sl = RED ∧ node_color sr = BLACK then do
    let sl ← set_color BLACK sl
    let sc ← rotate_right (.mk sk sv sl sr RED) (⟨RIGHT, p.key, p.value, n, p.color⟩ :: up)
    let c ← parent_cursor sc.node sc.parents
    pure c.node
  else if p.side = RIGHT ∧ sc = BLACK ∧ node_color sr = RED ∧ node_color sl = BLACK then do
    let sr ← set_color BLACK sr
    let sc ← rotate_left (.mk sk sv sl sr RED) (⟨LEFT, p.key, p.value, n, p.color⟩ :: up)
    let c ← parent_cursor sc.node sc.parents
    pure c.node
  else some (.mk sk sv sl sr sc)

/-- Case 6 of the C `augment_delete`, with `s` the current `sibling(n)`: the
sibling takes the parent's colour, the parent becomes BLACK, the far child of
the sibling is asserted RED and becomes BLACK, and the parent is rotated
towards `n`.  The result is the cursor of `n`. -/
def augment_delete_case6 (n : rbtree_node κ ν) (p : ancestor κ ν)
    (up : List (ancestor κ ν)) : rbtree_node κ ν → Option (cursor κ ν)
  | .NULL => none
  | .mk sk sv sl sr _ =>
    if p.side = LEFT then
      -- assert(node_color(sibling(n)->right) == RED)
      if node_color sr = RED then do
        let sr ← set_color BLACK sr
        let pn := attach ⟨LEFT, p.key, p.value, .mk sk sv sl sr p.color, BLACK⟩ n
        let pc ← rotate_left pn up
        child_cursor LEFT pc.node pc.parents
      else none
    else
      -- assert(node_color(sibling(n)->left) == RED)
      if node_color sl = RED then do
        let sl ← set_color BLACK sl
        let pn := attach ⟨RIGHT, p.key, p.value, .mk sk sv sl sr p.color, BLACK⟩ n
        let pc ← rotate_right pn up
        child_cursor RIGHT pc.node pc.parents
      else none

/-- The C `augment_delete(t, n)`, with a bound on the number of nested calls.
The cursor is `n` with its ancestors, `p` the parent and `p.sibling` the C
`sibling(n)`; the result is the cursor of `n` once the call has returned. -/
def augment_delete_fuel :
    Nat → rbtree_node κ ν → List (ancestor κ ν) → Option (cursor κ ν)
  | 0, _, _ => none
  -- Case 1
  | _ + 1, n, [] => some ⟨n, []⟩
  | fuel + 1, n, p :: up => do
    let c2 ← augment_delete_case2 n p up
    match c2 with
    | ⟨_, []⟩ => none
    | ⟨n, p :: up⟩ =>
      match p.sibling with
      -- sibling(n)->left is read in case 3 or in case 4
      | .NULL => none
      | .mk sk sv sl sr sc =>
        -- Case 3
        if p.color = BLACK ∧ sc = BLACK ∧ node_color sl = BLACK ∧ node_color sr = BLACK then do
          let pn := attach ⟨p.side, p.key, p.value, .mk sk sv sl sr RED, p.color⟩ n
          let pc ← augment_delete_fuel fuel pn up
          child_cursor p.side pc.node pc.parents
        -- Case 4
        else if p.color = RED ∧ sc = BLACK ∧ node_color sl = BLACK ∧ node_color sr = BLACK then
          some ⟨n, ⟨p.side, p.key, p.value, .mk sk sv sl sr RED, BLACK⟩ :: up⟩
        else do
          let s5 ← augment_delete_case5 n p up sk sv sl sr sc
          augment_delete_case6 n p up s5

/-- The C `augment_delete(t, n)`: each nested call is made on the parent and
no call is made from a frame in which case 2 rotated, so one call per ancestor
and one for the root suffice (`augment_delete_fuel_enough`). -/
def augment_delete (n : rbtree_node κ ν) (up : List (ancestor κ ν)) :
    Option (cursor κ ν) :=
  augment_delete_fuel (up.length + 1) n up

/-- The test `n == NULL`. -/
def is_null : rbtree_node κ ν → Bool
  | .NULL => true
  | .mk _ _ _ _ _ => false

/-- The first step of the C `rbtree_delete` after the lookup: when `n` has two
children, `pred = maximum_node(n->left)`, the key and value of `pred` are
copied into `n`, and `n = pred`.  The result is the cursor of the node to
remove, in the tree as it stands after the copy. -/
def delete_pred_swap : cursor κ ν → Option (cursor κ ν)
  | ⟨.NULL, _⟩ => none
  | ⟨.mk k v l r c, up⟩ =>
    if is_null l = false ∧ is_null r = false then do
      let pred ← maximum_node l (⟨LEFT, k, v, r, c⟩ :: up)
      match pred.node with
      | .NULL => none
      | .mk pk pv _ _ _ => maximum_node l (⟨LEFT, pk, pv, r, c⟩ :: up)
    else some ⟨.mk k v l r c, up⟩

/-- The rest of the C `rbtree_delete`, from the assertion that `n` has at most
one child: a BLACK `n` takes its child's colour and `augment_delete` runs,
then `replace_node(t, n, child)` puts the child in the place of `n`, and a
child that became the root is made BLACK. -/
def delete_splice : cursor κ ν → Option (rbtree κ ν)
  | ⟨.NULL, _⟩ => none
  | ⟨.mk k v l r c, up⟩ =>
    -- assert(n->left == NULL || n->right == NULL)
    if is_null l = false ∧ is_null r = false then none
    else do
      let child := if is_null r then l else r
      let n ←
        if c = BLACK then augment_delete (.mk k v l r (node_color child)) up
        else some ⟨.mk k v l r c, up⟩
      match n.parents with
      | [] =>
        match child with
        | .NULL => some ⟨NULL⟩
        | .mk ck cv cl cr _ => some ⟨.mk ck cv cl cr BLACK⟩
      | up => some ⟨root_of child up⟩

/-- The C `rbtree_delete`; the result is the state of `t` on return. -/
def rbtree_delete (cmp : κ → κ → Int) (t : rbtree κ ν) (key : κ) :
    Option (rbtree κ ν) :=
  match lookup_node cmp key t.root [] with
  -- key not found, do nothing
  | none => some t
  | some n => do
    let n ← delete_pred_swap n
    delete_splice n

/-! ## Properties of trees and of ancestor chains -/

/-- What the operations assume of the caller's `cmp`: the sign of
`cmp a b` is a total order on the keys up to the keys that compare equal.
Every comparator of a strict total order (`cmp a b = 0` exactly when
`a = b`) satisfies both laws. -/
structure comparator_ok (cmp : κ → κ → Int) : Prop where
  antisymm : ∀ a b, cmp a b < 0 ↔ 0 < cmp b a
  le_trans : ∀ a b c, cmp a b ≤ 0 → cmp b c ≤ 0 → cmp a c ≤ 0

/-- No RED node has a RED child; said from below, no RED node has a RED
parent. -/
def no_red_red : rbtree_node κ ν → Prop
  | .NULL => True
  | .mk _ _ l r c =>
    (c = RED → node_color l = BLACK ∧ node_color r = BLACK) ∧ no_red_red l ∧ no_red_red r

/-- Number of BLACK nodes on each path from the node down to an absent child,
paths listed left to right. -/
def black_counts : rbtree_node κ ν → List Nat
  | .NULL => [0]
  | .mk _ _ l r c =>
    (black_counts l ++ black_counts r).map fun x => x + if c = BLACK then 1 else 0

/-- Every path from the node to an absent child passes through the same number
of BLACK nodes. -/
def same_black_count (n : rbtree_node κ ν) : Prop :=
  ∀ a ∈ black_counts n, ∀ b ∈ black_counts n, a = b

/-- The red-black invariants of a tree: the root is BLACK or absent, no RED
node has a RED child, and all root-to-absent-child paths have the same number
of BLACK nodes. -/
def rb_valid (t : rbtree κ ν) : Prop :=
  node_color t.root = BLACK ∧ no_red_red t.root ∧ same_black_count t.root

/-- The search-tree ordering: in every node the keys of the left subtree
compare less than the node's key and those of the right subtree greater. -/
def ordered (cmp : κ → κ → Int) : rbtree_node κ ν → Prop
  | .NULL => True
  | .mk k _ l r _ =>
    (∀ x ∈ traverse l, cmp x.1 k < 0) ∧ (∀ x ∈ traverse r, 0 < cmp x.1 k) ∧
      ordered cmp l ∧ ordered cmp r

/-- Number of BLACK nodes on the leftmost path below the node. -/
def bheight : rbtree_node κ ν → Nat
  | .NULL => 0
  | .mk _ _ l _ c => bheight l + if c = BLACK then 1 else 0

/-- In every node the two subtrees have the same `bheight`. -/
def balanced : rbtree_node κ ν → Prop
  | .NULL => True
  | .mk _ _ l r _ => balanced l ∧ balanced r ∧ bheight l = bheight r

/-- An ancestor chain under which a subtree of black height `h` whose root has
colour `c` completes a valid tree: a RED ancestor needs `c` BLACK and a BLACK
sibling, every sibling is itself valid and of the height of the chain there,
and the topmost subtree, the root, is BLACK. -/
def ctx_ok : List (ancestor κ ν) → rbtree_node_color → Nat → Prop
  | [], c, _ => c = BLACK
  | a :: up, c, h =>
    (a.color = RED → c = BLACK ∧ node_color a.sibling = BLACK) ∧
      no_red_red a.sibling ∧ balanced a.sibling ∧ bheight a.sibling = h ∧
      ctx_ok up a.color (h + if a.color = BLACK then 1 else 0)

/-- The pairs visited by `traverse` before the subtree of the cursor. -/
def before : List (ancestor κ ν) → List (κ × ν)
  | [] => []
  | a :: up =>
    match a.side with
    | LEFT => before up
    | RIGHT => before up ++ traverse a.sibling ++ [(a.key, a.value)]

/-- The pairs visited by `traverse` after the subtree of the cursor. -/
def after : List (ancestor κ ν) → List (κ × ν)
  | [] => []
  | a :: up =>
    match a.side with
    | LEFT => (a.key, a.value) :: traverse a.sibling ++ after up
    | RIGHT => after up


/-! ## Reference behaviour on the list of pairs -/

/-- The keys of the pairs are strictly ascending under `cmp`. -/
def ascending (cmp : κ → κ → Int) (l : List (κ × ν)) : Prop :=
  l.Pairwise fun a b => cmp a.1 b.1 < 0

/-- A list of pairs in ascending key order with a binding for `key` put in:
the value of the pair whose key compares equal is replaced, or the new pair
goes before the first greater key. -/
def list_insert (cmp : κ → κ → Int) (key : κ) (value : ν) : List (κ × ν) → List (κ × ν)
  | [] => [(key, value)]
  | (k, v) :: rest =>
    if cmp key k = 0 then (k, value) :: rest
    else if cmp key k < 0 then (key, value) :: (k, v) :: rest
    else (k, v) :: list_insert cmp key value rest

/-- The value of the first pair whose key compares equal to `key`. -/
def list_lookup (cmp : κ → κ → Int) (key : κ) : List (κ × ν) → Option ν
  | [] => none
  | (k, v) :: rest => if cmp key k = 0 then some v else list_lookup cmp key rest

/-- The tree with the value replaced in every node whose key compares equal to
`key`, and nothing else changed. -/
def overwrite_value (cmp : κ → κ → Int) (key : κ) (value : ν) :
    rbtree_node κ ν → rbtree_node κ ν
  | .NULL => NULL
  | .mk k v l r c =>
    .mk k (if cmp key k = 0 then value else v) (overwrite_value cmp key value l)
      (overwrite_value cmp key value r) c

/-- The trees built from the empty tree by calls of `rbtree_insert` and
`rbtree_delete` with the comparator `cmp`. -/
inductive reachable (cmp : κ → κ → Int) : rbtree κ ν → Prop where
  | create : reachable cmp rbtree_create
  | insert (t t' : rbtree κ ν) (key : κ) (value : ν) :
      reachable cmp t → rbtree_insert cmp t key value = some t' → reachable cmp t'
  | delete (t t' : rbtree κ ν) (key : κ) :
      reachable cmp t → rbtree_delete cmp t key = some t' → reachable cmp t'

/-- Calls of `rbtree_insert` for the pairs of a list, in list order. -/
def insert_all (cmp : κ → κ → Int) (t : rbtree κ ν) : List (κ × ν) → Option (rbtree κ ν)
  | [] => some t
  | (k, v) :: rest => (rbtree_insert cmp t k v).bind fun t' => insert_all cmp t' rest

/-- Calls of `rbtree_delete` for the keys of a list, in list order. -/
def delete_all (cmp : κ → κ → Int) (t : rbtree κ ν) : List κ → Option (rbtree κ ν)
  | [] => some t
  | k :: rest => (rbtree_delete cmp t k).bind fun t' => delete_all cmp t' rest

/-- A comparator on natural-number keys, by their order. -/
def nat_cmp (a b : Nat) : Int := if a < b then -1 else if a = b then 0 else 1


/-! ## Deciding the properties, and a tree to evaluate on -/

/-- Decision procedure for `no_red_red`, by recursion over the tree. -/
def decide_no_red_red : (n : rbtree_node κ ν) → Decidable (no_red_red n)
  | .NULL => isTrue trivial
  | .mk _ _ l r c =>
    let _ := decide_no_red_red l
    let _ := decide_no_red_red r
    inferInstanceAs (Decidable
      ((c = RED → node_color l = BLACK ∧ node_color r = BLACK) ∧ no_red_red l ∧ no_red_red r))

instance (n : rbtree_node κ ν) : Decidable (no_red_red n) := decide_no_red_red n

instance (n : rbtree_node κ ν) : Decidable (same_black_count n) :=
  inferInstanceAs (Decidable (∀ a ∈ black_counts n, ∀ b ∈ black_counts n, a = b))

instance (t : rbtree κ ν) : Decidable (rb_valid t) :=
  inferInstanceAs (Decidable
    (node_color t.root = BLACK ∧ no_red_red t.root ∧ same_black_count t.root))

/-- Decision procedure for `ordered`, by recursion over the tree. -/
def decide_ordered (cmp : κ → κ → Int) : (n : rbtree_node κ ν) → Decidable (ordered cmp n)
  | .NULL => isTrue trivial
  | .mk k _ l r _ =>
    let _ := decide_ordered cmp l
    let _ := decide_ordered cmp r
    inferInstanceAs (Decidable
      ((∀ x ∈ traverse l, cmp x.1 k < 0) ∧ (∀ x ∈ traverse r, 0 < cmp x.1 k) ∧
        ordered cmp l ∧ ordered cmp r))

instance (cmp : κ → κ → Int) (n : rbtree_node κ ν) : Decidable (ordered cmp n) :=
  decide_ordered cmp n

/-- Decision procedure for `balanced`, by recursion over the tree. -/
def decide_balanced : (n : rbtree_node κ ν) → Decidable (balanced n)
  | .NULL => isTrue trivial
  | .mk _ _ l r _ =>
    let _ := decide_balanced l
    let _ := decide_balanced r
    inferInstanceAs (Decidable (balanced l ∧ balanced r ∧ bheight l = bheight r))

instance (n : rbtree_node κ ν) : Decidable (balanced n) := decide_balanced n

/-- Decision procedure for `ctx_ok`, by recursion over the chain. -/
def decide_ctx_ok : (up : List (ancestor κ ν)) → (c : rbtree_node_color) → (h : Nat) →
    Decidable (ctx_ok up c h)
  | [], c, _ => inferInstanceAs (Decidable (c = BLACK))
  | a :: up, c, h =>
    let _ := decide_ctx_ok up a.color (h + if a.color = BLACK then 1 else 0)
    inferInstanceAs (Decidable
      ((a.color = RED → c = BLACK ∧ node_color a.sibling = BLACK) ∧
        no_red_red a.sibling ∧ balanced a.sibling ∧ bheight a.sibling = h ∧
        ctx_ok up a.color (h + if a.color = BLACK then 1 else 0)))

instance (up : List (ancestor κ ν)) (c : rbtree_node_color) (h : Nat) :
    Decidable (ctx_ok up c h) := decide_ctx_ok up c h

/-- A valid tree with the keys 1, 2, 4, 6: the root 4 has two children, and the
BLACK node 2 has a RED left child and no right child. -/
def example_tree : rbtree Nat Nat :=
  ⟨.mk 4 40 (.mk 2 20 (.mk 1 10 NULL NULL RED) NULL BLACK) (.mk 6 60 NULL NULL BLACK) BLACK⟩

/-! ## Size and height -/

/-- Number of nodes of the tree. -/
def node_count : rbtree_node κ ν → Nat
  | .NULL => 0
  | .mk _ _ l r _ => node_count l + node_count r + 1

/-- Number of nodes on the longest path from the node down to a leaf. -/
def height : rbtree_node κ ν → Nat
  | .NULL => 0
  | .mk _ _ l r _ => max (height l) (height r) + 1

/-! ## The diagnostic check -/

/-- The C `verify_property_1`: the assertion that each colour is RED or BLACK,
at every node and absent child. -/
def verify_property_1 : rbtree_node κ ν → Bool
  | .NULL => decide ((BLACK : rbtree_node_color) = RED ∨ (BLACK : rbtree_node_color) = BLACK)
  | .mk _ _ l r c =>
    decide (c = RED ∨ c = BLACK) && verify_property_1 l && verify_property_1 r

/-- The C `verify_property_2`: the assertion that the root is BLACK. -/
def verify_property_2 (root : rbtree_node κ ν) : Bool :=
  decide (node_color root = BLACK)

/-- The C `verify_property_4`: at a RED node the assertions that the left
child, the right child and the parent are BLACK; `parent` is
`node_color(n->parent)`, BLACK at the root, whose parent is absent. -/
def verify_property_4 (parent : rbtree_node_color) : rbtree_node κ ν → Bool
  | .NULL => true
  | .mk _ _ l r c =>
    (if c = RED then
        decide (node_color l = BLACK) && decide (node_color r = BLACK) &&
          decide (parent = BLACK)
      else true) &&
      verify_property_4 c l && verify_property_4 c r

/-- The C `verify_property_5_helper`: `black_count` counts the BLACK nodes
from the root down to and including `n` (an absent `n` counts as BLACK);
`path` is `*path_black_count` on entry, with -1 for "not yet set", and the
result is its value on return, or `none` when the assertion fails. -/
def verify_property_5_helper : rbtree_node κ ν → Int → Int → Option Int
  | .NULL, black_count, path =>
    if path = -1 then some (black_count + 1)
    else if black_count + 1 = path then some path
    else none
  | .mk _ _ l r c, black_count, path =>
    let black_count := if c = BLACK then black_count + 1 else black_count
    (verify_property_5_helper l black_count path).bind fun path =>
      verify_property_5_helper r black_count path

/-- The C `verify_property_5`: all assertions of the helper pass. -/
def verify_property_5 (root : rbtree_node κ ν) : Bool :=
  (verify_property_5_helper root 0 (-1)).isSome

/-- The C `verify_properties`, built with `VERIFY_RBTREE`: true when every
assertion passes. -/
def verify_properties (t : rbtree κ ν) : Bool :=
  verify_property_1 t.root && verify_property_2 t.root &&
    verify_property_4 BLACK t.root && verify_property_5 t.root

/-! ## Nested calls of the fix-ups -/

/-- Number of nested calls of `augment_insert` made in the course of
`augment_insert(t, n)`: one in case 3, on the grandparent, plus those made by
that call; none in any other case. -/
def augment_insert_calls : rbtree_node κ ν → List (ancestor κ ν) → Nat
  | n, p :: g :: up =>
    if p.color = BLACK then 0
    else if node_color g.sibling = RED then
      match set_color BLACK g.sibling with
      | none => 0
      | some u =>
        1 + augment_insert_calls
          (attach ⟨g.side, g.key, g.value, u, RED⟩
            (attach ⟨p.side, p.key, p.value, p.sibling, BLACK⟩ n))
          up
    else 0
  | _, _ => 0

/-- Number of nested calls of `augment_delete` made in the course of
`augment_delete(t, n)`: one in case 3, on the parent, plus those made by that
call; none in any other case.  The first argument bounds the nesting as in
`augment_delete_fuel`. -/
def augment_delete_calls : Nat → rbtree_node κ ν → List (ancestor κ ν) → Nat
  | 0, _, _ => 0
  | _ + 1, _, [] => 0
  | fuel + 1, n, p :: up =>
    match augment_delete_case2 n p up with
    | some ⟨n, p :: up⟩ =>
      match p.sibling with
      | .NULL => 0
      | .mk sk sv sl sr sc =>
        if p.color = BLACK ∧ sc = BLACK ∧ node_color sl = BLACK ∧ node_color sr = BLACK then
          1 + augment_delete_calls fuel
            (attach ⟨p.side, p.key, p.value, .mk sk sv sl sr RED, p.color⟩ n) up
        else 0
    | _ => 0

/-- The C `augment_delete(t, n)` run with a bound on the number of nested
calls, the end of the run told apart from the exhaustion of the bound: `none`
when the bound is exhausted; `some r` when the run has ended, where `r` is
`none` for a failed assertion or a read through an absent node, and the cursor
of `n` when the call has returned. -/
def augment_delete_run :
    Nat → rbtree_node κ ν → List (ancestor κ ν) → Option (Option (cursor κ ν))
  | 0, _, _ => none
  -- Case 1
  | _ + 1, n, [] => some (some ⟨n, []⟩)
  | fuel + 1, n, p :: up =>
    match augment_delete_case2 n p up with
    | none => some none
    | some ⟨_, []⟩ => some none
    | some ⟨n, p :: up⟩ =>
      match p.sibling with
      -- sibling(n)->left is read in case 3 or in case 4
      | .NULL => some none
      | .mk sk sv sl sr sc =>
        -- Case 3
        if p.color = BLACK ∧ sc = BLACK ∧ node_color sl = BLACK ∧ node_color sr = BLACK then
          (augment_delete_run fuel
            (attach ⟨p.side, p.key, p.value, .mk sk sv sl sr RED, p.color⟩ n) up).map
              fun r => r.bind fun pc => child_cursor p.side pc.node pc.parents
        -- Case 4
        else if p.color = RED ∧ sc = BLACK ∧ node_color sl = BLACK ∧ node_color sr = BLACK then
          some (some ⟨n, ⟨p.side, p.key, p.value, .mk sk sv sl sr RED, BLACK⟩ :: up⟩)
        else
          some ((augment_delete_case5 n p up sk sv sl sr sc).bind (augment_delete_case6 n p up))
/-! ## The pointer structure: nodes in memory

For the rotations the nodes are taken as they lie in memory: a node is a
record at an address, `left`, `right` and `parent` hold addresses or `NULL`,
and the handle holds the address of the root.  A read through `NULL` or
through an address that holds no node is `none`. -/

namespace Heap

/-- The struct `rbtree_node_s` of `rbtree.h`, with addresses for pointers. -/
structure node_s (κ ν : Type) where
  key : κ
  value : ν
  left : Option Nat
  right : Option Nat
  parent : Option Nat
  color : rbtree_node_color
  deriving DecidableEq

/-- The nodes in memory, by address, and the struct `rbtree_s` (`root`). -/
structure memory (κ ν : Type) where
  nodes : Nat → Option (node_s κ ν)
  root : Option Nat

/-- The memory after a write of the record `x` at the address `a`. -/
def write (m : memory κ ν) (a : Nat) (x : node_s κ ν) : memory κ ν :=
  ⟨fun b => if b = a then some x else m.nodes b, m.root⟩

/-- The C `replace_node(t, old, new)`. -/
def replace_node (m : memory κ ν) (old : Nat) (new : Option Nat) : Option (memory κ ν) := do
  let o ← m.nodes old
  let m ←
    match o.parent with
    -- old node is root
    | none => some ⟨m.nodes, new⟩
    | some p => do
      let pn ← m.nodes p
      if pn.left = some old then some (write m p { pn with left := new })
      else some (write m p { pn with right := new })
  match new with
  | none => some m
  | some nw => do
    let nn ← m.nodes nw
    let o ← m.nodes old
    some (write m nw { nn with parent := o.parent })

/-- The C `rotate_left(t, n)`, on the nodes in memory. -/
def rotate_left_mem (m : memory κ ν) (n : Nat) : Option (memory κ ν) := do
  let nn ← m.nodes n
  let r ← nn.right
  let m ← replace_node m n (some r)
  -- n->right = r->left
  let rn ← m.nodes r
  let nn ← m.nodes n
  let m := write m n { nn with right := rn.left }
  -- if (r->left != NULL) r->left->parent = n
  let m ←
    match rn.left with
    | none => some m
    | some rl => do
      let rln ← m.nodes rl
      some (write m rl { rln with parent := some n })
  -- r->left = n
  let rn ← m.nodes r
  let m := write m r { rn with left := some n }
  -- n->parent = r
  let nn ← m.nodes n
  some (write m n { nn with parent := some r })

/-- The C `rotate_right(t, n)`, on the nodes in memory. -/
def rotate_right_mem (m : memory κ ν) (n : Nat) : Option (memory κ ν) := do
  let nn ← m.nodes n
  let l ← nn.left
  let m ← replace_node m n (some l)
  -- n->left = l->right
  let ln ← m.nodes l
  let nn ← m.nodes n
  let m := write m n { nn with left := ln.right }
  -- if (l->right != NULL) l->right->parent = n
  let m ←
    match ln.right with
    | none => some m
    | some lr => do
      let lrn ← m.nodes lr
      some (write m lr { lrn with parent := some n })
  -- l->right = n
  let ln ← m.nodes l
  let m := write m l { ln with right := some n }
  -- n->parent = l
  let nn ← m.nodes n
  some (write m n { nn with parent := some l })

/-- A tree with the address of every node. -/
inductive ptree (κ ν : Type) where
  | nil : ptree κ ν
  | node (addr : Nat) (key : κ) (value : ν) (color : rbtree_node_color)
      (left right : ptree κ ν) : ptree κ ν
  deriving DecidableEq

/-- The pointer to the tree: the address of its root node, `NULL` for none. -/
def ptree.ptr : ptree κ ν → Option Nat
  | .nil => none
  | .node a _ _ _ _ _ => some a

/-- The addresses of the nodes of the tree. -/
def ptree.addrs : ptree κ ν → List Nat
  | .nil => []
  | .node a _ _ _ l r => a :: (l.addrs ++ r.addrs)

/-- The in-order sequence of (key, value, colour) triples. -/
def ptree.inorder : ptree κ ν → List (κ × ν × rbtree_node_color)
  | .nil => []
  | .node _ k v c l r => l.inorder ++ (k, v, c) :: r.inorder

/-- The tree without the addresses. -/
def ptree.erase : ptree κ ν → rbtree_node κ ν
  | .nil => NULL
  | .node _ k v c l r => .mk k v l.erase r.erase c

/-- The memory holds the tree below a node at `parent`: every node of the tree
is at its address with its fields, its `left` and `right` point to its
subtrees, and its `parent` points to the node above it. -/
def stored (nodes : Nat → Option (node_s κ ν)) (parent : Option Nat) : ptree κ ν → Prop
  | .nil => True
  | .node a k v c l r =>
    nodes a = some ⟨k, v, l.ptr, r.ptr, parent, c⟩ ∧
      stored nodes (some a) l ∧ stored nodes (some a) r

/-- The memory holds the tree `T` as the tree of the handle: `root` points to
it, the parent of the root is absent, all links are as in `stored`, and no two
nodes share an address. -/
def represents (m : memory κ ν) (T : ptree κ ν) : Prop :=
  m.root = T.ptr ∧ stored m.nodes none T ∧ T.addrs.Nodup

/-- One level above a subtree: the node at `addr` with its fields, the subtree
hanging on `side` and `sibling` on the other side. -/
structure pframe (κ ν : Type) where
  side : child_side
  addr : Nat
  key : κ
  value : ν
  color : rbtree_node_color
  sibling : ptree κ ν

/-- The node of the frame with `S` hung on its side. -/
def pattach (f : pframe κ ν) (S : ptree κ ν) : ptree κ ν :=
  match f.side with
  | LEFT => .node f.addr f.key f.value f.color S f.sibling
  | RIGHT => .node f.addr f.key f.value f.color f.sibling S

/-- The whole tree, from a subtree and the frames above it, nearest first. -/
def pfill : ptree κ ν → List (pframe κ ν) → ptree κ ν
  | S, [] => S
  | S, f :: up => pfill (pattach f S) up

/-- The address of the nearest frame, `NULL` when there is none. -/
def frames_ptr : List (pframe κ ν) → Option Nat
  | [] => none
  | f :: _ => some f.addr

/-- The addresses in the frames: of their nodes and of their siblings. -/
def frames_addrs : List (pframe κ ν) → List Nat
  | [] => []
  | f :: up => f.addr :: (f.sibling.addrs ++ frames_addrs up)

/-- The memory holds the frames above a subtree to which `hole` points. -/
def stored_frames (nodes : Nat → Option (node_s κ ν)) :
    Option Nat → List (pframe κ ν) → Prop
  | _, [] => True
  | hole, f :: up =>
    nodes f.addr = some ⟨f.key, f.value,
        (match f.side with | LEFT => hole | RIGHT => f.sibling.ptr),
        (match f.side with | LEFT => f.sibling.ptr | RIGHT => hole),
        frames_ptr up, f.color⟩ ∧
      stored nodes (some f.addr) f.sibling ∧ stored_frames nodes (some f.addr) up

/-- The frame without the addresses: an ancestor of the cursor. -/
def erase_frame (f : pframe κ ν) : ancestor κ ν :=
  ⟨f.side, f.key, f.value, f.sibling.erase, f.color⟩

/-- A memory with four nodes: 5 at address 0 is the root, 10 at address 1 is
its right child, 20 at address 2 is the right child of 10, and 15 at address 3
is the left child of 20. -/
def example_memory : memory Nat Nat :=
  ⟨fun a =>
    match a with
    | 0 => some ⟨5, 50, none, some 1, none, BLACK⟩
    | 1 => some ⟨10, 100, none, some 2, some 0, RED⟩
    | 2 => some ⟨20, 200, some 3, none, some 1, BLACK⟩
    | 3 => some ⟨15, 150, none, none, some 2, RED⟩
    | _ => none,
  some 0⟩

/-- The tree that `example_memory` holds. -/
def example_ptree : ptree Nat Nat :=
  .node 0 5 50 BLACK .nil
    (.node 1 10 100 RED .nil (.node 2 20 200 BLACK (.node 3 15 150 RED .nil .nil) .nil))

end Heap

end Rbtree

namespace Queue

/-! # Circular queue (`queue.c`)

The buffer obtained by `queue_create` is a list of slots, a slot being `none`
until it is written; the pointers `first`, `last` and `end` are kept as their
distance from `start`, counted in slots.  Both allocations are taken to have
succeeded.  The sizes are those of an LP64 platform: `size_t` has 64 bits and
a pointer 8 bytes, so the byte count `size * sizeof(void *)` is taken modulo
2^64, and so is the address `start + size`.  A write outside the buffer, a read
of a slot never written and a failed `assert` are `none`.
-/

/-- The struct `queue_s` of `queue.h`: `start` is the buffer, `end_` is
`q->end - q->start`, `first` is `q->first - q->start` and `last` is
`q->last - q->start`. -/
structure queue_s (α : Type) where
  start : List (Option α)
  end_ : Nat
  first : Nat
  last : Nat
  is_empty : Bool
  deriving DecidableEq

variable {α : Type}

/-- Number of bits of `size_t`. -/
def size_t_bits : Nat := 64

/-- The C `sizeof(void *)`, in bytes. -/
def sizeof_ptr : Nat := 8

/-- Number of slots in the buffer of `malloc(size * sizeof(void *))`: the
product is computed in `size_t`, so it wraps at `2 ^ size_t_bits`. -/
def queue_slots (size : Nat) : Nat :=
  size * sizeof_ptr % 2 ^ size_t_bits / sizeof_ptr

/-- The C `queue_create`, both allocations successful: the buffer has
`queue_slots size` slots, and `q->end = q->start + size`, an address computed
modulo `2 ^ size_t_bits`, is that many slots after `start`. -/
def queue_create (size : Nat) : queue_s α :=
  ⟨List.replicate (queue_slots size) none, queue_slots size, 0, 0, true⟩

/-- The C `queue_is_empty`. -/
def queue_is_empty (q : queue_s α) : Bool := q.is_empty

/-- The C `queue_is_full`. -/
def queue_is_full (q : queue_s α) : Bool := q.last == q.first && !q.is_empty

/-- The C `queue_enqueue`: the return value and the queue after the call. -/
def queue_enqueue (q : queue_s α) (value : α) : Option (Int × queue_s α) :=
  if queue_is_full q then some (-1, q)
  -- *q->last++ = value
  else if q.last < q.start.length then
    let last := q.last + 1
    some (0,
      { start := q.start.set q.last (some value)
        end_ := q.end_
        first := q.first
        last := if last = q.end_ then 0 else last
        is_empty := false })
  else none

/-- The C `queue_dequeue`: the value returned and the queue after the call. -/
def queue_dequeue (q : queue_s α) : Option (α × queue_s α) :=
  -- assert(!q->is_empty)
  if q.is_empty then none
  else
    -- value = *q->first++
    match q.start[q.first]? with
    | some (some value) =>
      let first := q.first + 1
      let first := if first = q.end_ then 0 else first
      some (value,
        { start := q.start
          end_ := q.end_
          first := first
          last := q.last
          is_empty := if first = q.last then true else q.is_empty })
    | _ => none

/-- The queues obtained from `queue_create(size)` by calls of `queue_enqueue`
and by calls of `queue_dequeue` made when the queue is not empty. -/
inductive queue_reachable (size : Nat) : queue_s α → Prop where
  | create : queue_reachable size (queue_create size)
  | enqueue (q q' : queue_s α) (value : α) (r : Int) :
      queue_reachable size q → queue_enqueue q value = some (r, q') → queue_reachable size q'
  | dequeue (q q' : queue_s α) (value : α) :
      queue_reachable size q → queue_is_empty q = false → queue_dequeue q = some (value, q') →
      queue_reachable size q'

/-- The slot of the `i`-th stored element, counted from `first` and wrapping
at `end`. -/
def slot_index (q : queue_s α) (i : Nat) : Nat :=
  if q.first + i < q.end_ then q.first + i else q.first + i - q.end_

/-- Number of stored elements: the slots from `first` up to `last`, all of the
buffer when the two meet in a queue that is not empty. -/
def count (q : queue_s α) : Nat :=
  if q.is_empty then 0
  else if q.first < q.last then q.last - q.first
  else q.end_ - q.first + q.last

/-- The stored elements, oldest first. -/
def contents (q : queue_s α) : List α :=
  (List.range (count q)).filterMap fun i => (q.start[slot_index q i]?).join

/-- The list `l` is what the queue stores: as many elements as `count`, the
`i`-th in the slot `slot_index q i`. -/
def holds (q : queue_s α) (l : List α) : Prop :=
  l.length = count q ∧ ∀ i, i < count q → q.start[slot_index q i]? = some l[i]?

/-- The state of a queue of `size` slots in use: indices inside the buffer,
an empty queue has `first` and `last` equal, and the stored slots are
written. -/
def inv (size : Nat) (q : queue_s α) : Prop :=
  q.end_ = size ∧ q.start.length = size ∧ q.first < size ∧ q.last < size ∧
    (q.is_empty = true → q.first = q.last) ∧ ∃ l, holds q l

end Queue

namespace Rbtree

variable {κ ν : Type}

/-! ## Comparator laws -/

theorem comparator_ok.refl {cmp : κ → κ → Int} (hc : comparator_ok cmp) (a : κ) :
    cmp a a = 0 := by
  have h := hc.antisymm a a
  omega

theorem comparator_ok.symm {cmp : κ → κ → Int} (hc : comparator_ok cmp) {a b : κ}
    (h : cmp a b = 0) : cmp b a = 0 := by
  have h1 := hc.antisymm a b
  have h2 := hc.antisymm b a
  omega

theorem comparator_ok.gt_iff {cmp : κ → κ → Int} (hc : comparator_ok cmp) (a b : κ) :
    0 < cmp a b ↔ cmp b a < 0 := (hc.antisymm b a).symm

theorem comparator_ok.lt_trans {cmp : κ → κ → Int} (hc : comparator_ok cmp) {a b c : κ}
    (h1 : cmp a b < 0) (h2 : cmp b c < 0) : cmp a c < 0 := by
  have h3 := hc.le_trans a b c (by omega) (by omega)
  have h4 := hc.antisymm c a
  have h5 := hc.antisymm a c
  have h6 := hc.le_trans c a b
  have h7 := hc.antisymm b c
  omega

theorem comparator_ok.eq_lt {cmp : κ → κ → Int} (hc : comparator_ok cmp) {a b c : κ}
    (h1 : cmp a b = 0) (h2 : cmp b c < 0) : cmp a c < 0 := by
  have h3 := hc.le_trans a b c (by omega) (by omega)
  have h4 := hc.antisymm c a
  have h5 := hc.antisymm a c
  have h6 := hc.le_trans c a b
  have h7 := hc.antisymm b c
  omega

theorem comparator_ok.lt_eq {cmp : κ → κ → Int} (hc : comparator_ok cmp) {a b c : κ}
    (h1 : cmp a b < 0) (h2 : cmp b c = 0) : cmp a c < 0 := by
  have h3 := hc.le_trans a b c (by omega) (by omega)
  have h4 := hc.antisymm c a
  have h5 := hc.antisymm a c
  have h6 := hc.le_trans b c a
  have h7 := hc.antisymm a b
  omega

theorem comparator_ok.eq_trans {cmp : κ → κ → Int} (hc : comparator_ok cmp) {a b c : κ}
    (h1 : cmp a b = 0) (h2 : cmp b c = 0) : cmp a c = 0 := by
  have h3 := hc.le_trans a b c (by omega) (by omega)
  have h4 := hc.le_trans c b a (by have := hc.symm h2; omega) (by have := hc.symm h1; omega)
  have h5 := hc.antisymm a c
  have h6 := hc.antisymm c a
  omega

theorem comparator_ok_of_strict_total {cmp : κ → κ → Int}
    (h0 : ∀ a b, cmp a b = 0 ↔ a = b) (h1 : ∀ a b, cmp a b < 0 ↔ 0 < cmp b a)
    (h2 : ∀ a b c, cmp a b < 0 → cmp b c < 0 → cmp a c < 0) : comparator_ok cmp := by
  refine ⟨h1, fun a b c hab hbc => ?_⟩
  by_cases e1 : cmp a b = 0
  · rw [(h0 a b).1 e1]; exact hbc
  · by_cases e2 : cmp b c = 0
    · rw [← (h0 b c).1 e2]; exact hab
    · have := h2 a b c (by omega) (by omega)
      omega

/-! ## Traversal of a cursor -/

theorem traverse_attach (a : ancestor κ ν) (n : rbtree_node κ ν) :
    traverse (attach a n) = before [a] ++ traverse n ++ after [a] := by
  cases a with
  | mk s k v sib c => cases s <;> simp [attach, traverse, before, after]

theorem traverse_root_of (n : rbtree_node κ ν) (up : List (ancestor κ ν)) :
    traverse (root_of n up) = before up ++ traverse n ++ after up := by
  induction up generalizing n with
  | nil => simp [root_of, before, after]
  | cons a up ih =>
    cases a with
    | mk s k v sib c =>
      cases s <;> simp [root_of, ih, attach, traverse, before, after]

/-! ## Black counts -/

theorem bheight_mem_black_counts (n : rbtree_node κ ν) : bheight n ∈ black_counts n := by
  induction n with
  | NULL => simp [bheight, black_counts]
  | mk k v l r c ihl _ =>
    simp only [bheight, black_counts, List.mem_map, List.mem_append]
    exact ⟨bheight l, Or.inl ihl, rfl⟩

theorem black_counts_of_balanced (n : rbtree_node κ ν) (h : balanced n) :
    ∀ a ∈ black_counts n, a = bheight n := by
  induction n with
  | NULL => simp [bheight, black_counts]
  | mk k v l r c ihl ihr =>
    obtain ⟨hl, hr, he⟩ := h
    intro a ha
    simp only [black_counts, List.mem_map, List.mem_append] at ha
    obtain ⟨x, hx, rfl⟩ := ha
    rcases hx with hx | hx
    · rw [ihl hl x hx]; rfl
    · rw [ihr hr x hx, ← he]; rfl

theorem balanced_of_same_black_count (n : rbtree_node κ ν) (h : same_black_count n) :
    balanced n := by
  induction n with
  | NULL => trivial
  | mk k v l r c ihl ihr =>
    have key : ∀ a ∈ black_counts l ++ black_counts r,
        ∀ b ∈ black_counts l ++ black_counts r, a = b := by
      intro a ha b hb
      have := h (a + if c = BLACK then 1 else 0)
        (by simp only [black_counts, List.mem_map]; exact ⟨a, ha, rfl⟩)
        (b + if c = BLACK then 1 else 0)
        (by simp only [black_counts, List.mem_map]; exact ⟨b, hb, rfl⟩)
      omega
    refine ⟨ihl ?_, ihr ?_, ?_⟩
    · intro a ha b hb
      exact key a (List.mem_append_left _ ha) b (List.mem_append_left _ hb)
    · intro a ha b hb
      exact key a (List.mem_append_right _ ha) b (List.mem_append_right _ hb)
    · exact key _ (List.mem_append_left _ (bheight_mem_black_counts l)) _
        (List.mem_append_right _ (bheight_mem_black_counts r))

theorem same_black_count_iff (n : rbtree_node κ ν) : same_black_count n ↔ balanced n := by
  constructor
  · exact balanced_of_same_black_count n
  · intro h a ha b hb
    rw [black_counts_of_balanced n h a ha, black_counts_of_balanced n h b hb]

/-! ## Filling an ancestor chain -/

theorem ctx_ok_weaken (up : List (ancestor κ ν)) (c : rbtree_node_color) (h : Nat)
    (hc : ctx_ok up c h) : ctx_ok up BLACK h := by
  cases up with
  | nil => rfl
  | cons a up =>
    obtain ⟨h1, h2, h3, h4, h5⟩ := hc
    exact ⟨fun hr => ⟨rfl, (h1 hr).2⟩, h2, h3, h4, h5⟩

theorem root_of_valid (up : List (ancestor κ ν)) (n : rbtree_node κ ν)
    (hc : ctx_ok up (node_color n) (bheight n)) (hr : no_red_red n) (hb : balanced n) :
    node_color (root_of n up) = BLACK ∧ no_red_red (root_of n up) ∧
      balanced (root_of n up) := by
  induction up generalizing n with
  | nil => exact ⟨hc, hr, hb⟩
  | cons a up ih =>
    obtain ⟨h1, h2, h3, h4, h5⟩ := hc
    cases a with
    | mk s k v sib c =>
      simp only at h1 h2 h3 h4 h5
      cases s
      · apply ih
        · simpa [attach, node_color, bheight] using h5
        · exact ⟨fun hc => ⟨(h1 hc).1, (h1 hc).2⟩, hr, h2⟩
        · exact ⟨hb, h3, h4.symm⟩
      · apply ih
        · simpa [attach, node_color, bheight, h4] using h5
        · exact ⟨fun hc => ⟨(h1 hc).2, (h1 hc).1⟩, h2, hr⟩
        · exact ⟨h3, hb, h4⟩


@[simp] theorem node_color_NULL : node_color (NULL : rbtree_node κ ν) = BLACK := rfl

@[simp] theorem node_color_mk (k : κ) (v : ν) (l r : rbtree_node κ ν) (c : rbtree_node_color) :
    node_color (.mk k v l r c) = c := rfl

@[simp] theorem attach_left (k : κ) (v : ν) (s n : rbtree_node κ ν) (c : rbtree_node_color) :
    attach ⟨LEFT, k, v, s, c⟩ n = .mk k v n s c := rfl

@[simp] theorem attach_right (k : κ) (v : ν) (s n : rbtree_node κ ν) (c : rbtree_node_color) :
    attach ⟨RIGHT, k, v, s, c⟩ n = .mk k v s n c := rfl

@[simp] theorem red_ne_black : (RED = BLACK) = False := by simp

@[simp] theorem black_ne_red : (BLACK = RED) = False := by simp

theorem ctx_ok_of_black (a : ancestor κ ν) (up : List (ancestor κ ν)) (c : rbtree_node_color)
    (h : Nat) (hc : ctx_ok (a :: up) BLACK h) (ha : a.color = BLACK) :
    ctx_ok (a :: up) c h := by
  obtain ⟨h1, h2, h3, h4, h5⟩ := hc
  exact ⟨fun hr => (by rw [ha] at hr; cases hr), h2, h3, h4, h5⟩

theorem color_cases (c : rbtree_node_color) : c = RED ∨ c = BLACK := by
  cases c <;> simp

theorem augment_insert_valid : ∀ (up : List (ancestor κ ν)) (n : rbtree_node κ ν),
    node_color n = RED → no_red_red n → balanced n → ctx_ok up BLACK (bheight n) →
    ∃ t, augment_insert n up = some t ∧
      node_color t.root = BLACK ∧ no_red_red t.root ∧ balanced t.root
  | [], n, hn, hr, hb, _ => by
    cases n with
    | NULL => simp at hn
    | mk k v l r c =>
      refine ⟨_, rfl, rfl, ?_, hb⟩
      exact ⟨fun h => (by cases h), hr.2.1, hr.2.2⟩
  | [p], n, hn, hr, hb, hc => by
    have hp : p.color = BLACK := hc.2.2.2.2
    refine ⟨⟨root_of n [p]⟩, by simp [augment_insert, hp], ?_⟩
    exact root_of_valid _ _ (ctx_ok_of_black _ _ _ _ hc hp) hr hb
  | p :: g :: up, n, hn, hr, hb, hc => by
    rcases color_cases p.color with hp | hp
    swap
    · refine ⟨⟨root_of n (p :: g :: up)⟩, by simp [augment_insert, hp], ?_⟩
      exact root_of_valid _ _ (ctx_ok_of_black _ _ _ _ hc hp) hr hb
    obtain ⟨h1, h2, h3, h4, h5⟩ := hc
    obtain ⟨g1, g2, g3, g4, g5⟩ := h5
    have hg : g.color = BLACK := by
      rcases color_cases g.color with hg | hg
      · have := (g1 hg).1; rw [hp] at this; cases this
      · exact hg
    simp only [hp, hg, if_true, if_false] at g4 g5
    rcases color_cases (node_color g.sibling) with hu | hu
    · -- case 3
      cases hs : g.sibling with
      | NULL => rw [hs] at hu; simp at hu
      | mk uk uv ul ur uc =>
        rw [hs] at hu g2 g3 g4
        simp only [node_color_mk] at hu
        subst hu
        have ih := augment_insert_valid up
          (attach ⟨g.side, g.key, g.value, .mk uk uv ul ur BLACK, RED⟩
            (attach ⟨p.side, p.key, p.value, p.sibling, BLACK⟩ n))
          (by cases g.side <;> rfl)
          (by
            cases hgs : g.side <;> cases hps : p.side <;>
              simp_all [no_red_red])
          (by
            cases hgs : g.side <;> cases hps : p.side <;>
              simp_all [balanced, bheight])
          (by
            cases hgs : g.side <;> cases hps : p.side <;>
              simp_all [balanced, bheight])
        obtain ⟨t, ht, hv⟩ := ih
        refine ⟨t, ?_, hv⟩
        simp [augment_insert, hp, hs, set_color, ht]
    · -- cases 4 and 5
      cases n with
      | NULL => simp at hn
      | mk nk nv nl nr nc =>
        simp only [node_color_mk] at hn
        subst hn
        cases p with
        | mk ps pk pv psib pc =>
        cases g with
        | mk gs gk gv gsib gc =>
        simp only at hp hg hu h1 h2 h3 h4 g1 g2 g3 g4 g5
        subst hp hg
        cases ps <;> cases gs <;>
          simp [augment_insert, augment_insert_case4, augment_insert_case5, hu,
            rotate_left, rotate_right, root_of] <;>
          apply root_of_valid up <;>
          simp_all [no_red_red, balanced, bheight]

theorem augment_insert_traverse : ∀ (up : List (ancestor κ ν)) (n : rbtree_node κ ν)
    (t : rbtree κ ν), augment_insert n up = some t →
    traverse t.root = before up ++ traverse n ++ after up
  | [], n, t, h => by
    cases n with
    | NULL => simp [augment_insert, set_color] at h
    | mk k v l r c =>
      simp [augment_insert, set_color] at h
      subst h
      simp [before, after, traverse]
  | [p], n, t, h => by
    by_cases hp : p.color = BLACK
    · simp [augment_insert, hp] at h
      subst h
      exact traverse_root_of n [p]
    · simp [augment_insert, hp] at h
  | p :: g :: up, n, t, h => by
    by_cases hp : p.color = BLACK
    · simp [augment_insert, hp] at h
      subst h
      exact traverse_root_of n (p :: g :: up)
    by_cases hu : node_color g.sibling = RED
    · cases hs : g.sibling with
      | NULL => rw [hs] at hu; simp at hu
      | mk uk uv ul ur uc =>
        rw [hs] at hu
        simp only [node_color_mk] at hu
        subst hu
        simp [augment_insert, hp, hs, set_color] at h
        have ih := augment_insert_traverse up _ t h
        rw [ih]
        cases p with
        | mk ps pk pv psib pc =>
        cases g with
        | mk gs gk gv gsib gc =>
        simp only at hs
        subst hs
        cases ps <;> cases gs <;> simp [before, after, traverse]
    · cases p with
      | mk ps pk pv psib pc =>
      cases g with
      | mk gs gk gv gsib gc =>
      cases n with
      | NULL =>
        cases ps <;> cases gs <;>
          simp [augment_insert, augment_insert_case4, augment_insert_case5, hu, hp,
            rotate_left, rotate_right] at h <;>
          subst h <;>
          simp [traverse_root_of, before, after, traverse]
      | mk nk nv nl nr nc =>
        cases ps <;> cases gs <;>
          simp [augment_insert, augment_insert_case4, augment_insert_case5, hu, hp,
            rotate_left, rotate_right] at h <;>
          subst h <;>
          simp [traverse_root_of, before, after, traverse]

/-! ## The deletion fix-up keeps the traversal -/

theorem augment_delete_case2_traverse (n : rbtree_node κ ν) (p : ancestor κ ν)
    (up : List (ancestor κ ν)) (c : cursor κ ν) (h : augment_delete_case2 n p up = some c) :
    c.node = n ∧ before c.parents = before (p :: up) ∧ after c.parents = after (p :: up) := by
  cases p with
  | mk ps pk pv psib pc =>
  by_cases hs : node_color psib = RED
  · cases psib with
    | NULL => simp at hs
    | mk sk sv sl sr sc =>
      cases ps <;>
        simp [augment_delete_case2, hs, set_color, rotate_left, rotate_right, child_cursor] at h <;>
        subst h <;> simp [before, after, traverse]
  · simp [augment_delete_case2, hs] at h
    subst h
    simp

theorem augment_delete_case5_traverse (n : rbtree_node κ ν) (p : ancestor κ ν)
    (up : List (ancestor κ ν)) (sk : κ) (sv : ν) (sl sr : rbtree_node κ ν)
    (sc : rbtree_node_color) (s5 : rbtree_node κ ν)
    (h : augment_delete_case5 n p up sk sv sl sr sc = some s5) :
    traverse s5 = traverse (.mk sk sv sl sr sc) := by
  unfold augment_delete_case5 at h
  split at h
  · cases sl with
    | NULL => simp [set_color] at h
    | mk lk lv ll lr lc =>
      simp [set_color, rotate_right, parent_cursor] at h
      subst h
      simp [traverse]
  · split at h
    · cases sr with
      | NULL => simp [set_color] at h
      | mk rk rv rl rr rc =>
        simp [set_color, rotate_left, parent_cursor] at h
        subst h
        simp [traverse]
    · simp at h
      subst h
      rfl

theorem augment_delete_case6_traverse (n : rbtree_node κ ν) (p : ancestor κ ν)
    (up : List (ancestor κ ν)) (s : rbtree_node κ ν) (c : cursor κ ν)
    (h : augment_delete_case6 n p up s = some c) :
    c.node = n ∧
      before c.parents = before (⟨p.side, p.key, p.value, s, p.color⟩ :: up) ∧
      after c.parents = after (⟨p.side, p.key, p.value, s, p.color⟩ :: up) := by
  cases p with
  | mk ps pk pv psib pc =>
  cases s with
  | NULL => simp [augment_delete_case6] at h
  | mk sk sv sl sr sc =>
    cases ps
    · cases sr with
      | NULL => simp [augment_delete_case6] at h
      | mk rk rv rl rr rc =>
        simp [augment_delete_case6, set_color, rotate_left, child_cursor] at h
        obtain ⟨_, h⟩ := h
        subst h
        simp [before, after, traverse]
    · cases sl with
      | NULL => simp [augment_delete_case6] at h
      | mk lk lv ll lr lc =>
        simp [augment_delete_case6, set_color, rotate_right, child_cursor] at h
        obtain ⟨_, h⟩ := h
        subst h
        simp [before, after, traverse]

theorem child_cursor_attach (a : ancestor κ ν) (n : rbtree_node κ ν)
    (up : List (ancestor κ ν)) :
    child_cursor a.side (attach a n) up = some ⟨n, a :: up⟩ := by
  cases a with
  | mk s k v sib c => cases s <;> rfl

theorem augment_delete_fuel_traverse : ∀ (fuel : Nat) (n : rbtree_node κ ν)
    (up : List (ancestor κ ν)) (c : cursor κ ν), augment_delete_fuel fuel n up = some c →
    c.node = n ∧ before c.parents = before up ∧ after c.parents = after up
  | 0, _, _, _, h => by simp [augment_delete_fuel] at h
  | _ + 1, n, [], c, h => by
    simp [augment_delete_fuel] at h
    subst h
    simp
  | fuel + 1, n, p :: up, c, h => by
    simp only [augment_delete_fuel, Option.bind_eq_bind, Option.bind_eq_some] at h
    obtain ⟨c2, h2, h⟩ := h
    obtain ⟨e1, e2, e3⟩ := augment_delete_case2_traverse n p up c2 h2
    rw [← e2, ← e3]
    cases c2 with
    | mk n2 up2 =>
    simp only at e1
    subst e1
    cases up2 with
    | nil => simp at h
    | cons p2 up2 =>
      cases p2 with
      | mk ps pk pv psib pc =>
      cases psib with
      | NULL => simp at h
      | mk sk sv sl sr sc =>
        simp only at h
        split at h
        · -- case 3
          simp only [Option.bind_eq_bind, Option.bind_eq_some] at h
          obtain ⟨c3, h3, h⟩ := h
          obtain ⟨f1, f2, f3⟩ := augment_delete_fuel_traverse fuel _ up2 c3 h3
          cases c3 with
          | mk n3 up3 =>
          simp only at f1 f2 f3
          subst f1
          cases ps <;> simp [child_cursor] at h <;> subst h <;>
            simp [before, after, traverse, f2, f3]
        · split at h
          · -- case 4
            simp only [Option.some.injEq] at h
            subst h
            cases ps <;> simp [before, after, traverse]
          · simp only [Option.bind_eq_bind, Option.bind_eq_some] at h
            obtain ⟨s5, h5, h⟩ := h
            have t5 := augment_delete_case5_traverse _ _ _ _ _ _ _ _ _ h5
            obtain ⟨g1, g2, g3⟩ := augment_delete_case6_traverse _ _ _ _ _ h
            refine ⟨g1, ?_, ?_⟩
            · rw [g2]; cases ps <;> simp [before, t5]
            · rw [g3]; cases ps <;> simp [after, t5]

/-! ## The deletion fix-up restores the colour invariants -/

theorem ctx_ok_of_red (up : List (ancestor κ ν)) (c : rbtree_node_color) (h : Nat)
    (hc : ctx_ok up RED h) : ctx_ok up c h := by
  cases up with
  | nil => cases hc
  | cons a up =>
    obtain ⟨h1, h2, h3, h4, h5⟩ := hc
    refine ⟨fun hr => ?_, h2, h3, h4, h5⟩
    have := (h1 hr).1
    cases this

theorem augment_delete_case2_valid (n : rbtree_node κ ν) (p : ancestor κ ν)
    (up : List (ancestor κ ν)) (h : Nat) (hc : ctx_ok (p :: up) BLACK (h + 1)) :
    ∃ p' up', augment_delete_case2 n p up = some ⟨n, p' :: up'⟩ ∧
      ctx_ok (p' :: up') BLACK (h + 1) ∧ node_color p'.sibling = BLACK ∧
      ((p' = p ∧ up' = up) ∨ p'.color = RED) := by
  cases p with
  | mk ps pk pv psib pc =>
  rcases color_cases (node_color psib) with hs | hs
  · cases psib with
    | NULL => simp at hs
    | mk sk sv sl sr sc =>
      simp only [node_color_mk] at hs
      subst hs
      obtain ⟨h1, h2, h3, h4, h5⟩ := hc
      simp only at h1 h2 h3 h4 h5
      have hpc : pc = BLACK := by
        rcases color_cases pc with hp | hp
        · have := (h1 hp).2; simp at this
        · exact hp
      subst hpc
      cases ps
      · refine ⟨⟨LEFT, pk, pv, sl, RED⟩, ⟨LEFT, sk, sv, sr, BLACK⟩ :: up, ?_, ?_, ?_, Or.inr rfl⟩
        · simp [augment_delete_case2, set_color, rotate_left, child_cursor]
        · simp_all [ctx_ok, no_red_red, balanced, bheight]
        · simp_all [no_red_red]
      · refine ⟨⟨RIGHT, pk, pv, sr, RED⟩, ⟨RIGHT, sk, sv, sl, BLACK⟩ :: up, ?_, ?_, ?_, Or.inr rfl⟩
        · simp [augment_delete_case2, set_color, rotate_right, child_cursor]
        · simp_all [ctx_ok, no_red_red, balanced, bheight]
        · simp_all [no_red_red]
  · exact ⟨_, up, by simp [augment_delete_case2, hs], hc, hs, Or.inl ⟨rfl, rfl⟩⟩

theorem augment_delete_case56_valid (n : rbtree_node κ ν) (ps : child_side) (pk : κ) (pv : ν)
    (pc : rbtree_node_color) (up : List (ancestor κ ν)) (sk : κ) (sv : ν)
    (sl sr : rbtree_node κ ν) (h : Nat)
    (hc : ctx_ok (⟨ps, pk, pv, .mk sk sv sl sr BLACK, pc⟩ :: up) BLACK (h + 1))
    (hk : ¬ (node_color sl = BLACK ∧ node_color sr = BLACK)) :
    ∃ s5 up', augment_delete_case5 n ⟨ps, pk, pv, .mk sk sv sl sr BLACK, pc⟩ up sk sv sl sr BLACK
        = some s5 ∧
      augment_delete_case6 n ⟨ps, pk, pv, .mk sk sv sl sr BLACK, pc⟩ up s5 = some ⟨n, up'⟩ ∧
      ctx_ok up' RED h := by
  obtain ⟨h1, h2, h3, h4, h5⟩ := hc
  simp only at h1 h2 h3 h4 h5
  cases ps
  · -- n is a left child; the far child is sr
    rcases color_cases (node_color sr) with hsr | hsr
    · cases sr with
      | NULL => simp at hsr
      | mk rk rv rl rr rc =>
        simp only [node_color_mk] at hsr
        subst hsr
        refine ⟨.mk sk sv sl (.mk rk rv rl rr RED) BLACK,
          ⟨LEFT, pk, pv, sl, BLACK⟩ :: ⟨LEFT, sk, sv, .mk rk rv rl rr BLACK, pc⟩ :: up,
          ?_, ?_, ?_⟩
        · simp [augment_delete_case5]
        · simp [augment_delete_case6, set_color, rotate_left, child_cursor]
        · cases pc <;> simp_all [ctx_ok, no_red_red, balanced, bheight]
    · have hsl : node_color sl = RED := by
        rcases color_cases (node_color sl) with hsl | hsl
        · exact hsl
        · exact absurd ⟨hsl, hsr⟩ hk
      cases sl with
      | NULL => simp at hsl
      | mk lk lv ll lr lc =>
        simp only [node_color_mk] at hsl
        subst hsl
        refine ⟨.mk lk lv ll (.mk sk sv lr sr RED) BLACK,
          ⟨LEFT, pk, pv, ll, BLACK⟩ :: ⟨LEFT, lk, lv, .mk sk sv lr sr BLACK, pc⟩ :: up,
          ?_, ?_, ?_⟩
        · simp [augment_delete_case5, hsr, set_color, rotate_right, parent_cursor]
        · simp [augment_delete_case6, set_color, rotate_left, child_cursor]
        · cases pc <;> simp_all [ctx_ok, no_red_red, balanced, bheight]
  · -- n is a right child; the far child is sl
    rcases color_cases (node_color sl) with hsl | hsl
    · cases sl with
      | NULL => simp at hsl
      | mk lk lv ll lr lc =>
        simp only [node_color_mk] at hsl
        subst hsl
        refine ⟨.mk sk sv (.mk lk lv ll lr RED) sr BLACK,
          ⟨RIGHT, pk, pv, sr, BLACK⟩ :: ⟨RIGHT, sk, sv, .mk lk lv ll lr BLACK, pc⟩ :: up,
          ?_, ?_, ?_⟩
        · simp [augment_delete_case5]
        · simp [augment_delete_case6, set_color, rotate_right, child_cursor]
        · cases pc <;> simp_all [ctx_ok, no_red_red, balanced, bheight]
    · have hsr : node_color sr = RED := by
        rcases color_cases (node_color sr) with hsr | hsr
        · exact hsr
        · exact absurd ⟨hsl, hsr⟩ hk
      cases sr with
      | NULL => simp at hsr
      | mk rk rv rl rr rc =>
        simp only [node_color_mk] at hsr
        subst hsr
        refine ⟨.mk rk rv (.mk sk sv sl rl RED) rr BLACK,
          ⟨RIGHT, pk, pv, rr, BLACK⟩ :: ⟨RIGHT, rk, rv, .mk sk sv sl rl BLACK, pc⟩ :: up,
          ?_, ?_, ?_⟩
        · simp [augment_delete_case5, hsl, set_color, rotate_left, parent_cursor]
        · simp [augment_delete_case6, set_color, rotate_right, child_cursor]
        · cases pc <;> simp_all [ctx_ok, no_red_red, balanced, bheight]

theorem augment_delete_fuel_valid : ∀ (fuel : Nat) (n : rbtree_node κ ν)
    (up : List (ancestor κ ν)) (h : Nat), up.length < fuel → ctx_ok up BLACK (h + 1) →
    ∃ up', augment_delete_fuel fuel n up = some ⟨n, up'⟩ ∧ (up' = [] ∨ ctx_ok up' RED h)
  | 0, _, _, _, hf, _ => by simp at hf
  | _ + 1, n, [], _, _, _ => ⟨[], rfl, Or.inl rfl⟩
  | fuel + 1, n, p :: up, h, hf, hc => by
    obtain ⟨p', up', e2, hc', hsb, hsame⟩ := augment_delete_case2_valid n p up h hc
    simp only [augment_delete_fuel, e2, Option.bind_eq_bind, Option.some_bind]
    cases p' with
    | mk ps pk pv psib pc =>
    simp only at hsb hsame
    cases psib with
    | NULL =>
      have := hc'.2.2.2.1
      simp [bheight] at this
    | mk sk sv sl sr sc =>
      simp only [node_color_mk] at hsb
      subst hsb
      by_cases hk : node_color sl = BLACK ∧ node_color sr = BLACK
      · rcases color_cases pc with hp | hp
        · -- case 4
          subst hp
          refine ⟨⟨ps, pk, pv, .mk sk sv sl sr RED, BLACK⟩ :: up', by simp [hk], Or.inr ?_⟩
          obtain ⟨h1, h2, h3, h4, h5⟩ := hc'
          simp_all [ctx_ok, no_red_red, balanced, bheight]
          exact ctx_ok_weaken _ _ _ h5
        · -- case 3
          subst hp
          rcases hsame with ⟨hp, hup⟩ | hr
          swap
          · simp at hr
          subst hup
          obtain ⟨h1, h2, h3, h4, h5⟩ := hc'
          simp only [if_true] at h5
          obtain ⟨up'', e3, hpost⟩ := augment_delete_fuel_valid fuel
            (attach ⟨ps, pk, pv, .mk sk sv sl sr RED, BLACK⟩ n) up' (h + 1)
            (by simp at hf; omega) h5
          refine ⟨⟨ps, pk, pv, .mk sk sv sl sr RED, BLACK⟩ :: up'', ?_, Or.inr ?_⟩
          · simp only [hk, and_self, if_true, e3, Option.bind_eq_bind, Option.some_bind]
            exact child_cursor_attach ⟨ps, pk, pv, .mk sk sv sl sr RED, BLACK⟩ n up''
          · have hup'' : ctx_ok up'' BLACK (h + 1) := by
              rcases hpost with rfl | hpost
              · rfl
              · exact ctx_ok_weaken _ _ _ hpost
            simp_all [ctx_ok, no_red_red, balanced, bheight]
      · obtain ⟨s5, up'', e5, e6, hpost⟩ :=
          augment_delete_case56_valid n ps pk pv pc up' sk sv sl sr h hc' hk
        refine ⟨up'', ?_, Or.inr hpost⟩
        have hk3 : ¬ (pc = BLACK ∧ node_color sl = BLACK ∧ node_color sr = BLACK) :=
          fun h => hk h.2
        have hk4 : ¬ (pc = RED ∧ node_color sl = BLACK ∧ node_color sr = BLACK) :=
          fun h => hk h.2
        simp only [true_and, hk3, hk4, if_false, e5, Option.bind_eq_bind, Option.some_bind, e6]

/-! ## Descending from the root keeps the ancestor chain valid -/

theorem ctx_ok_left (k : κ) (v : ν) (l r : rbtree_node κ ν) (c : rbtree_node_color)
    (up : List (ancestor κ ν)) (hc : ctx_ok up c (bheight (rbtree_node.mk k v l r c)))
    (hr : no_red_red (rbtree_node.mk k v l r c)) (hb : balanced (rbtree_node.mk k v l r c))
    (k' : κ) (v' : ν) :
    ctx_ok (⟨LEFT, k', v', r, c⟩ :: up) (node_color l) (bheight l) := by
  obtain ⟨hb1, hb2, hb3⟩ := hb
  exact ⟨fun h => hr.1 h, hr.2.2, hb2, hb3.symm, hc⟩

theorem ctx_ok_right (k : κ) (v : ν) (l r : rbtree_node κ ν) (c : rbtree_node_color)
    (up : List (ancestor κ ν)) (hc : ctx_ok up c (bheight (rbtree_node.mk k v l r c)))
    (hr : no_red_red (rbtree_node.mk k v l r c)) (hb : balanced (rbtree_node.mk k v l r c))
    (k' : κ) (v' : ν) :
    ctx_ok (⟨RIGHT, k', v', l, c⟩ :: up) (node_color r) (bheight r) := by
  obtain ⟨hb1, hb2, hb3⟩ := hb
  refine ⟨fun h => ⟨(hr.1 h).2, (hr.1 h).1⟩, hr.2.1, hb1, hb3, ?_⟩
  rw [← hb3]
  exact hc

theorem insert_loop_valid (cmp : κ → κ → Int) (key : κ) (value : ν) :
    ∀ (n : rbtree_node κ ν) (up : List (ancestor κ ν)), is_null n = false →
    ctx_ok up (node_color n) (bheight n) → no_red_red n → balanced n →
    ∃ t, insert_loop cmp key value n up = some t ∧
      node_color t.root = BLACK ∧ no_red_red t.root ∧ balanced t.root := by
  intro n
  induction n with
  | NULL => intro up h; simp [is_null] at h
  | mk k v l r c ihl ihr =>
    intro up _ hc hr hb
    unfold insert_loop
    split
    · exact ⟨_, rfl, root_of_valid up (.mk k value l r c) hc hr hb⟩
    · have hnew : ∀ up', ctx_ok up' BLACK 0 →
          ∃ t, augment_insert (new_node key value RED NULL NULL) up' = some t ∧
            node_color t.root = BLACK ∧ no_red_red t.root ∧ balanced t.root := by
        intro up' h'
        apply augment_insert_valid up' (new_node key value RED NULL NULL) rfl
        · simp [new_node, no_red_red]
        · simp [new_node, balanced]
        · exact h'
      split
      · cases l with
        | NULL =>
          apply hnew
          exact ctx_ok_weaken _ _ _ (ctx_ok_left k v NULL r c up hc hr hb k v)
        | mk lk lv ll lr lc =>
          exact ihl _ rfl (ctx_ok_left k v _ r c up hc hr hb k v) hr.2.1 hb.1
      · cases r with
        | NULL =>
          apply hnew
          exact ctx_ok_weaken _ _ _ (ctx_ok_right k v l NULL c up hc hr hb k v)
        | mk rk rv rl rr rc =>
          exact ihr _ rfl (ctx_ok_right k v l _ c up hc hr hb k v) hr.2.2 hb.2.1

theorem rbtree_insert_valid (cmp : κ → κ → Int) (t : rbtree κ ν) (key : κ) (value : ν)
    (h1 : node_color t.root = BLACK) (h2 : no_red_red t.root) (h3 : balanced t.root) :
    ∃ t', rbtree_insert cmp t key value = some t' ∧
      node_color t'.root = BLACK ∧ no_red_red t'.root ∧ balanced t'.root := by
  unfold rbtree_insert
  cases hroot : t.root with
  | NULL => exact ⟨_, rfl, rfl, by simp [new_node, no_red_red], by simp [new_node, balanced]⟩
  | mk k v l r c =>
    rw [hroot] at h1 h2 h3
    exact insert_loop_valid cmp key value _ [] rfl h1 h2 h3

theorem lookup_node_valid (cmp : κ → κ → Int) (key : κ) :
    ∀ (n : rbtree_node κ ν) (up : List (ancestor κ ν)) (c : cursor κ ν),
    lookup_node cmp key n up = some c →
    ctx_ok up (node_color n) (bheight n) → no_red_red n → balanced n →
    ctx_ok c.parents (node_color c.node) (bheight c.node) ∧ no_red_red c.node ∧
      balanced c.node := by
  intro n
  induction n with
  | NULL => intro up c h; simp [lookup_node] at h
  | mk k v l r col ihl ihr =>
    intro up c h hc hr hb
    unfold lookup_node at h
    split at h
    · simp only [Option.some.injEq] at h
      subst h
      exact ⟨hc, hr, hb⟩
    · split at h
      · exact ihl _ c h (ctx_ok_left k v l r col up hc hr hb k v) hr.2.1 hb.1
      · exact ihr _ c h (ctx_ok_right k v l r col up hc hr hb k v) hr.2.2 hb.2.1

theorem maximum_node_valid :
    ∀ (n : rbtree_node κ ν) (up : List (ancestor κ ν)), is_null n = false →
    ctx_ok up (node_color n) (bheight n) → no_red_red n → balanced n →
    ∃ k v l c up', maximum_node n up = some ⟨.mk k v l NULL c, up'⟩ ∧
      ctx_ok up' c (bheight (rbtree_node.mk k v l NULL c)) ∧
      no_red_red (rbtree_node.mk k v l NULL c) ∧ balanced (rbtree_node.mk k v l NULL c) := by
  intro n
  induction n with
  | NULL => intro up h; simp [is_null] at h
  | mk k v l r col _ ihr =>
    intro up _ hc hr hb
    cases r with
    | NULL => exact ⟨k, v, l, col, up, rfl, hc, hr, hb⟩
    | mk rk rv rl rr rc =>
      simp only [maximum_node]
      exact ihr _ rfl (ctx_ok_right k v l _ col up hc hr hb k v) hr.2.2 hb.2.1

/-! ## Deletion keeps the colour invariants -/

theorem delete_pred_swap_valid (n : rbtree_node κ ν) (up : List (ancestor κ ν))
    (hn : is_null n = false) (hc : ctx_ok up (node_color n) (bheight n))
    (hr : no_red_red n) (hb : balanced n) :
    ∃ k v l r c up', delete_pred_swap ⟨n, up⟩ = some ⟨.mk k v l r c, up'⟩ ∧
      (is_null l = true ∨ is_null r = true) ∧
      ctx_ok up' c (bheight (rbtree_node.mk k v l r c)) ∧
      no_red_red (rbtree_node.mk k v l r c) ∧ balanced (rbtree_node.mk k v l r c) := by
  cases n with
  | NULL => simp [is_null] at hn
  | mk k v l r c =>
    by_cases h2 : is_null l = false ∧ is_null r = false
    · obtain ⟨pk, pv, pl, pc, up1, e1, -, -, -⟩ :=
        maximum_node_valid l (⟨LEFT, k, v, r, c⟩ :: up) h2.1
          (ctx_ok_left k v l r c up hc hr hb k v) hr.2.1 hb.1
      obtain ⟨qk, qv, ql, qc, up2, e2, f1, f2, f3⟩ :=
        maximum_node_valid l (⟨LEFT, pk, pv, r, c⟩ :: up) h2.1
          (ctx_ok_left k v l r c up hc hr hb pk pv) hr.2.1 hb.1
      refine ⟨qk, qv, ql, NULL, qc, up2, ?_, Or.inr rfl, f1, f2, f3⟩
      simp [delete_pred_swap, h2, e1, e2]
    · refine ⟨k, v, l, r, c, up, by simp only [delete_pred_swap, h2, if_false], ?_, hc, hr, hb⟩
      cases l <;> cases r <;> simp [is_null] at h2 ⊢

theorem bheight_null_of_black (n : rbtree_node κ ν) (h1 : node_color n = BLACK)
    (h2 : bheight n = 0) : n = NULL := by
  cases n with
  | NULL => rfl
  | mk k v l r c =>
    simp only [node_color_mk] at h1
    subst h1
    simp [bheight] at h2

theorem delete_splice_valid (k : κ) (v : ν) (l r : rbtree_node κ ν) (c : rbtree_node_color)
    (up : List (ancestor κ ν)) (h1 : is_null l = true ∨ is_null r = true)
    (hc : ctx_ok up c (bheight (rbtree_node.mk k v l r c)))
    (hr : no_red_red (rbtree_node.mk k v l r c)) (hb : balanced (rbtree_node.mk k v l r c)) :
    ∃ t, delete_splice ⟨.mk k v l r c, up⟩ = some t ∧
      node_color t.root = BLACK ∧ no_red_red t.root ∧ balanced t.root := by
  have h2 : ¬ (is_null l = false ∧ is_null r = false) := by
    rcases h1 with h | h <;> simp [h]
  obtain ⟨hb1, hb2, hb3⟩ := hb
  obtain ⟨hr1, hr2, hr3⟩ := hr
  -- the child that takes the place of the node
  have hchild : ∃ child, (if is_null r = true then l else r) = child ∧ no_red_red child ∧
      balanced child ∧ bheight child = bheight l ∧ (c = RED → node_color child = BLACK) := by
    by_cases hnr : is_null r = true
    · exact ⟨l, by simp [hnr], hr2, hb1, rfl, fun h => (hr1 h).1⟩
    · exact ⟨r, by simp [hnr], hr3, hb2, hb3.symm, fun h => (hr1 h).2⟩
  obtain ⟨child, ech, cr, cb, ch, cc⟩ := hchild
  simp only [delete_splice, h2, if_false, ech, Option.bind_eq_bind]
  rcases color_cases c with hcol | hcol
  · subst hcol
    simp only [red_ne_black, if_false, Option.some_bind]
    cases up with
    | nil => cases hc
    | cons a up =>
      refine ⟨_, rfl, ?_⟩
      apply root_of_valid (a :: up) child _ cr cb
      rw [ch]
      exact ctx_ok_of_red _ _ _ hc
  · subst hcol
    obtain ⟨up', e, hpost⟩ := augment_delete_fuel_valid (up.length + 1)
      (.mk k v l r (node_color child)) up (bheight l) (by omega) hc
    simp only [augment_delete, if_true, e, Option.some_bind]
    cases up' with
    | nil =>
      cases child with
      | NULL => exact ⟨_, rfl, rfl, trivial, trivial⟩
      | mk ck cv cl cr' cc' => exact ⟨_, rfl, rfl, ⟨fun h => (by cases h), cr.2.1, cr.2.2⟩, cb⟩
    | cons a up' =>
      refine ⟨_, rfl, ?_⟩
      apply root_of_valid (a :: up') child _ cr cb
      rw [ch]
      rcases hpost with h | h
      · cases h
      · exact ctx_ok_of_red _ _ _ h

theorem lookup_node_not_null (cmp : κ → κ → Int) (key : κ) :
    ∀ (n : rbtree_node κ ν) (up : List (ancestor κ ν)) (c : cursor κ ν),
    lookup_node cmp key n up = some c →
    ∃ k v l r col, c.node = .mk k v l r col ∧ cmp key k = 0 := by
  intro n
  induction n with
  | NULL => intro up c h; simp [lookup_node] at h
  | mk k v l r col ihl ihr =>
    intro up c h
    unfold lookup_node at h
    split at h
    · simp only [Option.some.injEq] at h
      subst h
      exact ⟨k, v, l, r, col, rfl, by assumption⟩
    · split at h
      · exact ihl _ c h
      · exact ihr _ c h

theorem rbtree_delete_valid (cmp : κ → κ → Int) (t : rbtree κ ν) (key : κ)
    (h1 : node_color t.root = BLACK) (h2 : no_red_red t.root) (h3 : balanced t.root) :
    ∃ t', rbtree_delete cmp t key = some t' ∧
      node_color t'.root = BLACK ∧ no_red_red t'.root ∧ balanced t'.root := by
  unfold rbtree_delete
  cases hl : lookup_node cmp key t.root [] with
  | none => exact ⟨t, rfl, h1, h2, h3⟩
  | some c =>
    obtain ⟨f1, f2, f3⟩ := lookup_node_valid cmp key t.root [] c hl h1 h2 h3
    obtain ⟨k, v, l, r, col, hc, -⟩ := lookup_node_not_null cmp key t.root [] c hl
    cases c with
    | mk n up =>
    simp only at hc f1 f2 f3
    subst hc
    obtain ⟨k', v', l', r', c', up', e, g1, g2, g3, g4⟩ :=
      delete_pred_swap_valid (.mk k v l r col) up rfl f1 f2 f3
    obtain ⟨t', e', hv⟩ := delete_splice_valid k' v' l' r' c' up' g1 g2 g3 g4
    exact ⟨t', by simp [e, e'], hv⟩

/-! ## Deletion removes one pair from the traversal -/

theorem lookup_node_traverse (cmp : κ → κ → Int) (key : κ) :
    ∀ (n : rbtree_node κ ν) (up : List (ancestor κ ν)) (c : cursor κ ν),
    lookup_node cmp key n up = some c →
    before c.parents ++ traverse c.node ++ after c.parents =
      before up ++ traverse n ++ after up := by
  intro n
  induction n with
  | NULL => intro up c h; simp [lookup_node] at h
  | mk k v l r col ihl ihr =>
    intro up c h
    unfold lookup_node at h
    split at h
    · simp only [Option.some.injEq] at h
      subst h
      rfl
    · split at h
      · rw [ihl _ c h]; simp [before, after, traverse]
      · rw [ihr _ c h]; simp [before, after, traverse]

theorem maximum_node_traverse :
    ∀ (n : rbtree_node κ ν) (up : List (ancestor κ ν)) (c : cursor κ ν),
    maximum_node n up = some c →
    ∃ k v l col, c.node = .mk k v l NULL col ∧
      before c.parents ++ traverse l ++ [(k, v)] = before up ++ traverse n ∧
      after c.parents = after up := by
  intro n
  induction n with
  | NULL => intro up c h; simp [maximum_node] at h
  | mk k v l r col _ ihr =>
    intro up c h
    cases r with
    | NULL =>
      simp only [maximum_node, Option.some.injEq] at h
      subst h
      exact ⟨k, v, l, col, rfl, by simp [traverse], rfl⟩
    | mk rk rv rl rr rc =>
      simp only [maximum_node] at h
      obtain ⟨k', v', l', col', e1, e2, e3⟩ := ihr _ c h
      refine ⟨k', v', l', col', e1, ?_, ?_⟩
      · rw [e2]; simp [before, traverse]
      · rw [e3]; simp [after]

theorem delete_pred_swap_traverse (k : κ) (v : ν) (l r : rbtree_node κ ν)
    (c : rbtree_node_color) (up : List (ancestor κ ν)) (k' : κ) (v' : ν)
    (l' r' : rbtree_node κ ν) (c' : rbtree_node_color) (up' : List (ancestor κ ν))
    (h : delete_pred_swap ⟨.mk k v l r c, up⟩ = some ⟨.mk k' v' l' r' c', up'⟩) :
    ∃ A B, before up ++ traverse (.mk k v l r c) ++ after up = A ++ (k, v) :: B ∧
      before up' ++ traverse l' ++ traverse r' ++ after up' = A ++ B := by
  refine ⟨before up ++ traverse l, traverse r ++ after up, by simp [traverse], ?_⟩
  simp only [delete_pred_swap] at h
  split at h
  · simp only [Option.bind_eq_bind, Option.bind_eq_some] at h
    obtain ⟨pred, e1, h⟩ := h
    obtain ⟨pk, pv, pl, pc, f1, f2, -⟩ := maximum_node_traverse _ _ _ e1
    rw [f1] at h
    obtain ⟨qk, qv, ql, qc, g1, g2, g3⟩ := maximum_node_traverse _ _ _ h
    simp only [rbtree_node.mk.injEq] at g1
    obtain ⟨rfl, rfl, rfl, rfl, rfl⟩ := g1
    simp only [before, after] at f2 g2 g3
    have e : before up' ++ traverse l' = before pred.parents ++ traverse pl ∧
        [(k', v')] = [(pk, pv)] := by
      apply List.append_inj'
      · rw [g2, f2]
      · rfl
    have e2 : before up' ++ traverse l' ++ [(pk, pv)] = before up ++ traverse l := by
      rw [e.1]; exact f2
    rw [g3]
    have e3 := congrArg (fun x => x ++ (traverse r ++ after up)) e2
    simpa [traverse] using e3
  · simp only [Option.some.injEq, cursor.mk.injEq, rbtree_node.mk.injEq] at h
    obtain ⟨⟨rfl, rfl, rfl, rfl, rfl⟩, rfl⟩ := h
    simp

theorem delete_splice_traverse (k : κ) (v : ν) (l r : rbtree_node κ ν)
    (c : rbtree_node_color) (up : List (ancestor κ ν)) (t : rbtree κ ν)
    (h : delete_splice ⟨.mk k v l r c, up⟩ = some t) :
    traverse t.root = before up ++ traverse l ++ traverse r ++ after up := by
  simp only [delete_splice] at h
  split at h
  · simp at h
  · rename_i hnn
    have hchild : traverse (if is_null r = true then l else r) = traverse l ++ traverse r := by
      cases l <;> cases r <;> simp [is_null, traverse] at hnn ⊢
    have h' : ∃ n' : cursor κ ν, (before n'.parents = before up ∧ after n'.parents = after up) ∧
        (match n'.parents with
          | [] =>
            match (if is_null r = true then l else r) with
            | .NULL => some ⟨NULL⟩
            | .mk ck cv cl cr _ => some ⟨.mk ck cv cl cr BLACK⟩
          | up => some ⟨root_of (if is_null r = true then l else r) up⟩) = some t := by
      split at h
      · simp only [Option.bind_eq_bind, Option.bind_eq_some] at h
        obtain ⟨n', e, h⟩ := h
        exact ⟨n', (augment_delete_fuel_traverse _ _ _ _ e).2, h⟩
      · simp only [Option.bind_eq_bind, Option.some_bind] at h
        exact ⟨⟨.mk k v l r c, up⟩, ⟨rfl, rfl⟩, h⟩
    clear h
    obtain ⟨n', hn', h⟩ := h'
    rw [← hn'.1, ← hn'.2, List.append_assoc (before n'.parents), ← hchild]
    generalize (if is_null r = true then l else r) = child at h
    cases hp : n'.parents with
    | nil =>
      rw [hp] at h
      cases child with
      | NULL =>
        simp only [Option.some.injEq] at h
        subst h
        simp [before, after, traverse]
      | mk ck cv cl cr cc =>
        simp only [Option.some.injEq] at h
        subst h
        simp [before, after, traverse]
    | cons a up' =>
      rw [hp] at h
      simp only [Option.some.injEq] at h
      subst h
      exact traverse_root_of _ _

theorem rbtree_delete_traverse (cmp : κ → κ → Int) (t t' : rbtree κ ν) (key : κ)
    (h : rbtree_delete cmp t key = some t') :
    (lookup_node cmp key t.root [] = none ∧ t' = t) ∨
      ∃ A k v B, cmp key k = 0 ∧ traverse t.root = A ++ (k, v) :: B ∧
        traverse t'.root = A ++ B := by
  unfold rbtree_delete at h
  cases hl : lookup_node cmp key t.root [] with
  | none =>
    rw [hl] at h
    simp only [Option.some.injEq] at h
    exact Or.inl ⟨rfl, h.symm⟩
  | some c =>
    right
    rw [hl] at h
    simp only [Option.bind_eq_bind, Option.bind_eq_some] at h
    obtain ⟨c', e1, e2⟩ := h
    obtain ⟨k, v, l, r, col, hc, hk⟩ := lookup_node_not_null cmp key t.root [] c hl
    have ht := lookup_node_traverse cmp key t.root [] c hl
    cases c with
    | mk n up =>
    simp only at hc ht
    subst hc
    cases c' with
    | mk n' up' =>
    cases n' with
    | NULL => simp [delete_splice] at e2
    | mk k' v' l' r' col' =>
      obtain ⟨A, B, hA, hB⟩ := delete_pred_swap_traverse _ _ _ _ _ _ _ _ _ _ _ _ e1
      refine ⟨A, k, v, B, hk, ?_, ?_⟩
      · rw [← hA, ht]; simp [before, after]
      · rw [delete_splice_traverse _ _ _ _ _ _ _ e2, hB]

/-! ## Ordered trees and ascending traversals -/

theorem ordered_iff_ascending {cmp : κ → κ → Int} (hc : comparator_ok cmp)
    (n : rbtree_node κ ν) : ordered cmp n ↔ ascending cmp (traverse n) := by
  induction n with
  | NULL => simp [ordered, ascending, traverse]
  | mk k v l r c ihl ihr =>
    simp only [ordered, ascending, traverse, List.pairwise_append, List.pairwise_cons,
      List.mem_cons, ihl, ihr]
    constructor
    · rintro ⟨h1, h2, h3, h4⟩
      refine ⟨h3, ⟨fun b hb => (hc.gt_iff _ _).1 (h2 b hb), h4⟩, ?_⟩
      rintro a ha b (rfl | hb)
      · exact h1 a ha
      · exact hc.lt_trans (h1 a ha) ((hc.gt_iff _ _).1 (h2 b hb))
    · rintro ⟨h1, ⟨h2, h3⟩, h4⟩
      exact ⟨fun a ha => h4 a ha (k, v) (Or.inl rfl),
        fun b hb => (hc.gt_iff _ _).2 (h2 b hb), h1, h3⟩

theorem ascending_of_append_cons {cmp : κ → κ → Int} (A B : List (κ × ν)) (x : κ × ν)
    (h : ascending cmp (A ++ x :: B)) : ascending cmp (A ++ B) :=
  List.Pairwise.sublist (List.Sublist.append_left (List.sublist_cons_self x B) A) h

theorem ne_of_ascending {cmp : κ → κ → Int} (hc : comparator_ok cmp) (key : κ)
    (A B : List (κ × ν)) (x : κ × ν) (h : ascending cmp (A ++ x :: B))
    (hx : cmp key x.1 = 0) : ∀ y ∈ A ++ B, cmp key y.1 ≠ 0 := by
  simp only [ascending, List.pairwise_append, List.pairwise_cons, List.mem_cons] at h
  obtain ⟨-, ⟨h2, -⟩, h3⟩ := h
  intro y hy hy0
  rcases List.mem_append.1 hy with hA | hB
  · have h1 := h3 y hA x (Or.inl rfl)
    have h4 := hc.eq_lt hy0 h1
    omega
  · have h1 := h2 y hB
    have h4 := hc.eq_lt hx h1
    omega

/-! ## The reference list operations -/

theorem list_insert_append_lt (cmp : κ → κ → Int) (key : κ) (value : ν)
    (A B : List (κ × ν)) (x : κ × ν) (h : cmp key x.1 < 0) :
    list_insert cmp key value (A ++ x :: B) = list_insert cmp key value A ++ x :: B := by
  induction A with
  | nil =>
    obtain ⟨k, v⟩ := x
    have h0 : cmp key k ≠ 0 := by simp only at h; omega
    simp only [List.nil_append, list_insert, h0, if_false]
    simp only at h
    simp [h]
  | cons a A ih =>
    obtain ⟨ak, av⟩ := a
    simp only [List.cons_append, list_insert, List.append_eq]
    split
    · rfl
    · split
      · rfl
      · rw [ih]; rfl

theorem list_insert_append_gt (cmp : κ → κ → Int) (key : κ) (value : ν)
    (A L : List (κ × ν)) (h : ∀ x ∈ A, 0 < cmp key x.1) :
    list_insert cmp key value (A ++ L) = A ++ list_insert cmp key value L := by
  induction A with
  | nil => rfl
  | cons a A ih =>
    obtain ⟨ak, av⟩ := a
    have ha := h (ak, av) (List.mem_cons_self _ _)
    simp only at ha
    have h0 : cmp key ak ≠ 0 := by omega
    have h1 : ¬ cmp key ak < 0 := by omega
    simp only [List.cons_append, list_insert, h0, h1, if_false, List.append_eq]
    rw [ih fun x hx => h x (List.mem_cons_of_mem _ hx)]

theorem mem_list_insert (cmp : κ → κ → Int) (key : κ) (value : ν) (l : List (κ × ν))
    (b : κ × ν) (h : b ∈ list_insert cmp key value l) :
    b.1 = key ∨ ∃ b' ∈ l, b'.1 = b.1 := by
  induction l with
  | nil =>
    simp only [list_insert, List.mem_singleton] at h
    subst h
    exact Or.inl rfl
  | cons a l ih =>
    obtain ⟨ak, av⟩ := a
    simp only [list_insert] at h
    split at h
    · rcases List.mem_cons.1 h with rfl | h
      · exact Or.inr ⟨(ak, av), List.mem_cons_self _ _, rfl⟩
      · exact Or.inr ⟨b, List.mem_cons_of_mem _ h, rfl⟩
    · split at h
      · rcases List.mem_cons.1 h with rfl | h
        · exact Or.inl rfl
        · exact Or.inr ⟨b, h, rfl⟩
      · rcases List.mem_cons.1 h with rfl | h
        · exact Or.inr ⟨(ak, av), List.mem_cons_self _ _, rfl⟩
        · rcases ih h with h | ⟨b', hb', e⟩
          · exact Or.inl h
          · exact Or.inr ⟨b', List.mem_cons_of_mem _ hb', e⟩

theorem ascending_list_insert {cmp : κ → κ → Int} (hc : comparator_ok cmp) (key : κ)
    (value : ν) (l : List (κ × ν)) (h : ascending cmp l) :
    ascending cmp (list_insert cmp key value l) := by
  induction l with
  | nil => simp [list_insert, ascending]
  | cons a l ih =>
    obtain ⟨ak, av⟩ := a
    simp only [ascending, List.pairwise_cons] at h
    obtain ⟨h1, h2⟩ := h
    simp only [list_insert]
    split
    · exact List.pairwise_cons.2 ⟨h1, h2⟩
    · split
      · rename_i hlt
        refine List.pairwise_cons.2 ⟨?_, List.pairwise_cons.2 ⟨h1, h2⟩⟩
        intro b hb
        rcases List.mem_cons.1 hb with rfl | hb
        · exact hlt
        · exact hc.lt_trans hlt (h1 b hb)
      · rename_i h0 hlt
        have hgt : cmp ak key < 0 := by
          have := hc.antisymm ak key
          omega
        refine List.pairwise_cons.2 ⟨?_, ih h2⟩
        intro b hb
        rcases mem_list_insert cmp key value l b hb with e | ⟨b', hb', e⟩
        · rw [e]; exact hgt
        · rw [← e]; exact h1 b' hb'

theorem list_lookup_insert {cmp : κ → κ → Int} (hc : comparator_ok cmp) (key : κ)
    (value : ν) (l : List (κ × ν)) :
    list_lookup cmp key (list_insert cmp key value l) = some value := by
  induction l with
  | nil => simp [list_insert, list_lookup, hc.refl]
  | cons a l ih =>
    obtain ⟨ak, av⟩ := a
    simp only [list_insert]
    split
    · rename_i h0
      simp [list_lookup, h0]
    · split
      · simp [list_lookup, hc.refl]
      · rename_i h0 _
        simp [list_lookup, h0, ih]

theorem list_lookup_eq_none (cmp : κ → κ → Int) (key : κ) (l : List (κ × ν)) :
    list_lookup cmp key l = none ↔ ∀ x ∈ l, cmp key x.1 ≠ 0 := by
  induction l with
  | nil => simp [list_lookup]
  | cons a l ih =>
    obtain ⟨ak, av⟩ := a
    simp only [list_lookup, List.mem_cons, forall_eq_or_imp]
    split
    · rename_i h0
      simp [h0]
    · rename_i h0
      simp [h0, ih]

theorem list_lookup_append_of_ne (cmp : κ → κ → Int) (key : κ) (A B : List (κ × ν))
    (h : ∀ x ∈ A, cmp key x.1 ≠ 0) :
    list_lookup cmp key (A ++ B) = list_lookup cmp key B := by
  induction A with
  | nil => rfl
  | cons a A ih =>
    obtain ⟨ak, av⟩ := a
    have h0 : cmp key ak ≠ 0 := h (ak, av) (List.mem_cons_self _ _)
    simp only [List.cons_append, list_lookup, h0, if_false, List.append_eq]
    exact ih fun x hx => h x (List.mem_cons_of_mem _ hx)

theorem list_lookup_append_left (cmp : κ → κ → Int) (key : κ) (A B : List (κ × ν))
    (h : ∀ x ∈ B, cmp key x.1 ≠ 0) :
    list_lookup cmp key (A ++ B) = list_lookup cmp key A := by
  induction A with
  | nil => simpa using (list_lookup_eq_none cmp key B).2 h
  | cons a A ih =>
    obtain ⟨ak, av⟩ := a
    simp only [List.cons_append, list_lookup, List.append_eq, ih]

theorem list_lookup_of_mem {cmp : κ → κ → Int} (hc : comparator_ok cmp) (key : κ)
    (l : List (κ × ν)) (h : ascending cmp l) (x : κ × ν) (hx : x ∈ l)
    (h0 : cmp key x.1 = 0) : list_lookup cmp key l = some x.2 := by
  induction l with
  | nil => simp at hx
  | cons a l ih =>
    obtain ⟨ak, av⟩ := a
    simp only [ascending, List.pairwise_cons] at h
    obtain ⟨h1, h2⟩ := h
    simp only [list_lookup]
    rcases List.mem_cons.1 hx with rfl | hx
    · simp only at h0
      simp [h0]
    · have hlt := h1 x hx
      simp only at hlt
      have hne : cmp key ak ≠ 0 := by
        intro e
        have := hc.eq_lt e hlt
        omega
      simp only [hne, if_false]
      exact ih h2 hx

theorem list_lookup_filter {cmp : κ → κ → Int} (hc : comparator_ok cmp) (key : κ)
    (l : List (κ × ν)) (h : ascending cmp l) (v : ν) (hv : list_lookup cmp key l = some v) :
    ∃ k', cmp key k' = 0 ∧ l.filter (fun p => decide (cmp key p.1 = 0)) = [(k', v)] := by
  induction l with
  | nil => simp [list_lookup] at hv
  | cons a l ih =>
    obtain ⟨ak, av⟩ := a
    simp only [ascending, List.pairwise_cons] at h
    obtain ⟨h1, h2⟩ := h
    simp only [list_lookup] at hv
    split at hv
    · rename_i h0
      simp only [Option.some.injEq] at hv
      subst hv
      refine ⟨ak, h0, ?_⟩
      have : l.filter (fun p => decide (cmp key p.1 = 0)) = [] := by
        rw [List.filter_eq_nil_iff]
        intro y hy
        have := hc.eq_lt h0 (h1 y hy)
        simp only [decide_eq_true_eq]
        omega
      simp [List.filter_cons, h0, this]
    · rename_i h0
      obtain ⟨k', hk', e⟩ := ih h2 hv
      exact ⟨k', hk', by simp [List.filter_cons, h0, e]⟩

theorem list_lookup_remove (cmp : κ → κ → Int) (key : κ) (A B : List (κ × ν)) (x : κ × ν)
    (h : cmp key x.1 ≠ 0) :
    list_lookup cmp key (A ++ B) = list_lookup cmp key (A ++ x :: B) := by
  induction A with
  | nil =>
    obtain ⟨k, v⟩ := x
    simp only at h
    simp [list_lookup, h]
  | cons a A ih =>
    obtain ⟨ak, av⟩ := a
    simp only [List.cons_append, list_lookup, List.append_eq, ih]

/-! ## Lookup and insertion against the reference list operations -/

theorem ordered_left_ne {cmp : κ → κ → Int} (hc : comparator_ok cmp) (key k : κ)
    (L : List (κ × ν)) (hL : ∀ x ∈ L, cmp x.1 k < 0) (hk : 0 ≤ cmp key k) :
    ∀ x ∈ L, 0 < cmp key x.1 := by
  intro x hx
  have h1 := hL x hx
  have h2 : cmp k key ≤ 0 := by
    have := hc.antisymm k key
    have := hc.antisymm key k
    omega
  have h3 := hc.le_trans x.1 k key (by omega) h2
  have h4 := hc.antisymm x.1 key
  have h5 := hc.antisymm key x.1
  have h6 := hc.le_trans k key x.1 h2
  have h7 := hc.antisymm k x.1
  have h8 := hc.antisymm x.1 k
  omega

theorem ordered_right_ne {cmp : κ → κ → Int} (hc : comparator_ok cmp) (key k : κ)
    (R : List (κ × ν)) (hR : ∀ x ∈ R, 0 < cmp x.1 k) (hk : cmp key k ≤ 0) :
    ∀ x ∈ R, cmp key x.1 < 0 := by
  intro x hx
  have h1 := hR x hx
  have h2 := hc.antisymm k x.1
  have h3 := hc.le_trans key k x.1 hk (by omega)
  have h4 := hc.antisymm x.1 key
  have h5 := hc.antisymm key x.1
  have h6 := hc.le_trans x.1 key k
  omega

theorem lookup_node_value {cmp : κ → κ → Int} (hc : comparator_ok cmp) (key : κ) :
    ∀ (n : rbtree_node κ ν) (up : List (ancestor κ ν)), ordered cmp n →
    (match lookup_node cmp key n up with
      | some ⟨.mk _ v _ _ _, _⟩ => some v
      | _ => none) = list_lookup cmp key (traverse n) := by
  intro n
  induction n with
  | NULL => intro up _; simp [lookup_node, traverse, list_lookup]
  | mk k v l r c ihl ihr =>
    intro up ho
    obtain ⟨h1, h2, h3, h4⟩ := ho
    simp only [lookup_node, traverse]
    split_ifs with h0 hlt
    · have hl := ordered_left_ne hc key k _ h1 (by omega)
      rw [list_lookup_append_of_ne cmp key _ _ (fun x hx => by have := hl x hx; omega)]
      simp [list_lookup, h0]
    · have hr := ordered_right_ne hc key k _ h2 (by omega)
      rw [ihl _ h3]
      symm
      apply list_lookup_append_left
      intro x hx
      rcases List.mem_cons.1 hx with rfl | hx
      · exact h0
      · have := hr x hx; omega
    · have hl := ordered_left_ne hc key k _ h1 (by omega)
      rw [ihr _ h4, list_lookup_append_of_ne cmp key _ _ (fun x hx => by have := hl x hx; omega)]
      simp [list_lookup, h0]

theorem rbtree_lookup_eq {cmp : κ → κ → Int} (hc : comparator_ok cmp) (t : rbtree κ ν)
    (key : κ) (ho : ordered cmp t.root) :
    rbtree_lookup cmp t key = list_lookup cmp key (traverse t.root) :=
  lookup_node_value hc key t.root [] ho

theorem insert_loop_traverse {cmp : κ → κ → Int} (hc : comparator_ok cmp) (key : κ)
    (value : ν) :
    ∀ (n : rbtree_node κ ν) (up : List (ancestor κ ν)) (t : rbtree κ ν), ordered cmp n →
    insert_loop cmp key value n up = some t →
    traverse t.root = before up ++ list_insert cmp key value (traverse n) ++ after up := by
  intro n
  induction n with
  | NULL => intro up t _ h; simp [insert_loop] at h
  | mk k v l r c ihl ihr =>
    intro up t ho h
    obtain ⟨h1, h2, h3, h4⟩ := ho
    unfold insert_loop at h
    simp only [traverse]
    split_ifs at h with h0 hlt
    · have hl := ordered_left_ne hc key k _ h1 (by omega)
      simp only [Option.some.injEq] at h
      subst h
      rw [list_insert_append_gt cmp key value _ _ hl, traverse_root_of]
      simp [list_insert, h0, traverse]
    · rw [list_insert_append_lt cmp key value _ _ (k, v) hlt]
      cases l with
      | NULL =>
        rw [augment_insert_traverse _ _ _ h]
        simp [before, after, traverse, new_node, list_insert]
      | mk lk lv ll lr lc =>
        simp only at h
        rw [ihl _ _ h3 h]
        simp [before, after]
    · have hl := ordered_left_ne hc key k _ h1 (by omega)
      have hl' : ∀ x ∈ traverse l ++ [(k, v)], 0 < cmp key x.1 := by
        intro x hx
        rcases List.mem_append.1 hx with hx | hx
        · exact hl x hx
        · simp only [List.mem_singleton] at hx
          subst hx
          simp only
          omega
      have e : traverse l ++ (k, v) :: traverse r = (traverse l ++ [(k, v)]) ++ traverse r := by
        simp
      rw [e, list_insert_append_gt cmp key value _ _ hl']
      cases r with
      | NULL =>
        rw [augment_insert_traverse _ _ _ h]
        simp [before, after, traverse, new_node, list_insert]
      | mk rk rv rl rr rc =>
        simp only at h
        rw [ihr _ _ h4 h]
        simp [before, after]

theorem rbtree_insert_traverse {cmp : κ → κ → Int} (hc : comparator_ok cmp)
    (t t' : rbtree κ ν) (key : κ) (value : ν) (ho : ordered cmp t.root)
    (h : rbtree_insert cmp t key value = some t') :
    traverse t'.root = list_insert cmp key value (traverse t.root) := by
  unfold rbtree_insert at h
  cases hroot : t.root with
  | NULL =>
    rw [hroot] at h
    simp only at h
    rw [augment_insert_traverse _ _ _ h]
    simp [before, after, traverse, new_node, list_insert]
  | mk k v l r c =>
    rw [hroot] at h ho
    simp only at h
    rw [insert_loop_traverse hc key value _ _ _ ho h]
    simp [before, after]

theorem overwrite_value_eq_self (cmp : κ → κ → Int) (key : κ) (value : ν)
    (n : rbtree_node κ ν) (h : ∀ x ∈ traverse n, cmp key x.1 ≠ 0) :
    overwrite_value cmp key value n = n := by
  induction n with
  | NULL => rfl
  | mk k v l r c ihl ihr =>
    simp only [traverse, List.mem_append, List.mem_cons] at h
    have h0 : cmp key k ≠ 0 := h (k, v) (Or.inr (Or.inl rfl))
    simp only [overwrite_value, h0, if_false]
    rw [ihl fun x hx => h x (Or.inl hx), ihr fun x hx => h x (Or.inr (Or.inr hx))]

theorem insert_loop_overwrite {cmp : κ → κ → Int} (hc : comparator_ok cmp) (key : κ)
    (value : ν) :
    ∀ (n : rbtree_node κ ν) (up : List (ancestor κ ν)), ordered cmp n →
    (∃ x ∈ traverse n, cmp key x.1 = 0) →
    insert_loop cmp key value n up =
      some ⟨root_of (overwrite_value cmp key value n) up⟩ := by
  intro n
  induction n with
  | NULL => intro up _ h; simp [traverse] at h
  | mk k v l r c ihl ihr =>
    intro up ho hx
    obtain ⟨h1, h2, h3, h4⟩ := ho
    obtain ⟨x, hx, hx0⟩ := hx
    simp only [traverse, List.mem_append, List.mem_cons] at hx
    unfold insert_loop
    simp only [overwrite_value]
    split_ifs with h0 hlt
    · have hl := ordered_left_ne hc key k _ h1 (by omega)
      have hr := ordered_right_ne hc key k _ h2 (by omega)
      rw [overwrite_value_eq_self cmp key value l (fun y hy => by have := hl y hy; omega),
        overwrite_value_eq_self cmp key value r (fun y hy => by have := hr y hy; omega)]
    · have hr := ordered_right_ne hc key k _ h2 (by omega)
      have hxl : x ∈ traverse l := by
        rcases hx with hx | rfl | hx
        · exact hx
        · exact absurd hx0 h0
        · have := hr x hx; omega
      rw [overwrite_value_eq_self cmp key value r (fun y hy => by have := hr y hy; omega)]
      cases l with
      | NULL => simp [traverse] at hxl
      | mk lk lv ll lr lc =>
        simp only
        rw [ihl _ h3 ⟨x, hxl, hx0⟩]
        rfl
    · have hl := ordered_left_ne hc key k _ h1 (by omega)
      have hxr : x ∈ traverse r := by
        rcases hx with hx | rfl | hx
        · have := hl x hx; omega
        · exact absurd hx0 h0
        · exact hx
      rw [overwrite_value_eq_self cmp key value l (fun y hy => by have := hl y hy; omega)]
      cases r with
      | NULL => simp [traverse] at hxr
      | mk rk rv rl rr rc =>
        simp only
        rw [ihr _ h4 ⟨x, hxr, hx0⟩]
        rfl

theorem rbtree_insert_overwrite {cmp : κ → κ → Int} (hc : comparator_ok cmp)
    (t : rbtree κ ν) (key : κ) (value : ν) (ho : ordered cmp t.root)
    (hx : ∃ x ∈ traverse t.root, cmp key x.1 = 0) :
    rbtree_insert cmp t key value = some ⟨overwrite_value cmp key value t.root⟩ := by
  unfold rbtree_insert
  cases hroot : t.root with
  | NULL => rw [hroot] at hx; simp [traverse] at hx
  | mk k v l r c =>
    rw [hroot] at hx ho
    simp only
    rw [insert_loop_overwrite hc key value _ [] ho hx]
    rfl

/-! ## The invariants along calls of the public operations -/

theorem rb_valid_iff (t : rbtree κ ν) :
    rb_valid t ↔ node_color t.root = BLACK ∧ no_red_red t.root ∧ balanced t.root := by
  simp only [rb_valid, same_black_count_iff]

theorem rbtree_insert_rb (cmp : κ → κ → Int) (t : rbtree κ ν) (key : κ) (value : ν)
    (h : rb_valid t) : ∃ t', rbtree_insert cmp t key value = some t' ∧ rb_valid t' := by
  obtain ⟨h1, h2, h3⟩ := (rb_valid_iff t).1 h
  obtain ⟨t', e, hv⟩ := rbtree_insert_valid cmp t key value h1 h2 h3
  exact ⟨t', e, (rb_valid_iff t').2 hv⟩

theorem rbtree_delete_rb (cmp : κ → κ → Int) (t : rbtree κ ν) (key : κ)
    (h : rb_valid t) : ∃ t', rbtree_delete cmp t key = some t' ∧ rb_valid t' := by
  obtain ⟨h1, h2, h3⟩ := (rb_valid_iff t).1 h
  obtain ⟨t', e, hv⟩ := rbtree_delete_valid cmp t key h1 h2 h3
  exact ⟨t', e, (rb_valid_iff t').2 hv⟩

theorem rbtree_insert_ordered {cmp : κ → κ → Int} (hc : comparator_ok cmp)
    (t t' : rbtree κ ν) (key : κ) (value : ν) (ho : ordered cmp t.root)
    (h : rbtree_insert cmp t key value = some t') : ordered cmp t'.root := by
  rw [ordered_iff_ascending hc, rbtree_insert_traverse hc t t' key value ho h]
  exact ascending_list_insert hc key value _ ((ordered_iff_ascending hc _).1 ho)

theorem lookup_node_none_of_ne (cmp : κ → κ → Int) (t : rbtree κ ν) (key : κ)
    (h : ∀ x ∈ traverse t.root, cmp key x.1 ≠ 0) : lookup_node cmp key t.root [] = none := by
  cases hl : lookup_node cmp key t.root [] with
  | none => rfl
  | some c =>
    exfalso
    obtain ⟨k, v, l, r, col, hc, hk⟩ := lookup_node_not_null cmp key t.root [] c hl
    have ht := lookup_node_traverse cmp key t.root [] c hl
    simp only [before, after, List.nil_append, List.append_nil] at ht
    apply h (k, v) _ hk
    rw [← ht, hc]
    simp [traverse]

theorem rbtree_delete_ordered {cmp : κ → κ → Int} (hc : comparator_ok cmp)
    (t t' : rbtree κ ν) (key : κ) (ho : ordered cmp t.root)
    (h : rbtree_delete cmp t key = some t') : ordered cmp t'.root := by
  rcases rbtree_delete_traverse cmp t t' key h with ⟨-, rfl⟩ | ⟨A, k, v, B, -, e1, e2⟩
  · exact ho
  · rw [ordered_iff_ascending hc] at ho ⊢
    rw [e2]
    rw [e1] at ho
    exact ascending_of_append_cons A B (k, v) ho

theorem rbtree_delete_removes {cmp : κ → κ → Int} (hc : comparator_ok cmp)
    (t t' : rbtree κ ν) (key : κ) (ho : ordered cmp t.root)
    (h : rbtree_delete cmp t key = some t') :
    ∀ x ∈ traverse t'.root, x ∈ traverse t.root ∧ cmp key x.1 ≠ 0 := by
  rcases rbtree_delete_traverse cmp t t' key h with ⟨hn, rfl⟩ | ⟨A, k, v, B, hk, e1, e2⟩
  · intro x hx
    refine ⟨hx, ?_⟩
    have := rbtree_lookup_eq hc t' key ho
    have hnone : list_lookup cmp key (traverse t'.root) = none := by
      rw [← this]; simp [rbtree_lookup, hn]
    exact (list_lookup_eq_none cmp key _).1 hnone x hx
  · rw [ordered_iff_ascending hc, e1] at ho
    intro x hx
    rw [e2] at hx
    refine ⟨?_, ne_of_ascending hc key A B (k, v) ho hk x hx⟩
    rw [e1]
    rcases List.mem_append.1 hx with hx | hx
    · exact List.mem_append_left _ hx
    · exact List.mem_append_right _ (List.mem_cons_of_mem _ hx)

theorem rb_valid_create : rb_valid (rbtree_create : rbtree κ ν) := by
  refine ⟨rfl, trivial, ?_⟩
  intro a ha b hb
  simp only [rbtree_create, black_counts, List.mem_singleton] at ha hb
  rw [ha, hb]

theorem reachable_inv {cmp : κ → κ → Int} (hc : comparator_ok cmp) (t : rbtree κ ν)
    (h : reachable cmp t) : rb_valid t ∧ ordered cmp t.root := by
  induction h with
  | create => exact ⟨rb_valid_create, trivial⟩
  | insert t t' key value _ e ih =>
    obtain ⟨t'', e', hv⟩ := rbtree_insert_rb cmp t key value ih.1
    rw [e] at e'
    simp only [Option.some.injEq] at e'
    subst e'
    exact ⟨hv, rbtree_insert_ordered hc t t' key value ih.2 e⟩
  | delete t t' key _ e ih =>
    obtain ⟨t'', e', hv⟩ := rbtree_delete_rb cmp t key ih.1
    rw [e] at e'
    simp only [Option.some.injEq] at e'
    subst e'
    exact ⟨hv, rbtree_delete_ordered hc t t' key ih.2 e⟩

theorem insert_all_spec {cmp : κ → κ → Int} (hc : comparator_ok cmp) :
    ∀ (kvs : List (κ × ν)) (t : rbtree κ ν), rb_valid t → ordered cmp t.root →
    ∃ t1, insert_all cmp t kvs = some t1 ∧ rb_valid t1 ∧ ordered cmp t1.root ∧
      ∀ x ∈ traverse t1.root, (∃ y ∈ traverse t.root, y.1 = x.1) ∨ x.1 ∈ kvs.map Prod.fst
  | [], t, hv, ho => ⟨t, rfl, hv, ho, fun x hx => Or.inl ⟨x, hx, rfl⟩⟩
  | (k, v) :: rest, t, hv, ho => by
    obtain ⟨t', e, hv'⟩ := rbtree_insert_rb cmp t k v hv
    have ho' := rbtree_insert_ordered hc t t' k v ho e
    obtain ⟨t1, e1, hv1, ho1, hm⟩ := insert_all_spec hc rest t' hv' ho'
    refine ⟨t1, by simp [insert_all, e, e1], hv1, ho1, ?_⟩
    intro x hx
    rcases hm x hx with ⟨y, hy, hyx⟩ | hx'
    · rw [rbtree_insert_traverse hc t t' k v ho e] at hy
      rcases mem_list_insert cmp k v _ y hy with h | ⟨b', hb', hb⟩
      · right
        simp only [List.map_cons, List.mem_cons]
        exact Or.inl (by rw [← hyx, h])
      · exact Or.inl ⟨b', hb', by rw [hb, hyx]⟩
    · right
      simp only [List.map_cons, List.mem_cons]
      exact Or.inr hx'

theorem delete_all_spec {cmp : κ → κ → Int} (hc : comparator_ok cmp) :
    ∀ (ds : List κ) (t : rbtree κ ν), rb_valid t → ordered cmp t.root →
    ∃ t2, delete_all cmp t ds = some t2 ∧ rb_valid t2 ∧ ordered cmp t2.root ∧
      ∀ x ∈ traverse t2.root, x ∈ traverse t.root ∧ ∀ d ∈ ds, cmp d x.1 ≠ 0
  | [], t, hv, ho => ⟨t, rfl, hv, ho, fun x hx => ⟨hx, fun d hd => by simp at hd⟩⟩
  | d :: rest, t, hv, ho => by
    obtain ⟨t', e, hv'⟩ := rbtree_delete_rb cmp t d hv
    have ho' := rbtree_delete_ordered hc t t' d ho e
    have hrem := rbtree_delete_removes hc t t' d ho e
    obtain ⟨t2, e2, hv2, ho2, hm⟩ := delete_all_spec hc rest t' hv' ho'
    refine ⟨t2, by simp [delete_all, e, e2], hv2, ho2, ?_⟩
    intro x hx
    obtain ⟨hx', hds⟩ := hm x hx
    obtain ⟨hx'', hd⟩ := hrem x hx'
    refine ⟨hx'', ?_⟩
    intro d' hd'
    rcases List.mem_cons.1 hd' with rfl | hd'
    · exact hd
    · exact hds d' hd'

theorem traverse_eq_nil (n : rbtree_node κ ν) (h : traverse n = []) : n = NULL := by
  cases n with
  | NULL => rfl
  | mk k v l r c => simp [traverse] at h

/-! ## The bound on nested calls of the deletion fix-up is never reached -/

theorem augment_delete_case2_shape (n : rbtree_node κ ν) (p : ancestor κ ν)
    (up : List (ancestor κ ν)) (c : cursor κ ν) (h : augment_delete_case2 n p up = some c) :
    c = ⟨n, p :: up⟩ ∨ ∃ p' g', c = ⟨n, p' :: g' :: up⟩ ∧ p'.color = RED := by
  cases p with
  | mk ps pk pv psib pc =>
  by_cases hs : node_color psib = RED
  · right
    cases psib with
    | NULL => simp at hs
    | mk sk sv sl sr sc =>
      cases ps <;>
        simp [augment_delete_case2, hs, set_color, rotate_left, rotate_right, child_cursor] at h <;>
        subst h <;> exact ⟨_, _, rfl, rfl⟩
  · left
    simp [augment_delete_case2, hs] at h
    exact h.symm

theorem augment_delete_fuel_enough : ∀ (f1 f2 : Nat) (n : rbtree_node κ ν)
    (up : List (ancestor κ ν)), up.length < f1 → up.length < f2 →
    augment_delete_fuel f1 n up = augment_delete_fuel f2 n up
  | 0, _, _, _, h, _ => by simp at h
  | _ + 1, 0, _, _, _, h => by simp at h
  | _ + 1, _ + 1, _, [], _, _ => rfl
  | f1 + 1, f2 + 1, n, p :: up, h1, h2 => by
    simp only [augment_delete_fuel]
    cases hc2 : augment_delete_case2 n p up with
    | none => rfl
    | some c2 =>
      simp only [Option.bind_eq_bind, Option.some_bind]
      rcases augment_delete_case2_shape n p up c2 hc2 with rfl | ⟨p', g', rfl, hp'⟩
      · simp only
        cases hs : p.sibling with
        | NULL => rfl
        | mk sk sv sl sr sc =>
          simp only
          rw [augment_delete_fuel_enough f1 f2 _ up (by simpa using h1) (by simpa using h2)]
      · simp only
        cases hs : p'.sibling with
        | NULL => rfl
        | mk sk sv sl sr sc =>
          simp [hp']

/-! ## The root after an insertion is present -/

theorem is_null_of_traverse (n : rbtree_node κ ν) (h : traverse n ≠ []) : is_null n = false := by
  cases n with
  | NULL => simp [traverse] at h
  | mk k v l r c => rfl

theorem insert_loop_nonempty (cmp : κ → κ → Int) (key : κ) (value : ν) :
    ∀ (n : rbtree_node κ ν) (up : List (ancestor κ ν)) (t : rbtree κ ν),
    insert_loop cmp key value n up = some t → traverse t.root ≠ [] := by
  intro n
  induction n with
  | NULL => intro up t h; simp [insert_loop] at h
  | mk k v l r c ihl ihr =>
    intro up t h
    unfold insert_loop at h
    split_ifs at h
    · simp only [Option.some.injEq] at h
      subst h
      simp [traverse_root_of, traverse]
    · cases l with
      | NULL =>
        rw [augment_insert_traverse _ _ _ h]
        simp [new_node, traverse]
      | mk lk lv ll lr lc => exact ihl _ _ h
    · cases r with
      | NULL =>
        rw [augment_insert_traverse _ _ _ h]
        simp [new_node, traverse]
      | mk rk rv rl rr rc => exact ihr _ _ h

theorem rbtree_insert_not_null (cmp : κ → κ → Int) (t t' : rbtree κ ν) (key : κ) (value : ν)
    (h : rbtree_insert cmp t key value = some t') : is_null t'.root = false := by
  apply is_null_of_traverse
  unfold rbtree_insert at h
  cases hroot : t.root with
  | NULL =>
    rw [hroot] at h
    rw [augment_insert_traverse _ _ _ h]
    simp [new_node, traverse]
  | mk k v l r c =>
    rw [hroot] at h
    exact insert_loop_nonempty cmp key value _ _ _ h

/-! ## Height of a red-black tree -/

theorem height_le_bheight (n : rbtree_node κ ν) (hr : no_red_red n) (hb : balanced n) :
    height n ≤ 2 * bheight n + if node_color n = RED then 1 else 0 := by
  induction n with
  | NULL => simp [height, bheight]
  | mk k v l r c ihl ihr =>
    obtain ⟨h1, h2, h3⟩ := hr
    obtain ⟨b1, b2, b3⟩ := hb
    have il := ihl h2 b1
    have ir := ihr h3 b2
    simp only [height, bheight, node_color_mk]
    cases c
    · obtain ⟨cl, cr⟩ := h1 rfl
      simp only [cl, cr, black_ne_red, if_false] at il ir
      simp only [if_true, red_ne_black, if_false]
      omega
    · simp only [black_ne_red, if_false, if_true]
      split_ifs at il ir <;> omega

theorem pow_bheight_le_node_count (n : rbtree_node κ ν) (hb : balanced n) :
    2 ^ bheight n ≤ node_count n + 1 := by
  induction n with
  | NULL => simp [bheight, node_count]
  | mk k v l r c ihl ihr =>
    obtain ⟨b1, b2, b3⟩ := hb
    have il := ihl b1
    have ir := ihr b2
    rw [b3] at il
    simp only [bheight, node_count]
    cases c
    · simp only [red_ne_black, if_false, Nat.add_zero]
      rw [b3]
      omega
    · simp only [if_true, pow_succ]
      rw [b3]
      omega

theorem height_bound_of_valid (t : rbtree κ ν) (h : rb_valid t) :
    2 ^ ((height t.root + 1) / 2) ≤ node_count t.root + 1 := by
  obtain ⟨h1, h2, h3⟩ := (rb_valid_iff t).1 h
  have hh := height_le_bheight t.root h2 h3
  simp only [h1, black_ne_red, if_false] at hh
  calc 2 ^ ((height t.root + 1) / 2) ≤ 2 ^ bheight t.root :=
        Nat.pow_le_pow_right (by decide) (by omega)
    _ ≤ node_count t.root + 1 := pow_bheight_le_node_count t.root h3

theorem reachable_rb_valid (cmp : κ → κ → Int) (t : rbtree κ ν) (h : reachable cmp t) :
    rb_valid t := by
  induction h with
  | create => exact rb_valid_create
  | insert t t' key value _ e ih =>
    obtain ⟨t'', e', hv⟩ := rbtree_insert_rb cmp t key value ih
    rw [e] at e'
    simp only [Option.some.injEq] at e'
    subst e'
    exact hv
  | delete t t' key _ e ih =>
    obtain ⟨t'', e', hv⟩ := rbtree_delete_rb cmp t key ih
    rw [e] at e'
    simp only [Option.some.injEq] at e'
    subst e'
    exact hv

theorem insert_all_reachable (cmp : κ → κ → Int) :
    ∀ (kvs : List (κ × ν)) (t : rbtree κ ν), reachable cmp t →
    ∃ t1, insert_all cmp t kvs = some t1 ∧ reachable cmp t1
  | [], t, h => ⟨t, rfl, h⟩
  | (k, v) :: rest, t, h => by
    obtain ⟨t', e, -⟩ := rbtree_insert_rb cmp t k v (reachable_rb_valid cmp t h)
    obtain ⟨t1, e1, h1⟩ := insert_all_reachable cmp rest t' (reachable.insert t t' k v h e)
    exact ⟨t1, by simp [insert_all, e, e1], h1⟩

/-! ## Dispatch of case 5 of the deletion fix-up -/

theorem node_count_lt_left (k : κ) (v : ν) (l r : rbtree_node κ ν) (c : rbtree_node_color) :
    l ≠ .mk k v l r c := by
  intro h
  have := congrArg node_count h
  simp only [node_count] at this
  omega

theorem node_count_lt_right (k : κ) (v : ν) (l r : rbtree_node κ ν) (c : rbtree_node_color) :
    r ≠ .mk k v l r c := by
  intro h
  have := congrArg node_count h
  simp only [node_count] at this
  omega

/-! ## The diagnostic check accepts exactly the valid colourings -/

theorem verify_property_1_true (n : rbtree_node κ ν) : verify_property_1 n = true := by
  induction n with
  | NULL => rfl
  | mk k v l r c ihl ihr =>
    cases c <;> simp [verify_property_1, ihl, ihr]

theorem verify_property_4_iff (n : rbtree_node κ ν) (parent : rbtree_node_color) :
    verify_property_4 parent n = true ↔
      no_red_red n ∧ (node_color n = RED → parent = BLACK) := by
  induction n generalizing parent with
  | NULL => simp [verify_property_4, no_red_red]
  | mk k v l r c ihl ihr =>
    cases c
    · simp only [verify_property_4, if_true, Bool.and_eq_true, decide_eq_true_eq, ihl, ihr,
        no_red_red, node_color_mk, true_implies]
      constructor
      · rintro ⟨⟨⟨⟨h1, h2⟩, h3⟩, h4, -⟩, h5, -⟩
        exact ⟨⟨⟨h1, h2⟩, h4, h5⟩, h3⟩
      · rintro ⟨⟨⟨h1, h2⟩, h4, h5⟩, h3⟩
        exact ⟨⟨⟨⟨h1, h2⟩, h3⟩, h4, fun h => by rw [h1] at h; cases h⟩, h5,
          fun h => by rw [h2] at h; cases h⟩
    · simp only [verify_property_4, black_ne_red, if_false, Bool.true_and, Bool.and_eq_true,
        ihl, ihr, no_red_red, node_color_mk, false_implies, true_and, and_true, implies_true]

theorem verify_property_5_helper_eq (n : rbtree_node κ ν) :
    ∀ (bc path : Int), 0 ≤ bc → (path = -1 ∨ 1 ≤ path) →
    verify_property_5_helper n bc path =
      if balanced n ∧ (path = -1 ∨ bc + bheight n + 1 = path) then some (bc + bheight n + 1)
      else none := by
  induction n with
  | NULL =>
    intro bc path h0 hp
    simp only [verify_property_5_helper, balanced, bheight, true_and, Nat.cast_zero, add_zero]
    split_ifs with h1 h2 h3 h4 <;> first | rfl | (exfalso; omega) | (simp; omega)
  | mk k v l r c ihl ihr =>
    intro bc path h0 hp
    have key : ∀ (bc' : Int) (d : Nat), 0 ≤ bc' → bc' + 1 = bc + d + 1 →
        ((verify_property_5_helper l bc' path).bind fun path =>
            verify_property_5_helper r bc' path) =
          if (balanced l ∧ balanced r ∧ bheight l = bheight r) ∧
              (path = -1 ∨ bc + ((bheight l + d : Nat) : Int) + 1 = path)
            then some (bc + ((bheight l + d : Nat) : Int) + 1) else none := by
      intro bc' d hbc hd
      rw [ihl bc' path hbc hp]
      by_cases hl : balanced l ∧ (path = -1 ∨ bc' + bheight l + 1 = path)
      · rw [if_pos hl]
        simp only [Option.some_bind]
        rw [ihr _ _ hbc (Or.inr (by omega))]
        by_cases hr : balanced r ∧ bheight l = bheight r
        · rw [if_pos ⟨hr.1, Or.inr (by rw [hr.2])⟩, if_pos]
          · congr 1
            push_cast
            omega
          · refine ⟨⟨hl.1, hr.1, hr.2⟩, ?_⟩
            rcases hl.2 with h | h
            · exact Or.inl h
            · right
              push_cast
              omega
        · rw [if_neg, if_neg]
          · rintro ⟨⟨-, h2, h3⟩, -⟩
            exact hr ⟨h2, h3⟩
          · rintro ⟨h1, h2 | h2⟩
            · omega
            · exact hr ⟨h1, by omega⟩
      · rw [if_neg hl]
        simp only [Option.none_bind]
        rw [if_neg]
        rintro ⟨⟨h1, -, -⟩, h4⟩
        apply hl
        refine ⟨h1, ?_⟩
        rcases h4 with h | h
        · exact Or.inl h
        · right
          push_cast at h
          omega
    cases c
    · simpa [verify_property_5_helper, balanced, bheight] using key bc 0 h0 (by simp)
    · simpa [verify_property_5_helper, balanced, bheight] using
        key (bc + 1) 1 (by omega) (by simp)

theorem verify_property_5_iff (n : rbtree_node κ ν) :
    verify_property_5 n = true ↔ balanced n := by
  unfold verify_property_5
  rw [verify_property_5_helper_eq n 0 (-1) (le_refl 0) (Or.inl rfl)]
  by_cases h : balanced n <;> simp [h]

/-! ## Termination of the fix-ups -/

theorem augment_insert_calls_le : ∀ (up : List (ancestor κ ν)) (n : rbtree_node κ ν),
    2 * augment_insert_calls n up ≤ up.length
  | [], _ => by simp [augment_insert_calls]
  | [_], _ => by simp [augment_insert_calls]
  | p :: g :: up, n => by
    simp only [augment_insert_calls, List.length_cons]
    split_ifs
    · omega
    · split
      · omega
      · have := augment_insert_calls_le up
          (attach ⟨g.side, g.key, g.value, ‹_›, RED⟩
            (attach ⟨p.side, p.key, p.value, p.sibling, BLACK⟩ n))
        omega
    · omega

theorem augment_delete_calls_le : ∀ (fuel : Nat) (n : rbtree_node κ ν)
    (up : List (ancestor κ ν)), augment_delete_calls fuel n up ≤ up.length
  | 0, _, _ => by simp [augment_delete_calls]
  | _ + 1, _, [] => by simp [augment_delete_calls]
  | fuel + 1, n, p :: up => by
    simp only [augment_delete_calls, List.length_cons]
    cases hc2 : augment_delete_case2 n p up with
    | none => simp
    | some c2 =>
      rcases augment_delete_case2_shape n p up c2 hc2 with rfl | ⟨p', g', rfl, hp'⟩
      · simp only
        cases p.sibling with
        | NULL => simp
        | mk sk sv sl sr sc =>
          simp only
          split_ifs
          · have := augment_delete_calls_le fuel
              (attach ⟨p.side, p.key, p.value, .mk sk sv sl sr RED, p.color⟩ n) up
            omega
          · omega
      · simp only
        cases p'.sibling with
        | NULL => simp
        | mk sk sv sl sr sc => simp [hp']

theorem augment_delete_calls_enough : ∀ (f1 f2 : Nat) (n : rbtree_node κ ν)
    (up : List (ancestor κ ν)), up.length < f1 → up.length < f2 →
    augment_delete_calls f1 n up = augment_delete_calls f2 n up
  | 0, _, _, _, h, _ => by simp at h
  | _ + 1, 0, _, _, _, h => by simp at h
  | _ + 1, _ + 1, _, [], _, _ => rfl
  | f1 + 1, f2 + 1, n, p :: up, h1, h2 => by
    simp only [augment_delete_calls]
    cases hc2 : augment_delete_case2 n p up with
    | none => rfl
    | some c2 =>
      rcases augment_delete_case2_shape n p up c2 hc2 with rfl | ⟨p', g', rfl, hp'⟩
      · simp only
        cases p.sibling with
        | NULL => rfl
        | mk sk sv sl sr sc =>
          simp only
          rw [augment_delete_calls_enough f1 f2 _ up (by simpa using h1) (by simpa using h2)]
      · simp only
        cases p'.sibling with
        | NULL => rfl
        | mk sk sv sl sr sc => simp [hp']

/-! ## The fix-ups return -/

theorem augment_insert_returns : ∀ (up : List (ancestor κ ν)) (n : rbtree_node κ ν),
    is_null n = false → (∀ a, up.getLast? = some a → a.color = BLACK) →
    ∃ t, augment_insert n up = some t
  | [], n, hn, _ => by
    cases n with
    | NULL => simp [is_null] at hn
    | mk k v l r c => exact ⟨_, rfl⟩
  | [p], n, _, hl => by
    have hp : p.color = BLACK := hl p rfl
    exact ⟨⟨root_of n [p]⟩, by simp [augment_insert, hp]⟩
  | p :: g :: up, n, hn, hl => by
    by_cases hp : p.color = BLACK
    · exact ⟨⟨root_of n (p :: g :: up)⟩, by simp [augment_insert, hp]⟩
    by_cases hu : node_color g.sibling = RED
    · cases hs : g.sibling with
      | NULL => rw [hs] at hu; simp at hu
      | mk uk uv ul ur uc =>
        have hrec := augment_insert_returns up
          (attach ⟨g.side, g.key, g.value, .mk uk uv ul ur BLACK, RED⟩
            (attach ⟨p.side, p.key, p.value, p.sibling, BLACK⟩ n))
          (by cases g.side <;> rfl)
          (by
            intro a ha
            apply hl a
            cases up with
            | nil => simp at ha
            | cons x xs => simpa [List.getLast?_cons_cons] using ha)
        obtain ⟨t, ht⟩ := hrec
        refine ⟨t, ?_⟩
        rw [hs] at hu
        simp only [augment_insert, hp, hs, hu, if_false, if_true, set_color, Option.bind_eq_bind,
          Option.some_bind]
        exact ht
    · cases n with
      | NULL => simp [is_null] at hn
      | mk k v l r c =>
        cases p with
        | mk ps pk pv psib pc =>
        cases g with
        | mk gs gk gv gsib gc =>
        simp only at hp hu
        cases ps <;> cases gs <;>
          simp [augment_insert, hp, hu, augment_insert_case4, augment_insert_case5, rotate_left,
            rotate_right, attach]

theorem augment_delete_run_eq : ∀ (fuel : Nat) (n : rbtree_node κ ν)
    (up : List (ancestor κ ν)), up.length < fuel →
    augment_delete_run fuel n up = some (augment_delete_fuel fuel n up)
  | 0, _, _, h => by simp at h
  | _ + 1, _, [], _ => rfl
  | fuel + 1, n, p :: up, h => by
    simp only [augment_delete_run, augment_delete_fuel]
    cases hc2 : augment_delete_case2 n p up with
    | none => rfl
    | some c2 =>
      simp only [Option.bind_eq_bind, Option.some_bind]
      rcases augment_delete_case2_shape n p up c2 hc2 with rfl | ⟨p', g', rfl, hp'⟩
      · simp only
        cases hs : p.sibling with
        | NULL => rfl
        | mk sk sv sl sr sc =>
          simp only
          rw [augment_delete_run_eq fuel _ up (by simpa using h)]
          split_ifs <;> rfl
      · simp only
        cases hs : p'.sibling with
        | NULL => rfl
        | mk sk sv sl sr sc =>
          simp only [hp', red_ne_black, false_and, if_false, true_and]
          split_ifs <;> rfl

theorem augment_delete_run_isSome : ∀ (fuel : Nat) (n : rbtree_node κ ν)
    (up : List (ancestor κ ν)),
    (augment_delete_run fuel n up).isSome = true ↔
      augment_delete_calls (up.length + 1) n up < fuel
  | 0, _, _ => by simp [augment_delete_run]
  | _ + 1, _, [] => by simp [augment_delete_run, augment_delete_calls]
  | fuel + 1, n, p :: up => by
    simp only [augment_delete_run, augment_delete_calls, List.length_cons]
    cases hc2 : augment_delete_case2 n p up with
    | none => simp
    | some c2 =>
      rcases augment_delete_case2_shape n p up c2 hc2 with rfl | ⟨p', g', rfl, hp'⟩
      · simp only
        cases hs : p.sibling with
        | NULL => simp
        | mk sk sv sl sr sc =>
          simp only
          split_ifs
          · have ih := augment_delete_run_isSome fuel
              (attach ⟨p.side, p.key, p.value, .mk sk sv sl sr RED, p.color⟩ n) up
            cases hrun : augment_delete_run fuel
                (attach ⟨p.side, p.key, p.value, .mk sk sv sl sr RED, p.color⟩ n) up with
            | none =>
              rw [hrun] at ih
              simp only [Option.isSome_none, Bool.false_eq_true, false_iff] at ih
              simp only [Option.map_none', Option.isSome_none, Bool.false_eq_true, false_iff]
              omega
            | some r =>
              rw [hrun] at ih
              simp only [Option.isSome_some, true_iff] at ih
              simp only [Option.map_some', Option.isSome_some, true_iff]
              omega
          · simp
          · simp
      · simp only
        cases hs : p'.sibling with
        | NULL => simp
        | mk sk sv sl sr sc =>
          simp only [hp', red_ne_black, false_and, if_false]
          split_ifs <;> simp

/-! ## The rotations on the nodes in memory -/

namespace Heap

theorem replace_node_eq (m : memory κ ν) (old nw : Nat) (o nn : node_s κ ν)
    (ho : m.nodes old = some o) (hw : m.nodes nw = some nn)
    (hp : ∀ pa, o.parent = some pa → pa ≠ old ∧ pa ≠ nw ∧ ∃ pn, m.nodes pa = some pn) :
    replace_node m old (some nw) = some ⟨fun a =>
        if a = nw then some { nn with parent := o.parent }
        else if some a = o.parent then
          (m.nodes a).map fun x =>
            if x.left = some old then { x with left := some nw } else { x with right := some nw }
        else m.nodes a,
      if o.parent = none then some nw else m.root⟩ := by
  unfold replace_node
  rw [ho]
  cases hpar : o.parent with
  | none =>
    simp only [Option.bind_eq_bind, Option.some_bind, hw, ho, hpar]
    simp [write]
  | some pa =>
    obtain ⟨hpo, hpw, pn, hpa⟩ := hp pa hpar
    have hwp : nw ≠ pa := fun h => hpw h.symm
    have hop : old ≠ pa := fun h => hpo h.symm
    by_cases hside : pn.left = some old
    · simp only [Option.bind_eq_bind, Option.some_bind, hpa, if_pos hside, write, if_neg hwp, if_neg hop, hw, ho, hpar]
      simp only [Option.some.injEq, memory.mk.injEq, and_true, reduceCtorEq, if_false]
      funext a
      by_cases h1 : a = nw
      · simp [h1]
      · by_cases h2 : a = pa
        · simp [h2, hpw, hpa, hside]
        · simp [h1, h2]
    · simp only [Option.bind_eq_bind, Option.some_bind, hpa, if_neg hside, write, if_neg hwp, if_neg hop, hw, ho, hpar]
      simp only [Option.some.injEq, memory.mk.injEq, and_true, reduceCtorEq, if_false]
      funext a
      by_cases h1 : a = nw
      · simp [h1]
      · by_cases h2 : a = pa
        · simp [h2, hpw, hpa, hside]
        · simp [h1, h2]

theorem rotate_left_mem_eq (m : memory κ ν) (n r : Nat) (k : κ) (v : ν) (c : rbtree_node_color)
    (ln p : Option Nat) (rk : κ) (rv : ν) (rc : rbtree_node_color) (rl rr : Option Nat)
    (hn : m.nodes n = some ⟨k, v, ln, some r, p, c⟩)
    (hr : m.nodes r = some ⟨rk, rv, rl, rr, some n, rc⟩)
    (hnr : n ≠ r)
    (hp : ∀ pa, p = some pa → pa ≠ n ∧ pa ≠ r ∧ ∃ pn, m.nodes pa = some pn)
    (hl : ∀ x, rl = some x → x ≠ n ∧ x ≠ r ∧ some x ≠ p ∧ ∃ xn, m.nodes x = some xn) :
    rotate_left_mem m n = some ⟨fun a =>
        if a = n then some ⟨k, v, ln, rl, some r, c⟩
        else if a = r then some ⟨rk, rv, some n, rr, p, rc⟩
        else if some a = rl then (m.nodes a).map fun x => { x with parent := some n }
        else if some a = p then
          (m.nodes a).map fun x =>
            if x.left = some n then { x with left := some r } else { x with right := some r }
        else m.nodes a,
      if p = none then some r else m.root⟩ := by
  have hrn : r ≠ n := fun h => hnr h.symm
  have hnp : some n ≠ p := fun h => (hp n h.symm).1 rfl
  unfold rotate_left_mem
  rw [hn]
  simp only [Option.bind_eq_bind, Option.some_bind]
  rw [replace_node_eq m n r _ _ hn hr hp]
  simp only [Option.some_bind, if_true, if_neg hnr, if_neg hnp, hn]
  cases rl with
  | none =>
    simp only [Option.some_bind, write, if_true, if_neg hrn, if_neg hnr]
    simp only [Option.some.injEq, memory.mk.injEq, and_true]
    funext a
    by_cases h1 : a = n
    · simp [h1]
    · by_cases h2 : a = r
      · simp [h2, hrn]
      · simp [h1, h2]
  | some x =>
    obtain ⟨hxn, hxr, hxp, xn, hx⟩ := hl x rfl
    have hnx : n ≠ x := fun h => hxn h.symm
    have hrx : r ≠ x := fun h => hxr h.symm
    simp only [Option.some_bind, write, if_true, if_neg hrn, if_neg hnr, if_neg hxn, if_neg hxr,
      if_neg hxp, hx, if_neg hnx, if_neg hrx]
    simp only [Option.some.injEq, memory.mk.injEq, and_true]
    funext a
    by_cases h1 : a = n
    · simp [h1]
    · by_cases h2 : a = r
      · simp [h2, hrn]
      · by_cases h3 : a = x
        · simp [h3, hxn, hxr, hx]
        · simp [h1, h2, h3]

theorem rotate_right_mem_eq (m : memory κ ν) (n l : Nat) (k : κ) (v : ν) (c : rbtree_node_color)
    (rn p : Option Nat) (lk : κ) (lv : ν) (lc : rbtree_node_color) (ll lr : Option Nat)
    (hn : m.nodes n = some ⟨k, v, some l, rn, p, c⟩)
    (hl : m.nodes l = some ⟨lk, lv, ll, lr, some n, lc⟩)
    (hnl : n ≠ l)
    (hp : ∀ pa, p = some pa → pa ≠ n ∧ pa ≠ l ∧ ∃ pn, m.nodes pa = some pn)
    (hlr : ∀ x, lr = some x → x ≠ n ∧ x ≠ l ∧ some x ≠ p ∧ ∃ xn, m.nodes x = some xn) :
    rotate_right_mem m n = some ⟨fun a =>
        if a = n then some ⟨k, v, lr, rn, some l, c⟩
        else if a = l then some ⟨lk, lv, ll, some n, p, lc⟩
        else if some a = lr then (m.nodes a).map fun x => { x with parent := some n }
        else if some a = p then
          (m.nodes a).map fun x =>
            if x.left = some n then { x with left := some l } else { x with right := some l }
        else m.nodes a,
      if p = none then some l else m.root⟩ := by
  have hln : l ≠ n := fun h => hnl h.symm
  have hnp : some n ≠ p := fun h => (hp n h.symm).1 rfl
  unfold rotate_right_mem
  rw [hn]
  simp only [Option.bind_eq_bind, Option.some_bind]
  rw [replace_node_eq m n l _ _ hn hl hp]
  simp only [Option.some_bind, if_true, if_neg hnl, if_neg hnp, hn]
  cases lr with
  | none =>
    simp only [Option.some_bind, write, if_true, if_neg hln, if_neg hnl]
    simp only [Option.some.injEq, memory.mk.injEq, and_true]
    funext a
    by_cases h1 : a = n
    · simp [h1]
    · by_cases h2 : a = l
      · simp [h2, hln]
      · simp [h1, h2]
  | some x =>
    obtain ⟨hxn, hxl, hxp, xn, hx⟩ := hlr x rfl
    have hnx : n ≠ x := fun h => hxn h.symm
    have hlx : l ≠ x := fun h => hxl h.symm
    simp only [Option.some_bind, write, if_true, if_neg hln, if_neg hnl, if_neg hxn, if_neg hxl,
      if_neg hxp, hx, if_neg hnx, if_neg hlx]
    simp only [Option.some.injEq, memory.mk.injEq, and_true]
    funext a
    by_cases h1 : a = n
    · simp [h1]
    · by_cases h2 : a = l
      · simp [h2, hln]
      · by_cases h3 : a = x
        · simp [h3, hxn, hxl, hx]
        · simp [h1, h2, h3]

theorem ptr_mem_addrs (S : ptree κ ν) (a : Nat) (h : S.ptr = some a) : a ∈ S.addrs := by
  cases S with
  | nil => cases h
  | node b k v c l r =>
    simp only [ptree.ptr, Option.some.injEq] at h
    simp [ptree.addrs, h]

theorem stored_congr (nodes nodes' : Nat → Option (node_s κ ν)) (S : ptree κ ν) :
    ∀ q, (∀ a ∈ S.addrs, nodes' a = nodes a) → stored nodes q S → stored nodes' q S := by
  induction S with
  | nil => intro q _ _; trivial
  | node b k v c l r ihl ihr =>
    intro q h hs
    obtain ⟨h1, h2, h3⟩ := hs
    refine ⟨?_, ihl _ ?_ h2, ihr _ ?_ h3⟩
    · rw [h b (by simp [ptree.addrs]), h1]
    · intro a ha
      exact h a (by simp [ptree.addrs, ha])
    · intro a ha
      exact h a (by simp [ptree.addrs, ha])

theorem stored_frames_congr (nodes nodes' : Nat → Option (node_s κ ν)) (up : List (pframe κ ν)) :
    ∀ hole, (∀ a ∈ frames_addrs up, nodes' a = nodes a) → stored_frames nodes hole up →
      stored_frames nodes' hole up := by
  induction up with
  | nil => intro hole _ _; trivial
  | cons f up ih =>
    intro hole h hs
    obtain ⟨h1, h2, h3⟩ := hs
    refine ⟨?_, stored_congr nodes nodes' _ _ ?_ h2, ih _ ?_ h3⟩
    · rw [h f.addr (by simp [frames_addrs]), h1]
    · intro a ha
      exact h a (by simp [frames_addrs, ha])
    · intro a ha
      exact h a (by simp [frames_addrs, ha])

theorem stored_pfill (nodes : Nat → Option (node_s κ ν)) (up : List (pframe κ ν)) :
    ∀ S, stored nodes none (pfill S up) ↔
      stored nodes (frames_ptr up) S ∧ stored_frames nodes S.ptr up := by
  induction up with
  | nil => intro S; simp [pfill, frames_ptr, stored_frames]
  | cons f up ih =>
    intro S
    rw [pfill, ih]
    cases hs : f.side <;>
      simp [pattach, hs, stored, stored_frames, frames_ptr, ptree.ptr] <;> tauto

theorem addrs_pfill (up : List (pframe κ ν)) :
    ∀ S, (pfill S up).addrs.Perm (S.addrs ++ frames_addrs up) := by
  induction up with
  | nil => intro S; simp [pfill, frames_addrs]
  | cons f up ih =>
    intro S
    rw [pfill]
    refine (ih _).trans ?_
    cases hs : f.side
    · simp only [pattach, hs, ptree.addrs, frames_addrs, List.cons_append, List.append_assoc]
      exact List.perm_middle.symm
    · simp only [pattach, hs, ptree.addrs, frames_addrs, List.cons_append, List.append_assoc]
      refine List.Perm.trans ?_ List.perm_middle.symm
      refine List.Perm.cons _ ?_
      rw [← List.append_assoc, ← List.append_assoc]
      exact List.Perm.append_right _ List.perm_append_comm

theorem inorder_pfill (up : List (pframe κ ν)) :
    ∀ S S', S.inorder = S'.inorder → (pfill S up).inorder = (pfill S' up).inorder := by
  induction up with
  | nil => intro S S' h; exact h
  | cons f up ih =>
    intro S S' h
    rw [pfill, pfill]
    apply ih
    cases hs : f.side <;> simp [pattach, hs, ptree.inorder, h]

theorem ptr_pfill_cons (up : List (pframe κ ν)) :
    ∀ (f : pframe κ ν) S S', (pfill S (f :: up)).ptr = (pfill S' (f :: up)).ptr := by
  induction up with
  | nil =>
    intro f S S'
    cases hs : f.side <;> simp [pfill, pattach, hs, ptree.ptr]
  | cons g up ih =>
    intro f S S'
    rw [pfill, pfill]
    exact ih g _ _

theorem exists_frames (n : Nat) (T : ptree κ ν) :
    ∀ up, n ∈ T.addrs → ∃ S up', pfill T up = pfill S up' ∧ S.ptr = some n := by
  induction T with
  | nil => intro up h; simp [ptree.addrs] at h
  | node b k v c l r ihl ihr =>
    intro up h
    simp only [ptree.addrs, List.mem_cons, List.mem_append] at h
    rcases h with h | h | h
    · exact ⟨_, up, rfl, by simp [ptree.ptr, h]⟩
    · obtain ⟨S, up', h1, h2⟩ := ihl (⟨LEFT, b, k, v, c, r⟩ :: up) h
      exact ⟨S, up', by rw [← h1]; rfl, h2⟩
    · obtain ⟨S, up', h1, h2⟩ := ihr (⟨RIGHT, b, k, v, c, l⟩ :: up) h
      exact ⟨S, up', by rw [← h1]; rfl, h2⟩

theorem ptr_node (a : Nat) (k : κ) (v : ν) (c : rbtree_node_color) (l r : ptree κ ν) :
    (ptree.node a k v c l r).ptr = some a := rfl

theorem frames_ptr_mem (up : List (pframe κ ν)) (a : Nat) (h : frames_ptr up = some a) :
    a ∈ frames_addrs up := by
  cases up with
  | nil => cases h
  | cons f up =>
    simp only [frames_ptr, Option.some.injEq] at h
    simp [frames_addrs, h]

theorem stored_frames_ptr (nodes : Nat → Option (node_s κ ν)) (up : List (pframe κ ν))
    (hole : Option Nat) (a : Nat) (hs : stored_frames nodes hole up) (h : frames_ptr up = some a) :
    ∃ x, nodes a = some x := by
  cases up with
  | nil => cases h
  | cons f up =>
    simp only [frames_ptr, Option.some.injEq] at h
    exact ⟨_, h ▸ hs.1⟩

theorem stored_ptr (nodes : Nat → Option (node_s κ ν)) (S : ptree κ ν) (q : Option Nat) (a : Nat)
    (hs : stored nodes q S) (h : S.ptr = some a) : ∃ x, nodes a = some x := by
  cases S with
  | nil => cases h
  | node b k v c l r =>
    simp only [ptree.ptr, Option.some.injEq] at h
    exact ⟨_, h ▸ hs.1⟩

theorem rotate_left_represents (m : memory κ ν) (up : List (pframe κ ν)) (n r : Nat)
    (k rk : κ) (v rv : ν) (c rc : rbtree_node_color) (L RL RR : ptree κ ν)
    (hrep : represents m (pfill (.node n k v c L (.node r rk rv rc RL RR)) up)) :
    ∃ m', rotate_left_mem m n = some m' ∧
      represents m' (pfill (.node r rk rv rc (.node n k v c L RL) RR) up) := by
  obtain ⟨hroot, hst, hnd⟩ := hrep
  rw [stored_pfill] at hst
  obtain ⟨⟨hn, hL, hr, hRL, hRR⟩, hF⟩ := hst
  have hnd' := (addrs_pfill up _).nodup_iff.mp hnd
  have hnd2 := hnd'
  simp only [ptree.addrs] at hnd'
  simp only [List.nodup_cons, List.nodup_append, List.mem_append, List.mem_cons, not_or,
    List.cons_append, List.Disjoint] at hnd'
  obtain ⟨⟨⟨hnL, hnr, hnRL, hnRR⟩, hnup⟩, ⟨-, ⟨⟨hrRL, hrRR⟩, dRL, -, hRLRR⟩, hLx⟩, dup, hxup⟩ := hnd'
  have hp : ∀ pa, frames_ptr up = some pa → pa ≠ n ∧ pa ≠ r ∧ ∃ pn, m.nodes pa = some pn := by
    intro pa h
    have hm := frames_ptr_mem up pa h
    refine ⟨fun e => hnup (e ▸ hm), fun e => hxup (Or.inr (Or.inl e)) hm,
      stored_frames_ptr _ _ _ _ hF h⟩
  have hl : ∀ x, RL.ptr = some x →
      x ≠ n ∧ x ≠ r ∧ some x ≠ frames_ptr up ∧ ∃ xn, m.nodes x = some xn := by
    intro x h
    have hm := ptr_mem_addrs RL x h
    refine ⟨fun e => hnRL (e ▸ hm), fun e => hrRL (e ▸ hm),
      fun e => hxup (Or.inr (Or.inr (Or.inl hm))) (frames_ptr_mem up x e.symm),
      stored_ptr _ _ _ _ hRL h⟩
  have heq := rotate_left_mem_eq m n r k v c L.ptr (frames_ptr up) rk rv rc RL.ptr RR.ptr hn hr
    hnr hp hl
  refine ⟨_, heq, ?_, ?_, ?_⟩
  · show (if frames_ptr up = none then some r else m.root) = _
    cases up with
    | nil => rfl
    | cons f up =>
      rw [if_neg (by simp [frames_ptr]), hroot]
      exact ptr_pfill_cons up f _ _
  · rw [stored_pfill]
    have key : ∀ nodes' : Nat → Option (node_s κ ν),
        (∀ a, nodes' a =
          if a = n then some (⟨k, v, L.ptr, RL.ptr, some r, c⟩ : node_s κ ν)
          else if a = r then some ⟨rk, rv, some n, RR.ptr, frames_ptr up, rc⟩
          else if some a = RL.ptr then (m.nodes a).map fun x => { x with parent := some n }
          else if some a = frames_ptr up then
            (m.nodes a).map fun x =>
              if x.left = some n then { x with left := some r } else { x with right := some r }
          else m.nodes a) →
        stored nodes' (frames_ptr up) (.node r rk rv rc (.node n k v c L RL) RR) ∧
          stored_frames nodes' (some r) up := by
      intro nodes' hN
      have hrn : r ≠ n := fun e => hnr e.symm
      have h_n : nodes' n = some ⟨k, v, L.ptr, RL.ptr, some r, c⟩ := by rw [hN, if_pos rfl]
      have h_r : nodes' r = some ⟨rk, rv, some n, RR.ptr, frames_ptr up, rc⟩ := by
        rw [hN, if_neg hrn, if_pos rfl]
      have hag : ∀ a, a ≠ n → a ≠ r → some a ≠ RL.ptr → some a ≠ frames_ptr up →
          nodes' a = m.nodes a := by
        intro a h1 h2 h3 h4
        rw [hN, if_neg h1, if_neg h2, if_neg h3, if_neg h4]
      have sL : stored nodes' (some n) L :=
        stored_congr m.nodes nodes' L _ (fun a ha => hag a (fun e => hnL (e ▸ ha))
          (fun e => hLx ha (Or.inl e))
          (fun e => hLx ha (Or.inr (Or.inl (ptr_mem_addrs RL a e.symm))))
          (fun e => hxup (Or.inl ha) (frames_ptr_mem up a e.symm))) hL
      have sRR : stored nodes' (some r) RR :=
        stored_congr m.nodes nodes' RR _ (fun a ha => hag a (fun e => hnRR (e ▸ ha))
          (fun e => hrRR (e ▸ ha))
          (fun e => hRLRR (ptr_mem_addrs RL a e.symm) ha)
          (fun e => hxup (Or.inr (Or.inr (Or.inr ha))) (frames_ptr_mem up a e.symm))) hRR
      have sRL : stored nodes' (some n) RL := by
        cases RL with
        | nil => trivial
        | node x xk xv xc XL XR =>
          obtain ⟨hx, hXL, hXR⟩ := hRL
          simp only [ptree.addrs, List.mem_cons, List.mem_append, not_or, List.nodup_cons]
            at hnRL hrRL dRL hxup hRLRR
          have hxn : x ≠ n := fun e => hnRL.1 e.symm
          have hxr : x ≠ r := fun e => hrRL.1 e.symm
          have hsub : ∀ a, a ∈ XL.addrs ∨ a ∈ XR.addrs → nodes' a = m.nodes a := by
            intro a ha
            refine hag a ?_ ?_ ?_ ?_
            · intro e; subst e; exact ha.elim hnRL.2.1 hnRL.2.2
            · intro e; subst e; exact ha.elim hrRL.2.1 hrRL.2.2
            · intro e
              simp only [ptree.ptr, Option.some.injEq] at e
              subst e
              exact ha.elim dRL.1.1 dRL.1.2
            · intro e
              exact hxup (Or.inr (Or.inr (Or.inl (Or.inr ha)))) (frames_ptr_mem up a e.symm)
          refine ⟨?_, stored_congr m.nodes nodes' XL _ (fun a ha => hsub a (Or.inl ha)) hXL,
            stored_congr m.nodes nodes' XR _ (fun a ha => hsub a (Or.inr ha)) hXR⟩
          rw [hN, if_neg hxn, if_neg hxr,
            if_pos (show some x = (ptree.node x xk xv xc XL XR).ptr from rfl), hx]
          rfl
      refine ⟨⟨h_r, ⟨h_n, sL, sRL⟩, sRR⟩, ?_⟩
      cases up with
      | nil => trivial
      | cons f up =>
        obtain ⟨hf, hsib, hup⟩ := hF
        simp only [frames_addrs, List.mem_cons, List.mem_append, not_or, List.nodup_cons,
          List.nodup_append] at hnup dup hxup
        have hfn : f.addr ≠ n := fun e => hnup.1 e.symm
        have hfr : f.addr ≠ r := fun e => hxup (Or.inr (Or.inl rfl)) (Or.inl e.symm)
        have hfrl : some f.addr ≠ RL.ptr := fun e =>
          hxup (Or.inr (Or.inr (Or.inl (ptr_mem_addrs RL _ e.symm)))) (Or.inl rfl)
        have hsub : ∀ a, a ∈ f.sibling.addrs ∨ a ∈ frames_addrs up → nodes' a = m.nodes a := by
          intro a ha
          refine hag a ?_ ?_ ?_ ?_
          · intro e; subst e; exact ha.elim hnup.2.1 hnup.2.2
          · intro e; subst e; exact hxup (Or.inr (Or.inl rfl)) (Or.inr ha)
          · intro e
            exact hxup (Or.inr (Or.inr (Or.inl (ptr_mem_addrs RL _ e.symm)))) (Or.inr ha)
          · intro e
            simp only [frames_ptr, Option.some.injEq] at e
            subst e
            exact ha.elim dup.1.1 dup.1.2
        refine ⟨?_, stored_congr m.nodes nodes' _ _ (fun a ha => hsub a (Or.inl ha)) hsib,
          stored_frames_congr m.nodes nodes' _ _ (fun a ha => hsub a (Or.inr ha)) hup⟩
        rw [hN, if_neg hfn, if_neg hfr, if_neg hfrl,
          if_pos (show some f.addr = frames_ptr (f :: up) from rfl), hf]
        have hsn : f.sibling.ptr ≠ some n := fun e => hnup.2.1 (ptr_mem_addrs _ _ e)
        cases hs : f.side
        · simp [frames_ptr, ptr_node, hs]
        · simp [frames_ptr, ptr_node, hs, hsn]
    exact key _ (fun a => rfl)
  · refine (addrs_pfill up _).nodup_iff.mpr ?_
    refine (List.Perm.nodup_iff ?_).mp hnd2
    refine List.Perm.append_right _ ?_
    rw [List.perm_iff_count]
    intro a
    simp only [ptree.addrs, List.count_cons, List.count_append]
    omega

theorem rotate_right_represents (m : memory κ ν) (up : List (pframe κ ν)) (n l : Nat)
    (k lk : κ) (v lv : ν) (c lc : rbtree_node_color) (LL LR R : ptree κ ν)
    (hrep : represents m (pfill (.node n k v c (.node l lk lv lc LL LR) R) up)) :
    ∃ m', rotate_right_mem m n = some m' ∧
      represents m' (pfill (.node l lk lv lc LL (.node n k v c LR R)) up) := by
  obtain ⟨hroot, hst, hnd⟩ := hrep
  rw [stored_pfill] at hst
  obtain ⟨⟨hn, ⟨hl, hLL, hLR⟩, hR⟩, hF⟩ := hst
  have hnd' := (addrs_pfill up _).nodup_iff.mp hnd
  have hnd2 := hnd'
  simp only [ptree.addrs] at hnd'
  simp only [List.nodup_cons, List.nodup_append, List.mem_append, List.mem_cons, not_or,
    List.cons_append, List.Disjoint] at hnd'
  obtain ⟨⟨hnl, ⟨⟨hnLL, hnLR⟩, hnR⟩, hnup⟩, ⟨⟨⟨hlLL, hlLR⟩, hlR⟩, hlup⟩,
    ⟨⟨-, dLR, hLLLR⟩, -, hxR⟩, dup, hxup⟩ := hnd'
  have hp : ∀ pa, frames_ptr up = some pa → pa ≠ n ∧ pa ≠ l ∧ ∃ pn, m.nodes pa = some pn := by
    intro pa h
    have hm := frames_ptr_mem up pa h
    refine ⟨fun e => hnup (e ▸ hm), fun e => hlup (e ▸ hm), stored_frames_ptr _ _ _ _ hF h⟩
  have hlr : ∀ x, LR.ptr = some x →
      x ≠ n ∧ x ≠ l ∧ some x ≠ frames_ptr up ∧ ∃ xn, m.nodes x = some xn := by
    intro x h
    have hm := ptr_mem_addrs LR x h
    refine ⟨fun e => hnLR (e ▸ hm), fun e => hlLR (e ▸ hm),
      fun e => hxup (Or.inl (Or.inr hm)) (frames_ptr_mem up x e.symm),
      stored_ptr _ _ _ _ hLR h⟩
  have heq := rotate_right_mem_eq m n l k v c R.ptr (frames_ptr up) lk lv lc LL.ptr LR.ptr hn hl
    hnl hp hlr
  refine ⟨_, heq, ?_, ?_, ?_⟩
  · show (if frames_ptr up = none then some l else m.root) = _
    cases up with
    | nil => rfl
    | cons f up =>
      rw [if_neg (by simp [frames_ptr]), hroot]
      exact ptr_pfill_cons up f _ _
  · rw [stored_pfill]
    have key : ∀ nodes' : Nat → Option (node_s κ ν),
        (∀ a, nodes' a =
          if a = n then some (⟨k, v, LR.ptr, R.ptr, some l, c⟩ : node_s κ ν)
          else if a = l then some ⟨lk, lv, LL.ptr, some n, frames_ptr up, lc⟩
          else if some a = LR.ptr then (m.nodes a).map fun x => { x with parent := some n }
          else if some a = frames_ptr up then
            (m.nodes a).map fun x =>
              if x.left = some n then { x with left := some l } else { x with right := some l }
          else m.nodes a) →
        stored nodes' (frames_ptr up) (.node l lk lv lc LL (.node n k v c LR R)) ∧
          stored_frames nodes' (some l) up := by
      intro nodes' hN
      have hln : l ≠ n := fun e => hnl e.symm
      have h_n : nodes' n = some ⟨k, v, LR.ptr, R.ptr, some l, c⟩ := by rw [hN, if_pos rfl]
      have h_l : nodes' l = some ⟨lk, lv, LL.ptr, some n, frames_ptr up, lc⟩ := by
        rw [hN, if_neg hln, if_pos rfl]
      have hag : ∀ a, a ≠ n → a ≠ l → some a ≠ LR.ptr → some a ≠ frames_ptr up →
          nodes' a = m.nodes a := by
        intro a h1 h2 h3 h4
        rw [hN, if_neg h1, if_neg h2, if_neg h3, if_neg h4]
      have sLL : stored nodes' (some l) LL :=
        stored_congr m.nodes nodes' LL _ (fun a ha => hag a (fun e => hnLL (e ▸ ha))
          (fun e => hlLL (e ▸ ha))
          (fun e => hLLLR ha (ptr_mem_addrs LR a e.symm))
          (fun e => hxup (Or.inl (Or.inl ha)) (frames_ptr_mem up a e.symm))) hLL
      have sR : stored nodes' (some n) R :=
        stored_congr m.nodes nodes' R _ (fun a ha => hag a (fun e => hnR (e ▸ ha))
          (fun e => hlR (e ▸ ha))
          (fun e => hxR (Or.inr (ptr_mem_addrs LR a e.symm)) ha)
          (fun e => hxup (Or.inr ha) (frames_ptr_mem up a e.symm))) hR
      have sLR : stored nodes' (some n) LR := by
        cases LR with
        | nil => trivial
        | node x xk xv xc XL XR =>
          obtain ⟨hx, hXL, hXR⟩ := hLR
          simp only [ptree.addrs, List.mem_cons, List.mem_append, not_or, List.nodup_cons]
            at hnLR hlLR dLR hxup
          have hxn : x ≠ n := fun e => hnLR.1 e.symm
          have hxl : x ≠ l := fun e => hlLR.1 e.symm
          have hsub : ∀ a, a ∈ XL.addrs ∨ a ∈ XR.addrs → nodes' a = m.nodes a := by
            intro a ha
            refine hag a ?_ ?_ ?_ ?_
            · intro e; subst e; exact ha.elim hnLR.2.1 hnLR.2.2
            · intro e; subst e; exact ha.elim hlLR.2.1 hlLR.2.2
            · intro e
              simp only [ptree.ptr, Option.some.injEq] at e
              subst e
              exact ha.elim dLR.1.1 dLR.1.2
            · intro e
              exact hxup (Or.inl (Or.inr (Or.inr ha))) (frames_ptr_mem up a e.symm)
          refine ⟨?_, stored_congr m.nodes nodes' XL _ (fun a ha => hsub a (Or.inl ha)) hXL,
            stored_congr m.nodes nodes' XR _ (fun a ha => hsub a (Or.inr ha)) hXR⟩
          rw [hN, if_neg hxn, if_neg hxl,
            if_pos (show some x = (ptree.node x xk xv xc XL XR).ptr from rfl), hx]
          rfl
      refine ⟨⟨h_l, sLL, h_n, sLR, sR⟩, ?_⟩
      cases up with
      | nil => trivial
      | cons f up =>
        obtain ⟨hf, hsib, hup⟩ := hF
        simp only [frames_addrs, List.mem_cons, List.mem_append, not_or, List.nodup_cons,
          List.nodup_append] at hnup hlup dup hxup
        have hfn : f.addr ≠ n := fun e => hnup.1 e.symm
        have hfl : f.addr ≠ l := fun e => hlup.1 e.symm
        have hflr : some f.addr ≠ LR.ptr := fun e =>
          hxup (Or.inl (Or.inr (ptr_mem_addrs LR _ e.symm))) (Or.inl rfl)
        have hsub : ∀ a, a ∈ f.sibling.addrs ∨ a ∈ frames_addrs up → nodes' a = m.nodes a := by
          intro a ha
          refine hag a ?_ ?_ ?_ ?_
          · intro e; subst e; exact ha.elim hnup.2.1 hnup.2.2
          · intro e; subst e; exact ha.elim hlup.2.1 hlup.2.2
          · intro e
            exact hxup (Or.inl (Or.inr (ptr_mem_addrs LR _ e.symm))) (Or.inr ha)
          · intro e
            simp only [frames_ptr, Option.some.injEq] at e
            subst e
            exact ha.elim dup.1.1 dup.1.2
        refine ⟨?_, stored_congr m.nodes nodes' _ _ (fun a ha => hsub a (Or.inl ha)) hsib,
          stored_frames_congr m.nodes nodes' _ _ (fun a ha => hsub a (Or.inr ha)) hup⟩
        rw [hN, if_neg hfn, if_neg hfl, if_neg hflr,
          if_pos (show some f.addr = frames_ptr (f :: up) from rfl), hf]
        have hsn : f.sibling.ptr ≠ some n := fun e => hnup.2.1 (ptr_mem_addrs _ _ e)
        cases hs : f.side
        · simp [frames_ptr, ptr_node, hs]
        · simp [frames_ptr, ptr_node, hs, hsn]
    exact key _ (fun a => rfl)
  · refine (addrs_pfill up _).nodup_iff.mpr ?_
    refine (List.Perm.nodup_iff ?_).mp hnd2
    refine List.Perm.append_right _ ?_
    rw [List.perm_iff_count]
    intro a
    simp only [ptree.addrs, List.count_cons, List.count_append]
    omega

theorem ptr_pfill_mem (up : List (pframe κ ν)) :
    ∀ (f : pframe κ ν) S a, (pfill S (f :: up)).ptr = some a → a ∈ frames_addrs (f :: up) := by
  induction up with
  | nil =>
    intro f S a h
    cases hs : f.side <;> simp [pfill, pattach, hs, ptree.ptr] at h <;> simp [frames_addrs, h]
  | cons g up ih =>
    intro f S a h
    rw [pfill] at h
    have := ih g _ a h
    simp only [frames_addrs, List.mem_cons, List.mem_append] at this ⊢
    tauto

theorem erase_pfill (up : List (pframe κ ν)) :
    ∀ S, (pfill S up).erase = root_of S.erase (up.map erase_frame) := by
  induction up with
  | nil => intro S; rfl
  | cons f up ih =>
    intro S
    rw [pfill, ih, List.map_cons, root_of]
    congr 1
    cases hs : f.side <;> simp [pattach, attach, erase_frame, hs, ptree.erase]

theorem rotate_left_erase (m : memory κ ν) (up : List (pframe κ ν)) (n r : Nat)
    (k rk : κ) (v rv : ν) (c rc : rbtree_node_color) (L RL RR : ptree κ ν)
    (hrep : represents m (pfill (.node n k v c L (.node r rk rv rc RL RR)) up)) :
    ∃ m' T' cur, rotate_left_mem m n = some m' ∧ represents m' T' ∧
      rotate_left (ptree.node n k v c L (.node r rk rv rc RL RR)).erase (up.map erase_frame) =
        some cur ∧
      T'.erase = root_of cur.node cur.parents := by
  obtain ⟨m', hm, hrep'⟩ := rotate_left_represents m up n r k rk v rv c rc L RL RR hrep
  refine ⟨m', _, _, hm, hrep', rfl, ?_⟩
  rw [erase_pfill]
  rfl

theorem rotate_right_erase (m : memory κ ν) (up : List (pframe κ ν)) (n l : Nat)
    (k lk : κ) (v lv : ν) (c lc : rbtree_node_color) (LL LR R : ptree κ ν)
    (hrep : represents m (pfill (.node n k v c (.node l lk lv lc LL LR) R) up)) :
    ∃ m' T' cur, rotate_right_mem m n = some m' ∧ represents m' T' ∧
      rotate_right (ptree.node n k v c (.node l lk lv lc LL LR) R).erase (up.map erase_frame) =
        some cur ∧
      T'.erase = root_of cur.node cur.parents := by
  obtain ⟨m', hm, hrep'⟩ := rotate_right_represents m up n l k lk v lv c lc LL LR R hrep
  refine ⟨m', _, _, hm, hrep', rfl, ?_⟩
  rw [erase_pfill]
  rfl

end Heap

/-! ## The comparator on natural numbers -/

theorem nat_cmp_ok : comparator_ok nat_cmp := by
  constructor
  · intro a b
    simp only [nat_cmp]
    split_ifs <;> omega
  · intro a b c
    simp only [nat_cmp]
    split_ifs <;> omega

theorem traverse_overwrite_value (cmp : κ → κ → Int) (key : κ) (value : ν)
    (n : rbtree_node κ ν) :
    traverse (overwrite_value cmp key value n) =
      (traverse n).map fun p => if cmp key p.1 = 0 then (p.1, value) else p := by
  induction n with
  | NULL => rfl
  | mk k v l r c ihl ihr =>
    simp only [overwrite_value, traverse, ihl, ihr, List.map_append, List.map_cons]
    split_ifs <;> rfl

/-! ## Main theorems -/

/-- C1: `rbtree_insert` preserves the red-black invariants.  For every tree
with a BLACK or absent root, no RED node under a RED node and equal black
counts on all root-to-absent-child paths, and every key and value,
`rbtree_insert` returns and the tree it leaves has a present BLACK root and
the other two properties again; the empty tree of `rbtree_create` has the
three properties.  Neither the ordering of the tree nor any law of `cmp` is
needed. -/
theorem insert_preserves_red_black (cmp : κ → κ → Int) (t : rbtree κ ν) (key : κ)
    (value : ν) :
    rb_valid (rbtree_create : rbtree κ ν) ∧
      (rb_valid t → ∃ t', rbtree_insert cmp t key value = some t' ∧
        is_null t'.root = false ∧ rb_valid t') := by
  refine ⟨rb_valid_create, fun h => ?_⟩
  obtain ⟨t', e, hv⟩ := rbtree_insert_rb cmp t key value h
  exact ⟨t', e, rbtree_insert_not_null cmp t t' key value e, hv⟩

theorem insert_preserves_red_black_witness :
    rb_valid example_tree ∧
      ∃ t', rbtree_insert nat_cmp example_tree 3 30 = some t' ∧
        is_null t'.root = false ∧ rb_valid t' :=
  ⟨by decide, (insert_preserves_red_black nat_cmp example_tree 3 30).2 (by decide)⟩

/-- C2: `rbtree_delete` preserves the red-black invariants.  For every tree
with the three colour properties and every key, present or not,
`rbtree_delete` returns (no assertion fails, no absent node is dereferenced)
and the tree it leaves has a BLACK or absent root, no RED node with a RED
child or parent, and equal black counts.  This covers the removal of a BLACK
node with a RED child, where the node is recoloured RED and `augment_delete`
still runs. -/
theorem delete_preserves_red_black (cmp : κ → κ → Int) (t : rbtree κ ν) (key : κ)
    (h : rb_valid t) : ∃ t', rbtree_delete cmp t key = some t' ∧ rb_valid t' :=
  rbtree_delete_rb cmp t key h

theorem delete_preserves_red_black_witness :
    rb_valid example_tree ∧
      ∃ t', rbtree_delete nat_cmp example_tree 2 = some t' ∧ rb_valid t' :=
  ⟨by decide, delete_preserves_red_black nat_cmp example_tree 2 (by decide)⟩

/-- C3: the search-tree ordering is an invariant of both mutations.  On an
ordered tree, with a comparator that is a total order up to equal-comparing
keys, whatever tree `rbtree_insert` or `rbtree_delete` leaves is ordered, so
that no two of its keys compare equal; and on a tree that also has the
red-black properties both calls do return. -/
theorem mutations_preserve_ordering {cmp : κ → κ → Int} (hc : comparator_ok cmp)
    (t : rbtree κ ν) (k : κ) (v : ν) (ho : ordered cmp t.root) :
    (∀ t', rbtree_insert cmp t k v = some t' →
        ordered cmp t'.root ∧ (rbtree_traverse t').Pairwise fun a b => cmp a.1 b.1 ≠ 0) ∧
      (∀ t', rbtree_delete cmp t k = some t' →
        ordered cmp t'.root ∧ (rbtree_traverse t').Pairwise fun a b => cmp a.1 b.1 ≠ 0) ∧
      (rb_valid t →
        (∃ t', rbtree_insert cmp t k v = some t') ∧ ∃ t', rbtree_delete cmp t k = some t') := by
  have key : ∀ t' : rbtree κ ν, ordered cmp t'.root →
      ordered cmp t'.root ∧ (rbtree_traverse t').Pairwise fun a b => cmp a.1 b.1 ≠ 0 := by
    intro t' h
    refine ⟨h, ?_⟩
    have := (ordered_iff_ascending hc _).1 h
    exact List.Pairwise.imp (fun h => by omega) this
  refine ⟨fun t' h => key t' (rbtree_insert_ordered hc t t' k v ho h),
    fun t' h => key t' (rbtree_delete_ordered hc t t' k ho h), fun hv => ⟨?_, ?_⟩⟩
  · obtain ⟨t', e, -⟩ := rbtree_insert_rb cmp t k v hv
    exact ⟨t', e⟩
  · obtain ⟨t', e, -⟩ := rbtree_delete_rb cmp t k hv
    exact ⟨t', e⟩

theorem mutations_preserve_ordering_witness :
    ordered nat_cmp example_tree.root ∧
      ((∀ t', rbtree_insert nat_cmp example_tree 3 30 = some t' →
          ordered nat_cmp t'.root ∧
            (rbtree_traverse t').Pairwise fun a b => nat_cmp a.1 b.1 ≠ 0) ∧
        (∀ t', rbtree_delete nat_cmp example_tree 3 = some t' →
          ordered nat_cmp t'.root ∧
            (rbtree_traverse t').Pairwise fun a b => nat_cmp a.1 b.1 ≠ 0) ∧
        (rb_valid example_tree →
          (∃ t', rbtree_insert nat_cmp example_tree 3 30 = some t') ∧
            ∃ t', rbtree_delete nat_cmp example_tree 3 = some t')) :=
  ⟨by decide, mutations_preserve_ordering nat_cmp_ok example_tree 3 30 (by decide)⟩

/-- C4: lookup after insert returns the inserted value.  On an ordered tree,
whatever tree `rbtree_insert(t, k, v, cmp)` leaves, `rbtree_lookup` of `k` in
it returns `v`, whether `k` was new or present; the insert does return on a
tree with the red-black properties; and after two inserts of `k` the lookup
returns the value of the second. -/
theorem lookup_after_insert {cmp : κ → κ → Int} (hc : comparator_ok cmp)
    (t : rbtree κ ν) (k : κ) (v : ν) (ho : ordered cmp t.root) :
    (∀ t', rbtree_insert cmp t k v = some t' → rbtree_lookup cmp t' k = some v) ∧
      (rb_valid t → ∃ t', rbtree_insert cmp t k v = some t') ∧
      (∀ v1 t1 t2, rbtree_insert cmp t k v1 = some t1 → rbtree_insert cmp t1 k v = some t2 →
        rbtree_lookup cmp t2 k = some v) := by
  have key : ∀ (s s' : rbtree κ ν), ordered cmp s.root → rbtree_insert cmp s k v = some s' →
      rbtree_lookup cmp s' k = some v := by
    intro s s' hs h
    rw [rbtree_lookup_eq hc s' k (rbtree_insert_ordered hc s s' k v hs h),
      rbtree_insert_traverse hc s s' k v hs h]
    exact list_lookup_insert hc k v _
  refine ⟨fun t' h => key t t' ho h, fun hv => ?_, fun v1 t1 t2 h1 h2 => ?_⟩
  · obtain ⟨t', e, -⟩ := rbtree_insert_rb cmp t k v hv
    exact ⟨t', e⟩
  · exact key t1 t2 (rbtree_insert_ordered hc t t1 k v1 ho h1) h2

theorem lookup_after_insert_witness :
    ordered nat_cmp example_tree.root ∧
      rbtree_lookup nat_cmp
        ⟨.mk 4 40 (.mk 2 20 (.mk 1 10 NULL NULL RED) (.mk 3 30 NULL NULL RED) BLACK)
          (.mk 6 60 NULL NULL BLACK) BLACK⟩ 3 = some 30 :=
  ⟨by decide, (lookup_after_insert nat_cmp_ok example_tree 3 30 (by decide)).1 _ rfl⟩

/-- C5: `rbtree_lookup` finds exactly the keys in the tree.  On an ordered tree
it returns the value of the node whose key compares equal to `key` when there
is one, the absent result when no node's key compares equal, and the absent
result on the empty tree. -/
theorem lookup_finds_exactly {cmp : κ → κ → Int} (hc : comparator_ok cmp)
    (t : rbtree κ ν) (key : κ) (ho : ordered cmp t.root) :
    (∀ x ∈ rbtree_traverse t, cmp key x.1 = 0 → rbtree_lookup cmp t key = some x.2) ∧
      ((∀ x ∈ rbtree_traverse t, cmp key x.1 ≠ 0) → rbtree_lookup cmp t key = none) ∧
      rbtree_lookup cmp (rbtree_create : rbtree κ ν) key = none := by
  refine ⟨fun x hx h0 => ?_, fun h => ?_, rfl⟩
  · rw [rbtree_lookup_eq hc t key ho]
    exact list_lookup_of_mem hc key _ ((ordered_iff_ascending hc _).1 ho) x hx h0
  · rw [rbtree_lookup_eq hc t key ho]
    exact (list_lookup_eq_none cmp key _).2 h

theorem lookup_finds_exactly_witness :
    ordered nat_cmp example_tree.root ∧
      rbtree_lookup nat_cmp example_tree 2 = some 20 ∧
      rbtree_lookup nat_cmp example_tree 3 = none :=
  ⟨by decide,
    (lookup_finds_exactly nat_cmp_ok example_tree 2 (by decide)).1 (2, 20) (by decide)
      (by decide),
    (lookup_finds_exactly nat_cmp_ok example_tree 3 (by decide)).2.1 (by decide)⟩

/-- C6: `rbtree_traverse` visits the pairs in strictly ascending key order and
visits exactly the keys present.  For every tree built from the empty tree by
calls of `rbtree_insert` and `rbtree_delete` with one comparator, the keys
visited are strictly ascending; a key for which `rbtree_lookup` returns a value
is visited exactly once, with that value; and every pair visited is the one
`rbtree_lookup` returns for its key. -/
theorem traverse_ascending_exact {cmp : κ → κ → Int} (hc : comparator_ok cmp)
    (t : rbtree κ ν) (hr : reachable cmp t) :
    ascending cmp (rbtree_traverse t) ∧
      (∀ k v, rbtree_lookup cmp t k = some v →
        ∃ k', cmp k k' = 0 ∧
          (rbtree_traverse t).filter (fun p => decide (cmp k p.1 = 0)) = [(k', v)]) ∧
      (∀ p ∈ rbtree_traverse t, rbtree_lookup cmp t p.1 = some p.2) := by
  obtain ⟨-, ho⟩ := reachable_inv hc t hr
  have ha := (ordered_iff_ascending hc _).1 ho
  refine ⟨ha, fun k v h => ?_, fun p hp => ?_⟩
  · rw [rbtree_lookup_eq hc t k ho] at h
    exact list_lookup_filter hc k _ ha v h
  · rw [rbtree_lookup_eq hc t p.1 ho]
    exact list_lookup_of_mem hc p.1 _ ha p hp (hc.refl p.1)

theorem traverse_ascending_exact_witness :
    reachable nat_cmp
        (⟨.mk 6 60 (.mk 2 20 (.mk 1 10 NULL NULL RED) NULL BLACK) (.mk 7 70 NULL NULL BLACK)
          BLACK⟩ : rbtree Nat Nat) ∧
      rbtree_traverse
          (⟨.mk 6 60 (.mk 2 20 (.mk 1 10 NULL NULL RED) NULL BLACK) (.mk 7 70 NULL NULL BLACK)
            BLACK⟩ : rbtree Nat Nat) = [(1, 10), (2, 20), (6, 60), (7, 70)] ∧
      ascending nat_cmp (rbtree_traverse
        (⟨.mk 6 60 (.mk 2 20 (.mk 1 10 NULL NULL RED) NULL BLACK) (.mk 7 70 NULL NULL BLACK)
          BLACK⟩ : rbtree Nat Nat)) ∧
      (∀ k v, rbtree_lookup nat_cmp
          (⟨.mk 6 60 (.mk 2 20 (.mk 1 10 NULL NULL RED) NULL BLACK) (.mk 7 70 NULL NULL BLACK)
            BLACK⟩ : rbtree Nat Nat) k = some v →
        ∃ k', nat_cmp k k' = 0 ∧
          (rbtree_traverse
            (⟨.mk 6 60 (.mk 2 20 (.mk 1 10 NULL NULL RED) NULL BLACK) (.mk 7 70 NULL NULL BLACK)
              BLACK⟩ : rbtree Nat Nat)).filter (fun p => decide (nat_cmp k p.1 = 0)) =
            [(k', v)]) ∧
      (∀ p ∈ rbtree_traverse
          (⟨.mk 6 60 (.mk 2 20 (.mk 1 10 NULL NULL RED) NULL BLACK) (.mk 7 70 NULL NULL BLACK)
            BLACK⟩ : rbtree Nat Nat),
        rbtree_lookup nat_cmp
          (⟨.mk 6 60 (.mk 2 20 (.mk 1 10 NULL NULL RED) NULL BLACK) (.mk 7 70 NULL NULL BLACK)
            BLACK⟩ : rbtree Nat Nat) p.1 = some p.2) :=
  have h1 : reachable nat_cmp (⟨.mk 4 40 NULL NULL BLACK⟩ : rbtree Nat Nat) :=
    reachable.insert rbtree_create _ 4 40 reachable.create rfl
  have h2 := reachable.insert _ ⟨.mk 4 40 (.mk 2 20 NULL NULL RED) NULL BLACK⟩ 2 20 h1 rfl
  have h3 := reachable.insert _
    ⟨.mk 4 40 (.mk 2 20 NULL NULL RED) (.mk 6 60 NULL NULL RED) BLACK⟩ 6 60 h2 rfl
  have h4 := reachable.insert _ example_tree 1 10 h3 rfl
  have h5 := reachable.insert _
    ⟨.mk 4 40 (.mk 2 20 (.mk 1 10 NULL NULL RED) NULL BLACK)
      (.mk 6 60 NULL (.mk 7 70 NULL NULL RED) BLACK) BLACK⟩ 7 70 h4 rfl
  have h6 := reachable.delete _
    ⟨.mk 6 60 (.mk 2 20 (.mk 1 10 NULL NULL RED) NULL BLACK) (.mk 7 70 NULL NULL BLACK) BLACK⟩
    4 h5 rfl
  ⟨h6, rfl, traverse_ascending_exact nat_cmp_ok _ h6⟩

/-- C7: deleting a present key removes that binding and no other.  On a tree
with the red-black and ordering properties that holds a key comparing equal to
`key`, `rbtree_delete` returns; the traversal of the tree it leaves is the
previous traversal with the pair for `key` taken out; the lookup of `key` then
returns the absent result and the lookup of every other key is unchanged.  The
node with two children, where the predecessor's key and value are moved, is
included. -/
theorem delete_present_removes_binding {cmp : κ → κ → Int} (hc : comparator_ok cmp)
    (t : rbtree κ ν) (key : κ) (hv : rb_valid t) (ho : ordered cmp t.root)
    (hx : ∃ x ∈ rbtree_traverse t, cmp key x.1 = 0) :
    ∃ t' A x B, rbtree_delete cmp t key = some t' ∧ cmp key x.1 = 0 ∧
      rbtree_traverse t = A ++ x :: B ∧ rbtree_traverse t' = A ++ B ∧
      rbtree_lookup cmp t' key = none ∧
      ∀ k2, cmp key k2 ≠ 0 → rbtree_lookup cmp t' k2 = rbtree_lookup cmp t k2 := by
  obtain ⟨t', e, -⟩ := rbtree_delete_rb cmp t key hv
  have ho' := rbtree_delete_ordered hc t t' key ho e
  rcases rbtree_delete_traverse cmp t t' key e with ⟨hn, -⟩ | ⟨A, k, v, B, hk, e1, e2⟩
  · exfalso
    obtain ⟨x, hx, hx0⟩ := hx
    have h1 := rbtree_lookup_eq hc t key ho
    have h2 : rbtree_lookup cmp t key = none := by simp [rbtree_lookup, hn]
    rw [h2] at h1
    exact (list_lookup_eq_none cmp key _).1 h1.symm x hx hx0
  · refine ⟨t', A, (k, v), B, e, hk, e1, e2, ?_, fun k2 h2 => ?_⟩
    · rw [rbtree_lookup_eq hc t' key ho', e2]
      apply (list_lookup_eq_none cmp key _).2
      apply ne_of_ascending hc key A B (k, v) _ hk
      rw [← e1]
      exact (ordered_iff_ascending hc _).1 ho
    · rw [rbtree_lookup_eq hc t' k2 ho', rbtree_lookup_eq hc t k2 ho, e1, e2]
      apply list_lookup_remove
      intro h0
      exact h2 (hc.symm (hc.eq_trans h0 (hc.symm hk)))

theorem delete_present_removes_binding_witness :
    (rb_valid example_tree ∧ ordered nat_cmp example_tree.root ∧
      ∃ x ∈ rbtree_traverse example_tree, nat_cmp 4 x.1 = 0) ∧
      ∃ t' A x B, rbtree_delete nat_cmp example_tree 4 = some t' ∧ nat_cmp 4 x.1 = 0 ∧
        rbtree_traverse example_tree = A ++ x :: B ∧ rbtree_traverse t' = A ++ B ∧
        rbtree_lookup nat_cmp t' 4 = none ∧
        ∀ k2, nat_cmp 4 k2 ≠ 0 →
          rbtree_lookup nat_cmp t' k2 = rbtree_lookup nat_cmp example_tree k2 :=
  ⟨⟨by decide, by decide, by decide⟩,
    delete_present_removes_binding nat_cmp_ok example_tree 4 (by decide) (by decide)
      (by decide)⟩

/-- C8: deleting a key that is not present changes nothing.  When no node's key
compares equal to `key`, `rbtree_delete` returns the tree it was given, the
same in nodes, shape, colours, keys and values, so the traversal is the same.
The ordering of the tree is not needed. -/
theorem delete_absent_unchanged (cmp : κ → κ → Int) (t : rbtree κ ν) (key : κ)
    (h : ∀ x ∈ rbtree_traverse t, cmp key x.1 ≠ 0) : rbtree_delete cmp t key = some t := by
  unfold rbtree_delete
  rw [lookup_node_none_of_ne cmp t key h]

theorem delete_absent_unchanged_witness :
    (∀ x ∈ rbtree_traverse example_tree, nat_cmp 3 x.1 ≠ 0) ∧
      rbtree_delete nat_cmp example_tree 3 = some example_tree :=
  ⟨by decide, delete_absent_unchanged nat_cmp example_tree 3 (by decide)⟩

/-- C9: insert-all then delete-all yields the empty map.  For every list of
pairs and every permutation of its keys, inserting the pairs into the empty
tree in list order and then deleting the keys in the permuted order runs
through and leaves the root absent and nothing to traverse.  The keys need not
be distinct. -/
theorem insert_all_delete_all_empty {cmp : κ → κ → Int} (hc : comparator_ok cmp)
    (kvs : List (κ × ν)) (ds : List κ) (hp : ds.Perm (kvs.map Prod.fst)) :
    ∃ t1 t2, insert_all cmp rbtree_create kvs = some t1 ∧ delete_all cmp t1 ds = some t2 ∧
      t2.root = NULL ∧ rbtree_traverse t2 = [] := by
  obtain ⟨t1, e1, hv1, ho1, hm1⟩ := insert_all_spec hc kvs rbtree_create rb_valid_create trivial
  obtain ⟨t2, e2, -, -, hm2⟩ := delete_all_spec hc ds t1 hv1 ho1
  have hnil : traverse t2.root = [] := by
    apply List.eq_nil_iff_forall_not_mem.2
    intro x hx
    obtain ⟨hx1, hd⟩ := hm2 x hx
    rcases hm1 x hx1 with ⟨y, hy, -⟩ | hk
    · simp [rbtree_create, traverse] at hy
    · exact hd x.1 (hp.mem_iff.2 hk) (hc.refl x.1)
  exact ⟨t1, t2, e1, e2, traverse_eq_nil _ hnil, hnil⟩

theorem insert_all_delete_all_empty_witness :
    [2, 3, 1].Perm ([(1, 10), (2, 20), (3, 30)].map Prod.fst) ∧
      ∃ t1 t2, insert_all nat_cmp rbtree_create [(1, 10), (2, 20), (3, 30)] = some t1 ∧
        delete_all nat_cmp t1 [2, 3, 1] = some t2 ∧ t2.root = NULL ∧ rbtree_traverse t2 = [] :=
  ⟨by decide, insert_all_delete_all_empty nat_cmp_ok [(1, 10), (2, 20), (3, 30)] [2, 3, 1]
    (by decide)⟩

/-- C10: inserting an existing key only overwrites its value.  On an ordered
tree that holds a key comparing equal to `key`, `rbtree_insert` returns, and
leaves the tree with the same nodes, shape, colours and keys and the same
values, except that the node whose key compares equal to `key` holds `v2`; so
the traversal has the same length and `key` is bound to `v2`.  Consequently,
whenever a first insert of `key` with `v1` has returned, the insert of `key`
with `v2` returns and leaves exactly one pair for `key`, holding `v2`; and the
first insert does return on a tree with the red-black properties. -/
theorem insert_existing_overwrites {cmp : κ → κ → Int} (hc : comparator_ok cmp)
    (t : rbtree κ ν) (key : κ) (v1 v2 : ν) (ho : ordered cmp t.root) :
    ((∃ x ∈ rbtree_traverse t, cmp key x.1 = 0) →
        rbtree_insert cmp t key v2 = some ⟨overwrite_value cmp key v2 t.root⟩ ∧
        rbtree_traverse ⟨overwrite_value cmp key v2 t.root⟩ =
          (rbtree_traverse t).map (fun p => if cmp key p.1 = 0 then (p.1, v2) else p) ∧
        (rbtree_traverse ⟨overwrite_value cmp key v2 t.root⟩).length =
          (rbtree_traverse t).length ∧
        rbtree_lookup cmp ⟨overwrite_value cmp key v2 t.root⟩ key = some v2) ∧
      (∀ t1, rbtree_insert cmp t key v1 = some t1 →
        ∃ t2 k', rbtree_insert cmp t1 key v2 = some t2 ∧ cmp key k' = 0 ∧
          (rbtree_traverse t2).filter (fun p => decide (cmp key p.1 = 0)) = [(k', v2)]) ∧
      (rb_valid t → ∃ t1, rbtree_insert cmp t key v1 = some t1) := by
  have look : ∀ (s s' : rbtree κ ν) (v : ν), ordered cmp s.root →
      rbtree_insert cmp s key v = some s' →
      list_lookup cmp key (traverse s'.root) = some v := by
    intro s s' v hs h
    rw [rbtree_insert_traverse hc s s' key v hs h]
    exact list_lookup_insert hc key v _
  refine ⟨fun hx => ?_, fun t1 e1 => ?_, fun hv => ?_⟩
  · have e := rbtree_insert_overwrite hc t key v2 ho hx
    refine ⟨e, traverse_overwrite_value cmp key v2 t.root, ?_, ?_⟩
    · simp only [rbtree_traverse, traverse_overwrite_value, List.length_map]
    · rw [rbtree_lookup_eq hc _ key (rbtree_insert_ordered hc t _ key v2 ho e)]
      exact look t _ v2 ho e
  · have ho1 := rbtree_insert_ordered hc t t1 key v1 ho e1
    have hpres : ∃ x ∈ traverse t1.root, cmp key x.1 = 0 := by
      by_contra hne
      have hnone := (list_lookup_eq_none cmp key (traverse t1.root)).2
        (fun x hx h0 => hne ⟨x, hx, h0⟩)
      rw [look t t1 v1 ho e1] at hnone
      cases hnone
    have e2 := rbtree_insert_overwrite hc t1 key v2 ho1 hpres
    have ho2 := rbtree_insert_ordered hc t1 _ key v2 ho1 e2
    obtain ⟨k', hk', hf⟩ := list_lookup_filter hc key _
      ((ordered_iff_ascending hc _).1 ho2) v2 (look t1 _ v2 ho1 e2)
    exact ⟨_, k', e2, hk', hf⟩
  · obtain ⟨t1, e1, -⟩ := rbtree_insert_rb cmp t key v1 hv
    exact ⟨t1, e1⟩

theorem insert_existing_overwrites_witness :
    (ordered nat_cmp example_tree.root ∧
      ∃ x ∈ rbtree_traverse example_tree, nat_cmp 2 x.1 = 0) ∧
      rbtree_insert nat_cmp example_tree 2 21 =
        some ⟨.mk 4 40 (.mk 2 21 (.mk 1 10 NULL NULL RED) NULL BLACK)
          (.mk 6 60 NULL NULL BLACK) BLACK⟩ :=
  ⟨⟨by decide, by decide⟩,
    ((insert_existing_overwrites nat_cmp_ok example_tree 2 20 21 (by decide)).1
      (by decide)).1⟩

/-- C11: height bound.  Every tree built from the empty tree by calls of
`rbtree_insert` and `rbtree_delete`, with `n` nodes and `h` nodes on its
longest root-to-leaf path, has `2 ^ ceil(h/2) <= n + 1`, which is
`h <= 2 * log2(n + 1)`.  In particular the tree after each of the inserts of
the keys 1, 2, ..., 7 in ascending order exists, has equal black counts on all
paths, and satisfies the bound. -/
theorem height_bound (cmp : κ → κ → Int) (t : rbtree κ ν) (hr : reachable cmp t) :
    2 ^ ((height t.root + 1) / 2) ≤ node_count t.root + 1 ∧
      ∀ (vs : Nat → ν) (i : Nat), i ≤ 7 →
        ∃ s, insert_all nat_cmp rbtree_create ((List.range i).map fun k => (k + 1, vs k))
            = some s ∧
          same_black_count s.root ∧ 2 ^ ((height s.root + 1) / 2) ≤ node_count s.root + 1 := by
  refine ⟨height_bound_of_valid t (reachable_rb_valid cmp t hr), fun vs i _ => ?_⟩
  obtain ⟨s, e, hs⟩ := insert_all_reachable nat_cmp
    ((List.range i).map fun k => (k + 1, vs k)) rbtree_create reachable.create
  have hv := reachable_rb_valid nat_cmp s hs
  exact ⟨s, e, hv.2.2, height_bound_of_valid s hv⟩

theorem height_bound_witness :
    reachable nat_cmp (⟨.mk 5 50 NULL NULL BLACK⟩ : rbtree Nat Nat) ∧
      2 ^ ((height (rbtree_node.mk 5 50 (NULL : rbtree_node Nat Nat) NULL BLACK) + 1) / 2) ≤
        node_count (rbtree_node.mk 5 50 (NULL : rbtree_node Nat Nat) NULL BLACK) + 1 :=
  ⟨reachable.insert rbtree_create _ 5 50 reachable.create rfl,
    (height_bound nat_cmp _ (reachable.insert rbtree_create _ 5 50 reachable.create rfl)).1⟩

/-- C12: concrete insertion scenario.  Inserting the keys 10, 20, 30 in that
order into the empty tree, under the order of the integers, gives the tree
whose root holds 20 and is BLACK, whose left child holds 10 and is RED and
whose right child holds 30 and is RED; its traversal visits 10, 20, 30 and all
its root-to-absent-child paths have the same number of BLACK nodes. -/
theorem insert_10_20_30 (v1 v2 v3 : ν) :
    insert_all nat_cmp rbtree_create [(10, v1), (20, v2), (30, v3)] =
        some ⟨.mk 20 v2 (.mk 10 v1 NULL NULL RED) (.mk 30 v3 NULL NULL RED) BLACK⟩ ∧
      rbtree_traverse (⟨.mk 20 v2 (.mk 10 v1 NULL NULL RED) (.mk 30 v3 NULL NULL RED) BLACK⟩ :
        rbtree Nat ν) = [(10, v1), (20, v2), (30, v3)] ∧
      same_black_count (rbtree_node.mk 20 v2 (.mk 10 v1 NULL NULL RED)
        (.mk 30 v3 NULL NULL RED) BLACK) ∧
      black_counts (rbtree_node.mk 20 v2 (.mk 10 v1 NULL NULL RED)
        (.mk 30 v3 NULL NULL RED) BLACK) = [1, 1, 1, 1] :=
  ⟨rfl, rfl, by intro a ha b hb; simp [black_counts] at ha hb; omega, rfl⟩

/-- C13: concrete deletion scenario.  In the tree obtained by inserting 10, 20,
30, `rbtree_delete` of 20 finds the root, which has two children; the key and
value of the predecessor 10 are copied into the root and the node to remove is
the one that held 10, now the left child of a root holding 10; it is spliced
out, and the tree left has the traversal 10, 30 and a BLACK root. -/
theorem delete_20_of_10_20_30 (v1 v2 v3 : ν) :
    lookup_node nat_cmp 20
        (rbtree_node.mk 20 v2 (.mk 10 v1 NULL NULL RED) (.mk 30 v3 NULL NULL RED) BLACK) [] =
        some ⟨.mk 20 v2 (.mk 10 v1 NULL NULL RED) (.mk 30 v3 NULL NULL RED) BLACK, []⟩ ∧
      delete_pred_swap
          ⟨rbtree_node.mk 20 v2 (.mk 10 v1 NULL NULL RED) (.mk 30 v3 NULL NULL RED) BLACK, []⟩ =
        some ⟨.mk 10 v1 NULL NULL RED, [⟨LEFT, 10, v1, .mk 30 v3 NULL NULL RED, BLACK⟩]⟩ ∧
      rbtree_delete nat_cmp
          ⟨.mk 20 v2 (.mk 10 v1 NULL NULL RED) (.mk 30 v3 NULL NULL RED) BLACK⟩ 20 =
        some ⟨.mk 10 v1 NULL (.mk 30 v3 NULL NULL RED) BLACK⟩ ∧
      rbtree_traverse (⟨.mk 10 v1 NULL (.mk 30 v3 NULL NULL RED) BLACK⟩ : rbtree Nat ν) =
        [(10, v1), (30, v3)] ∧
      node_color (rbtree_node.mk 10 v1 NULL (.mk 30 v3 NULL NULL RED) BLACK) = BLACK :=
  ⟨rfl, rfl, rfl, rfl, rfl⟩

/-- C15: dispatch of case 5 of the deletion fix-up, as the code makes it.  The
rotation at the sibling is performed exactly when the sibling is BLACK, its
child on the near side of `n` is RED and its child on the far side is BLACK:
for `n` a left child the sibling's left child is RED and its right child
BLACK, and the sibling's left child comes up over the sibling by a right
rotation; mirrored for `n` a right child.  In every other case the sibling is
left as it was. -/
theorem delete_case5_dispatch (n : rbtree_node κ ν) (p : ancestor κ ν)
    (up : List (ancestor κ ν)) (sk : κ) (sv : ν) (sl sr : rbtree_node κ ν)
    (sc : rbtree_node_color) :
    (augment_delete_case5 n p up sk sv sl sr sc ≠ some (.mk sk sv sl sr sc) ↔
        sc = BLACK ∧ ((p.side = LEFT ∧ node_color sl = RED ∧ node_color sr = BLACK) ∨
          (p.side = RIGHT ∧ node_color sr = RED ∧ node_color sl = BLACK))) ∧
      (sc = BLACK → p.side = LEFT → node_color sl = RED → node_color sr = BLACK →
        ∃ lk lv ll lr, sl = .mk lk lv ll lr RED ∧
          augment_delete_case5 n p up sk sv sl sr sc =
            some (.mk lk lv ll (.mk sk sv lr sr RED) BLACK)) ∧
      (sc = BLACK → p.side = RIGHT → node_color sr = RED → node_color sl = BLACK →
        ∃ rk rv rl rr, sr = .mk rk rv rl rr RED ∧
          augment_delete_case5 n p up sk sv sl sr sc =
            some (.mk rk rv (.mk sk sv sl rl RED) rr BLACK)) := by
  have hL : sc = BLACK → p.side = LEFT → node_color sl = RED → node_color sr = BLACK →
      ∃ lk lv ll lr, sl = .mk lk lv ll lr RED ∧
        augment_delete_case5 n p up sk sv sl sr sc =
          some (.mk lk lv ll (.mk sk sv lr sr RED) BLACK) := by
    intro h1 h2 h3 h4
    cases sl with
    | NULL => simp at h3
    | mk lk lv ll lr lc =>
      simp only [node_color_mk] at h3
      subst h3
      exact ⟨lk, lv, ll, lr, rfl, by
        simp [augment_delete_case5, h1, h2, h4, set_color, rotate_right, parent_cursor]⟩
  have hR : sc = BLACK → p.side = RIGHT → node_color sr = RED → node_color sl = BLACK →
      ∃ rk rv rl rr, sr = .mk rk rv rl rr RED ∧
        augment_delete_case5 n p up sk sv sl sr sc =
          some (.mk rk rv (.mk sk sv sl rl RED) rr BLACK) := by
    intro h1 h2 h3 h4
    cases sr with
    | NULL => simp at h3
    | mk rk rv rl rr rc =>
      simp only [node_color_mk] at h3
      subst h3
      exact ⟨rk, rv, rl, rr, rfl, by
        simp [augment_delete_case5, h1, h2, h4, set_color, rotate_left, parent_cursor]⟩
  refine ⟨⟨fun h => ?_, fun h => ?_⟩, hL, hR⟩
  · by_contra hn
    apply h
    unfold augment_delete_case5
    rw [if_neg, if_neg]
    · intro hc
      exact hn ⟨hc.2.1, Or.inr ⟨hc.1, hc.2.2.1, hc.2.2.2⟩⟩
    · intro hc
      exact hn ⟨hc.2.1, Or.inl ⟨hc.1, hc.2.2.1, hc.2.2.2⟩⟩
  · obtain ⟨h1, ⟨h2, h3, h4⟩ | ⟨h2, h3, h4⟩⟩ := h
    · obtain ⟨lk, lv, ll, lr, e, e'⟩ := hL h1 h2 h3 h4
      rw [e', e]
      intro hc
      simp only [Option.some.injEq, rbtree_node.mk.injEq] at hc
      exact node_count_lt_left lk lv ll lr RED hc.2.2.1
    · obtain ⟨rk, rv, rl, rr, e, e'⟩ := hR h1 h2 h3 h4
      rw [e', e]
      intro hc
      simp only [Option.some.injEq, rbtree_node.mk.injEq] at hc
      exact node_count_lt_right rk rv rl rr RED hc.2.2.2.1

theorem delete_case5_dispatch_witness :
    (BLACK = BLACK ∧ LEFT = LEFT ∧
        node_color (rbtree_node.mk 3 30 (NULL : rbtree_node Nat Nat) NULL RED) = RED ∧
        node_color (NULL : rbtree_node Nat Nat) = BLACK) ∧
      ∃ lk lv ll lr, rbtree_node.mk 3 30 (NULL : rbtree_node Nat Nat) NULL RED =
          .mk lk lv ll lr RED ∧
        augment_delete_case5 (.mk 1 10 NULL NULL BLACK)
            ⟨LEFT, 2, 20, .mk 4 40 (.mk 3 30 NULL NULL RED) NULL BLACK, BLACK⟩ [] 4 40
            (.mk 3 30 NULL NULL RED) NULL BLACK =
          some (.mk lk lv ll (.mk 4 40 lr NULL RED) BLACK) :=
  ⟨⟨rfl, rfl, rfl, rfl⟩,
    (delete_case5_dispatch (.mk 1 10 NULL NULL BLACK)
      ⟨LEFT, 2, 20, .mk 4 40 (.mk 3 30 NULL NULL RED) NULL BLACK, BLACK⟩ [] 4 40
      (.mk 3 30 NULL NULL RED) NULL BLACK).2.1 rfl rfl rfl rfl⟩

/-- C15, as the spec words it, fails: with `n` a left child whose sibling is
BLACK with a RED far (right) child and an absent, hence BLACK, near (left)
child, cases 1 to 4 do not return, and case 5 leaves the sibling as it was, no
rotation at the sibling; the call ends in case 6, with the rotation at the
parent only.  With the RED child on the near side instead, the sibling is
rotated. -/
theorem delete_case5_far_red_not_rotated :
    node_color (rbtree_node.mk 4 40 (NULL : rbtree_node Nat Nat) NULL RED) = RED ∧
      node_color (NULL : rbtree_node Nat Nat) = BLACK ∧
      augment_delete_case5 (.mk 1 10 NULL NULL BLACK)
          ⟨LEFT, 2, 20, .mk 3 30 NULL (.mk 4 40 NULL NULL RED) BLACK, BLACK⟩ [] 3 30
          NULL (.mk 4 40 NULL NULL RED) BLACK =
        some (.mk 3 30 NULL (.mk 4 40 NULL NULL RED) BLACK) ∧
      augment_delete (.mk 1 10 NULL NULL BLACK)
          [⟨LEFT, 2, 20, .mk 3 30 NULL (.mk 4 40 NULL NULL RED) BLACK, BLACK⟩] =
        some ⟨.mk 1 10 NULL NULL BLACK,
          [⟨LEFT, 2, 20, NULL, BLACK⟩, ⟨LEFT, 3, 30, .mk 4 40 NULL NULL BLACK, BLACK⟩]⟩ ∧
      augment_delete_case5 (.mk 1 10 NULL NULL BLACK)
          ⟨LEFT, 2, 20, .mk 4 40 (.mk 3 30 NULL NULL RED) NULL BLACK, BLACK⟩ [] 4 40
          (.mk 3 30 NULL NULL RED) NULL BLACK =
        some (.mk 3 30 NULL (.mk 4 40 NULL NULL RED) BLACK) := by
  refine ⟨rfl, rfl, ?_, ?_, ?_⟩ <;> decide

/-- C16: the fix-ups never hit an error branch on a valid tree.  On every tree
with the red-black properties, for every key and value, `rbtree_insert` and
`rbtree_delete` return: no assertion fails and no absent node is dereferenced
(either is the result `none` in this development).  In particular, wherever
`augment_delete` is entered below the root under a chain that lacks one BLACK
node, it returns, and `sibling(n)` is present when case 2 is over and cases 3
to 6 read and write its fields. -/
theorem fixups_never_fail (cmp : κ → κ → Int) (t : rbtree κ ν) (key : κ) (value : ν)
    (hv : rb_valid t) :
    (∃ t', rbtree_insert cmp t key value = some t') ∧
      (∃ t', rbtree_delete cmp t key = some t') ∧
      ∀ (n : rbtree_node κ ν) (p : ancestor κ ν) (up : List (ancestor κ ν)) (h : Nat),
        ctx_ok (p :: up) BLACK (h + 1) →
        (∃ p' up', augment_delete_case2 n p up = some ⟨n, p' :: up'⟩ ∧
          is_null p'.sibling = false) ∧
        ∃ up', augment_delete n (p :: up) = some ⟨n, up'⟩ := by
  refine ⟨?_, ?_, fun n p up h hc => ⟨?_, ?_⟩⟩
  · obtain ⟨t', e, -⟩ := rbtree_insert_rb cmp t key value hv
    exact ⟨t', e⟩
  · obtain ⟨t', e, -⟩ := rbtree_delete_rb cmp t key hv
    exact ⟨t', e⟩
  · obtain ⟨p', up', e, hc', hs, -⟩ := augment_delete_case2_valid n p up h hc
    refine ⟨p', up', e, ?_⟩
    have hb : bheight p'.sibling = h + 1 := hc'.2.2.2.1
    cases hsib : p'.sibling with
    | NULL => rw [hsib] at hb; simp [bheight] at hb
    | mk k v l r c => rfl
  · obtain ⟨up', e, -⟩ := augment_delete_fuel_valid ((p :: up).length + 1) n (p :: up) h
      (by omega) hc
    exact ⟨up', e⟩

theorem fixups_never_fail_witness :
    (rb_valid example_tree ∧
        ctx_ok [(⟨LEFT, 2, 20, .mk 3 30 NULL NULL BLACK, BLACK⟩ : ancestor Nat Nat)] BLACK
          (0 + 1)) ∧
      (∃ t', rbtree_insert nat_cmp example_tree 3 30 = some t') ∧
      (∃ t', rbtree_delete nat_cmp example_tree 3 = some t') ∧
      (∃ p' up', augment_delete_case2 (rbtree_node.mk 1 10 NULL NULL BLACK)
            (⟨LEFT, 2, 20, .mk 3 30 NULL NULL BLACK, BLACK⟩ : ancestor Nat Nat) [] =
          some ⟨.mk 1 10 NULL NULL BLACK, p' :: up'⟩ ∧ is_null p'.sibling = false) ∧
      ∃ up', augment_delete (rbtree_node.mk 1 10 NULL NULL BLACK)
          [(⟨LEFT, 2, 20, .mk 3 30 NULL NULL BLACK, BLACK⟩ : ancestor Nat Nat)] =
        some ⟨.mk 1 10 NULL NULL BLACK, up'⟩ :=
  ⟨⟨by decide, by decide⟩,
    (fixups_never_fail nat_cmp example_tree 3 30 (by decide)).1,
    (fixups_never_fail nat_cmp example_tree 3 30 (by decide)).2.1,
    (fixups_never_fail nat_cmp example_tree 3 30 (by decide)).2.2
      (.mk 1 10 NULL NULL BLACK) ⟨LEFT, 2, 20, .mk 3 30 NULL NULL BLACK, BLACK⟩ [] 0
      (by decide)⟩

/-- C18: the diagnostic check accepts exactly the valid colourings.
`verify_properties` passes all its assertions if and only if the root is BLACK
or absent, no RED node has a RED child or a RED parent, and every path from the
root to an absent child passes through the same number of BLACK nodes. -/
theorem verify_properties_iff (t : rbtree κ ν) :
    verify_properties t = true ↔ rb_valid t := by
  rw [rb_valid_iff]
  simp only [verify_properties, Bool.and_eq_true, verify_property_1_true, true_and,
    verify_property_2, decide_eq_true_eq, verify_property_4_iff, verify_property_5_iff,
    imp_true_iff, and_true, and_assoc]

/-- C19: both recursive fix-ups terminate.  `augment_insert` calls itself only
in case 3 and then on the grandparent of its argument, whose chain of
ancestors is shorter by two; `augment_delete` calls itself only in case 3 and
then on the parent of its argument, in a frame in which case 2 did not rotate,
so on a chain shorter by one; every other case makes no call.  Hence the number
of nested calls is at most the depth of the starting node (the length of its
chain of ancestors), and the bound on nesting carried by `augment_delete_fuel`
is not reached: every bound above the depth gives the same result.  Both
return: `augment_insert` on every present node under a BLACK root; and
`augment_delete` on every node under a chain that lacks one BLACK node, which
is where `rbtree_delete` calls it.  On every cursor whatever, the run of
`augment_delete` ends within the depth plus one calls, by a return or at a
failed assertion or absent node; and it ends under a bound on the nesting
exactly when the bound exceeds the number of nested calls counted. -/
theorem fixups_terminate (n : rbtree_node κ ν) (up : List (ancestor κ ν)) :
    (augment_insert_calls n up ≤ up.length ∧
      ∀ fuel, augment_delete_calls fuel n up ≤ up.length) ∧
    (∀ p g up' u, up = p :: g :: up' → p.color = RED → node_color g.sibling = RED →
      set_color BLACK g.sibling = some u →
      augment_insert n up =
          augment_insert (attach ⟨g.side, g.key, g.value, u, RED⟩
            (attach ⟨p.side, p.key, p.value, p.sibling, BLACK⟩ n)) up' ∧
        augment_insert_calls n up =
          1 + augment_insert_calls (attach ⟨g.side, g.key, g.value, u, RED⟩
            (attach ⟨p.side, p.key, p.value, p.sibling, BLACK⟩ n)) up') ∧
    ((up.length < 2 → augment_insert_calls n up = 0) ∧
      ∀ p g up', up = p :: g :: up' → p.color = BLACK ∨ node_color g.sibling = BLACK →
        augment_insert_calls n up = 0) ∧
    (∀ fuel p up' sk sv sl sr, up = p :: up' → p.sibling = .mk sk sv sl sr BLACK →
      p.color = BLACK → node_color sl = BLACK → node_color sr = BLACK →
      augment_delete_fuel (fuel + 1) n up =
          ((augment_delete_fuel fuel
            (attach ⟨p.side, p.key, p.value, .mk sk sv sl sr RED, BLACK⟩ n) up').bind
              fun pc => child_cursor p.side pc.node pc.parents) ∧
        augment_delete_calls (fuel + 1) n up =
          1 + augment_delete_calls fuel
            (attach ⟨p.side, p.key, p.value, .mk sk sv sl sr RED, BLACK⟩ n) up') ∧
    (∀ fuel p up' p' up'' sk sv sl sr sc, up = p :: up' →
      augment_delete_case2 n p up' = some ⟨n, p' :: up''⟩ →
      p'.sibling = .mk sk sv sl sr sc →
      ¬ (p'.color = BLACK ∧ sc = BLACK ∧ node_color sl = BLACK ∧ node_color sr = BLACK) →
      augment_delete_calls (fuel + 1) n up = 0) ∧
    (∀ fuel, up.length < fuel →
      augment_delete_fuel fuel n up = augment_delete n up ∧
        augment_delete_calls fuel n up = augment_delete_calls (up.length + 1) n up) ∧
    (is_null n = false → (∀ a, up.getLast? = some a → a.color = BLACK) →
      ∃ t, augment_insert n up = some t) ∧
    (∀ h, ctx_ok up BLACK (h + 1) →
      ∃ up', augment_delete n up = some ⟨n, up'⟩ ∧
        ∀ fuel, up.length < fuel → augment_delete_fuel fuel n up = some ⟨n, up'⟩) ∧
    (∀ fuel, up.length < fuel → augment_delete_run fuel n up = some (augment_delete n up)) ∧
    (∀ fuel, (augment_delete_run fuel n up).isSome = true ↔
      augment_delete_calls (up.length + 1) n up < fuel) := by
  refine ⟨⟨?_, fun fuel => augment_delete_calls_le fuel n up⟩, ?_, ⟨?_, ?_⟩, ?_, ?_, ?_,
    augment_insert_returns up n, ?_, ?_, fun fuel => augment_delete_run_isSome fuel n up⟩
  · have := augment_insert_calls_le up n
    omega
  · rintro p g up' u rfl hp hu hs
    have hp' : ¬ p.color = BLACK := by rw [hp]; simp
    constructor
    · simp [augment_insert, hp', hu, hs]
    · simp [augment_insert_calls, hp', hu, hs]
  · intro h
    match up, h with
    | [], _ => simp [augment_insert_calls]
    | [_], _ => simp [augment_insert_calls]
  · rintro p g up' rfl h
    rcases h with h | h
    · simp [augment_insert_calls, h]
    · simp [augment_insert_calls, h]
  · rintro fuel p up' sk sv sl sr rfl hs hp hl hr
    have hc2 : augment_delete_case2 n p up' = some ⟨n, p :: up'⟩ := by
      simp [augment_delete_case2, hs]
    constructor
    · simp only [augment_delete_fuel, hc2, Option.bind_eq_bind, Option.some_bind, hs, hp, hl, hr,
        and_self, if_true]
    · simp only [augment_delete_calls, hc2, hs, hp, hl, hr, and_self, if_true]
  · rintro fuel p up' p' up'' sk sv sl sr sc rfl hc2 hs hn
    simp only [augment_delete_calls, hc2, hs, hn, if_false]
  · intro fuel hf
    exact ⟨augment_delete_fuel_enough fuel (up.length + 1) n up hf (by omega),
      augment_delete_calls_enough fuel (up.length + 1) n up hf (by omega)⟩
  · intro h hc
    obtain ⟨up', e, -⟩ := augment_delete_fuel_valid (up.length + 1) n up h (by omega) hc
    refine ⟨up', e, fun fuel hf => ?_⟩
    rw [augment_delete_fuel_enough fuel (up.length + 1) n up hf (by omega)]
    exact e
  · intro fuel hf
    rw [augment_delete_run_eq fuel n up hf,
      augment_delete_fuel_enough fuel (up.length + 1) n up hf (by omega)]
    rfl

theorem fixups_terminate_witness :
    (((⟨LEFT, 2, 20, .mk 3 30 NULL NULL BLACK, BLACK⟩ : ancestor Nat Nat).sibling =
          .mk 3 30 NULL NULL BLACK ∧
        (⟨LEFT, 2, 20, .mk 3 30 NULL NULL BLACK, BLACK⟩ : ancestor Nat Nat).color = BLACK ∧
        node_color (NULL : rbtree_node Nat Nat) = BLACK) ∧
      augment_delete_calls (0 + 1) (rbtree_node.mk 1 10 NULL NULL BLACK)
          [(⟨LEFT, 2, 20, .mk 3 30 NULL NULL BLACK, BLACK⟩ : ancestor Nat Nat)] =
        1 + augment_delete_calls 0
          (attach ⟨LEFT, 2, 20, .mk 3 30 NULL NULL RED, BLACK⟩ (.mk 1 10 NULL NULL BLACK)) []) ∧
      augment_insert_calls (rbtree_node.mk 1 10 NULL NULL RED)
          [(⟨LEFT, 2, 20, .mk 3 30 NULL NULL RED, RED⟩ : ancestor Nat Nat),
            ⟨LEFT, 4, 40, .mk 6 60 NULL NULL RED, BLACK⟩] =
        1 + augment_insert_calls
          (attach ⟨LEFT, 4, 40, .mk 6 60 NULL NULL BLACK, RED⟩
            (attach ⟨LEFT, 2, 20, .mk 3 30 NULL NULL RED, BLACK⟩ (.mk 1 10 NULL NULL RED))) [] ∧
      ((is_null (rbtree_node.mk 1 10 (NULL : rbtree_node Nat Nat) NULL RED) = false ∧
          [(⟨LEFT, 2, 20, .mk 3 30 NULL NULL RED, RED⟩ : ancestor Nat Nat),
            ⟨LEFT, 4, 40, .mk 6 60 NULL NULL RED, BLACK⟩].getLast? =
              some ⟨LEFT, 4, 40, .mk 6 60 NULL NULL RED, BLACK⟩) ∧
        ∃ t, augment_insert (rbtree_node.mk 1 10 NULL NULL RED)
          [(⟨LEFT, 2, 20, .mk 3 30 NULL NULL RED, RED⟩ : ancestor Nat Nat),
            ⟨LEFT, 4, 40, .mk 6 60 NULL NULL RED, BLACK⟩] = some t) ∧
      (ctx_ok [(⟨LEFT, 2, 20, .mk 3 30 NULL NULL BLACK, BLACK⟩ : ancestor Nat Nat)] BLACK
          (0 + 1) ∧
        ∃ up', augment_delete (rbtree_node.mk 1 10 NULL NULL BLACK)
            [(⟨LEFT, 2, 20, .mk 3 30 NULL NULL BLACK, BLACK⟩ : ancestor Nat Nat)] =
              some ⟨.mk 1 10 NULL NULL BLACK, up'⟩ ∧
          ∀ fuel, [(⟨LEFT, 2, 20, .mk 3 30 NULL NULL BLACK, BLACK⟩ : ancestor Nat Nat)].length
              < fuel →
            augment_delete_fuel fuel (rbtree_node.mk 1 10 NULL NULL BLACK)
              [(⟨LEFT, 2, 20, .mk 3 30 NULL NULL BLACK, BLACK⟩ : ancestor Nat Nat)] =
                some ⟨.mk 1 10 NULL NULL BLACK, up'⟩) ∧
      augment_delete_run 5 (rbtree_node.mk 1 10 NULL NULL BLACK)
          [(⟨LEFT, 2, 20, .mk 3 30 NULL NULL BLACK, BLACK⟩ : ancestor Nat Nat)] =
        some (augment_delete (rbtree_node.mk 1 10 NULL NULL BLACK)
          [(⟨LEFT, 2, 20, .mk 3 30 NULL NULL BLACK, BLACK⟩ : ancestor Nat Nat)]) :=
  ⟨⟨⟨rfl, rfl, rfl⟩,
      ((fixups_terminate (rbtree_node.mk 1 10 NULL NULL BLACK)
        [(⟨LEFT, 2, 20, .mk 3 30 NULL NULL BLACK, BLACK⟩ : ancestor Nat Nat)]).2.2.2.1
          0 _ [] 3 30 NULL NULL rfl rfl rfl rfl rfl).2⟩,
    ((fixups_terminate (rbtree_node.mk 1 10 NULL NULL RED)
      [(⟨LEFT, 2, 20, .mk 3 30 NULL NULL RED, RED⟩ : ancestor Nat Nat),
        ⟨LEFT, 4, 40, .mk 6 60 NULL NULL RED, BLACK⟩]).2.1 _ _ [] (.mk 6 60 NULL NULL BLACK)
        rfl rfl rfl rfl).2,
    ⟨⟨rfl, rfl⟩,
      (fixups_terminate (rbtree_node.mk 1 10 NULL NULL RED)
        [(⟨LEFT, 2, 20, .mk 3 30 NULL NULL RED, RED⟩ : ancestor Nat Nat),
          ⟨LEFT, 4, 40, .mk 6 60 NULL NULL RED, BLACK⟩]).2.2.2.2.2.2.1 rfl
        (fun a ha => by cases ha; rfl)⟩,
    ⟨by decide,
      (fixups_terminate (rbtree_node.mk 1 10 NULL NULL BLACK)
        [(⟨LEFT, 2, 20, .mk 3 30 NULL NULL BLACK, BLACK⟩ : ancestor Nat Nat)]).2.2.2.2.2.2.2.1
          0 (by decide)⟩,
    (fixups_terminate (rbtree_node.mk 1 10 NULL NULL BLACK)
      [(⟨LEFT, 2, 20, .mk 3 30 NULL NULL BLACK, BLACK⟩ : ancestor Nat Nat)]).2.2.2.2.2.2.2.2.1
        5 (by decide)⟩

namespace Heap

/-- C17: for every tree held in memory with consistent links and every node
`n` of it whose right child `r` is present, `rotate_left(t, n)` returns, and
the memory then holds a tree (every child's `parent` pointing to its parent,
`root` pointing to the root) with the same in-order sequence of (key, value,
colour) triples, in which `n` is the left child of `r`; `root` is `r` when `n`
was the root and is unchanged otherwise.  The same holds for `rotate_right`
and a node whose left child `l` is present, with `n` the right child of `l`. -/
theorem rotations_preserve_inorder (m : memory κ ν) (T : ptree κ ν) (n : Nat)
    (hrep : represents m T) (hn : n ∈ T.addrs) :
    (∀ nn r, m.nodes n = some nn → nn.right = some r →
      ∃ m' T', rotate_left_mem m n = some m' ∧ represents m' T' ∧ T'.inorder = T.inorder ∧
        (∃ x, m'.nodes r = some x ∧ x.left = some n) ∧
        (∃ x, m'.nodes n = some x ∧ x.parent = some r) ∧
        (m.root = some n → m'.root = some r) ∧ (m.root ≠ some n → m'.root = m.root)) ∧
    (∀ nn l, m.nodes n = some nn → nn.left = some l →
      ∃ m' T', rotate_right_mem m n = some m' ∧ represents m' T' ∧ T'.inorder = T.inorder ∧
        (∃ x, m'.nodes l = some x ∧ x.right = some n) ∧
        (∃ x, m'.nodes n = some x ∧ x.parent = some l) ∧
        (m.root = some n → m'.root = some l) ∧ (m.root ≠ some n → m'.root = m.root)) := by
  obtain ⟨S, up, hT, hS⟩ := exists_frames n T [] hn
  rw [pfill] at hT
  subst hT
  cases S with
  | nil => cases hS
  | node a k v c L R =>
    simp only [ptree.ptr, Option.some.injEq] at hS
    subst hS
    have hst := (stored_pfill m.nodes up _).mp hrep.2.1
    have hnd := (addrs_pfill up _).nodup_iff.mp hrep.2.2
    have hroot : m.root = some a ↔ up = [] := by
      rw [hrep.1]
      cases up with
      | nil => simp [pfill, ptree.ptr]
      | cons f up =>
        simp only [reduceCtorEq, iff_false]
        intro h
        have h1 := ptr_pfill_mem up f _ a h
        rw [List.nodup_append] at hnd
        exact hnd.2.2 (by simp [ptree.addrs]) h1
    constructor
    · intro nn r hnn hr
      rw [hst.1.1] at hnn
      cases hnn
      cases R with
      | nil => cases hr
      | node b rk rv rc RL RR =>
        simp only [ptree.ptr, Option.some.injEq] at hr
        subst hr
        obtain ⟨m', hm, hrep'⟩ := rotate_left_represents m up a b k rk v rv c rc L RL RR hrep
        have hst' := (stored_pfill m'.nodes up _).mp hrep'.2.1
        refine ⟨m', _, hm, hrep', ?_, ⟨_, hst'.1.1, rfl⟩, ⟨_, hst'.1.2.1.1, rfl⟩, ?_, ?_⟩
        · exact inorder_pfill up _ _ (by simp [ptree.inorder])
        · intro h
          rw [hroot] at h
          subst h
          exact hrep'.1
        · intro h
          rw [hrep'.1, hrep.1]
          cases up with
          | nil => exact absurd (hroot.mpr rfl) h
          | cons f up => exact ptr_pfill_cons up f _ _
    · intro nn l hnn hl
      rw [hst.1.1] at hnn
      cases hnn
      cases L with
      | nil => cases hl
      | node b lk lv lc LL LR =>
        simp only [ptree.ptr, Option.some.injEq] at hl
        subst hl
        obtain ⟨m', hm, hrep'⟩ := rotate_right_represents m up a b k lk v lv c lc LL LR R hrep
        have hst' := (stored_pfill m'.nodes up _).mp hrep'.2.1
        refine ⟨m', _, hm, hrep', ?_, ⟨_, hst'.1.1, rfl⟩, ⟨_, hst'.1.2.2.1, rfl⟩, ?_, ?_⟩
        · exact inorder_pfill up _ _ (by simp [ptree.inorder])
        · intro h
          rw [hroot] at h
          subst h
          exact hrep'.1
        · intro h
          rw [hrep'.1, hrep.1]
          cases up with
          | nil => exact absurd (hroot.mpr rfl) h
          | cons f up => exact ptr_pfill_cons up f _ _

theorem rotations_preserve_inorder_witness :
    represents example_memory example_ptree ∧ 1 ∈ example_ptree.addrs ∧
      ∃ m' T', rotate_left_mem example_memory 1 = some m' ∧ represents m' T' ∧
        T'.inorder = example_ptree.inorder ∧
        (∃ x, m'.nodes 2 = some x ∧ x.left = some 1) ∧
        (∃ x, m'.nodes 1 = some x ∧ x.parent = some 2) ∧
        (example_memory.root = some 1 → m'.root = some 2) ∧
        (example_memory.root ≠ some 1 → m'.root = example_memory.root) :=
  have h : represents example_memory example_ptree :=
    ⟨rfl, ⟨rfl, trivial, rfl, trivial, rfl, ⟨rfl, trivial, trivial⟩, trivial⟩, by decide⟩
  ⟨h, by decide,
    (rotations_preserve_inorder example_memory example_ptree 1 h (by decide)).1 _ 2 rfl rfl⟩

end Heap


end Rbtree

namespace Queue

/-! ## The queue stores a list -/

theorem range_filterMap_getElem? (l : List α) :
    (List.range l.length).filterMap (fun i => l[i]?) = l := by
  induction l using List.reverseRecOn with
  | nil => rfl
  | append_singleton init x ih =>
    rw [List.length_append, List.length_singleton, List.range_succ, List.filterMap_append]
    have h1 : (List.range init.length).filterMap (fun i => (init ++ [x])[i]?) =
        (List.range init.length).filterMap (fun i => init[i]?) := by
      apply List.filterMap_congr
      intro i hi
      rw [List.mem_range] at hi
      rw [List.getElem?_append_left hi]
    rw [h1, ih]
    simp

theorem contents_eq_of_holds (q : queue_s α) (l : List α) (h : holds q l) : contents q = l := by
  obtain ⟨h1, h2⟩ := h
  unfold contents
  rw [← h1]
  have : (List.range l.length).filterMap (fun i => (q.start[slot_index q i]?).join) =
      (List.range l.length).filterMap (fun i => l[i]?) := by
    apply List.filterMap_congr
    intro i hi
    rw [List.mem_range] at hi
    rw [h2 i (by omega)]
    rfl
  rw [this, range_filterMap_getElem?]

theorem queue_slots_eq (size : Nat) (h : size < 2 ^ 61) : queue_slots size = size := by
  unfold queue_slots sizeof_ptr size_t_bits
  norm_num at h ⊢
  omega

theorem queue_slots_le (size : Nat) : queue_slots size ≤ size := by
  unfold queue_slots sizeof_ptr size_t_bits
  have := Nat.mod_le (size * 8) (2 ^ 64)
  omega

theorem inv_create (size : Nat) (h : 0 < queue_slots size) :
    inv (queue_slots size) (queue_create size : queue_s α) := by
  refine ⟨rfl, by simp [queue_create], h, h, fun _ => rfl, [], rfl, ?_⟩
  intro i hi
  simp [count, queue_create] at hi

theorem count_le (size : Nat) (q : queue_s α) (h : inv size q) : count q ≤ size := by
  obtain ⟨h1, -, h3, h4, -, -⟩ := h
  unfold count
  split_ifs <;> omega

theorem is_full_iff (size : Nat) (q : queue_s α) (h : inv size q) :
    queue_is_full q = true ↔ count q = size := by
  obtain ⟨h1, -, h3, h4, h5, -⟩ := h
  unfold queue_is_full count
  cases he : q.is_empty
  · simp only [Bool.not_false, Bool.and_true, beq_iff_eq, Bool.false_eq_true, if_false]
    split_ifs <;> omega
  · have := h5 he
    simp only [Bool.not_true, Bool.and_false, Bool.false_eq_true, if_true, false_iff]
    omega

theorem is_empty_iff (q : queue_s α) (size : Nat) (h : inv size q) :
    queue_is_empty q = true ↔ count q = 0 := by
  obtain ⟨h1, -, h3, h4, h5, -⟩ := h
  unfold queue_is_empty count
  cases he : q.is_empty
  · simp only [Bool.false_eq_true, if_false, false_iff]
    split_ifs <;> omega
  · simp

theorem enqueue_full (size : Nat) (q : queue_s α) (v : α) (h : inv size q)
    (hc : count q = size) : queue_enqueue q v = some (-1, q) := by
  unfold queue_enqueue
  rw [if_pos ((is_full_iff size q h).2 hc)]

theorem enqueue_step (size : Nat) (q : queue_s α) (l : List α) (v : α) (h : inv size q)
    (hl : holds q l) (hc : count q < size) :
    ∃ q', queue_enqueue q v = some (0, q') ∧ inv size q' ∧ holds q' (l ++ [v]) ∧
      q.last < size ∧ q'.start = q.start.set q.last (some v) ∧ count q' = count q + 1 := by
  have hfull : ¬ queue_is_full q = true := by
    rw [is_full_iff size q h]; omega
  obtain ⟨h1, h2, h3, h4, h5, -⟩ := h
  obtain ⟨l1, l2⟩ := hl
  have hlast : q.last < q.start.length := by omega
  have hcount : count (⟨q.start.set q.last (some v), q.end_, q.first,
      if q.last + 1 = q.end_ then 0 else q.last + 1, false⟩ : queue_s α) = count q + 1 := by
    unfold count at hc ⊢
    simp only [Bool.false_eq_true, if_false]
    cases he : q.is_empty
    · rw [he] at hc
      simp only [Bool.false_eq_true, if_false] at hc ⊢
      split_ifs at hc ⊢ <;> omega
    · have := h5 he
      simp only [if_true]
      split_ifs <;> omega
  have hidx : ∀ i, i ≤ count q → (slot_index q i = q.last ↔ i = count q) := by
    intro i hi
    unfold slot_index
    unfold count at hc hi ⊢
    cases he : q.is_empty
    · rw [he] at hc hi
      simp only [Bool.false_eq_true, if_false] at hc hi ⊢
      split_ifs at hc hi ⊢ <;> omega
    · have := h5 he
      rw [he] at hi
      simp only [if_true] at hi ⊢
      split_ifs <;> omega
  have hh : holds (⟨q.start.set q.last (some v), q.end_, q.first,
      if q.last + 1 = q.end_ then 0 else q.last + 1, false⟩ : queue_s α) (l ++ [v]) := by
    refine ⟨by rw [hcount, List.length_append, l1]; rfl, ?_⟩
    intro i hi
    rw [hcount] at hi
    have e : slot_index (⟨q.start.set q.last (some v), q.end_, q.first,
        if q.last + 1 = q.end_ then 0 else q.last + 1, false⟩ : queue_s α) i =
        slot_index q i := rfl
    rw [e]
    simp only
    by_cases hi' : i = count q
    · rw [(hidx i (by omega)).2 hi', List.getElem?_set_self hlast, hi', ← l1]
      simp
    · have hne : ¬ slot_index q i = q.last := fun h => hi' ((hidx i (by omega)).1 h)
      rw [List.getElem?_set_ne (fun h => hne h.symm), l2 i (by omega),
        List.getElem?_append_left (by omega)]
  refine ⟨⟨q.start.set q.last (some v), q.end_, q.first,
      if q.last + 1 = q.end_ then 0 else q.last + 1, false⟩, ?_, ?_, hh, h4, rfl, hcount⟩
  · unfold queue_enqueue
    rw [if_neg hfull, if_pos hlast]
  · refine ⟨h1, by simp [h2], h3, ?_, fun h => (by cases h), l ++ [v], hh⟩
    show (if q.last + 1 = q.end_ then 0 else q.last + 1) < size
    split_ifs <;> omega

theorem dequeue_step (size : Nat) (q : queue_s α) (l : List α) (h : inv size q)
    (hl : holds q l) (he : q.is_empty = false) :
    ∃ x rest q', l = x :: rest ∧ queue_dequeue q = some (x, q') ∧ inv size q' ∧
      holds q' rest := by
  obtain ⟨h1, h2, h3, h4, h5, -⟩ := h
  obtain ⟨l1, l2⟩ := hl
  have hpos : 0 < count q := by
    unfold count
    rw [he]
    simp only [Bool.false_eq_true, if_false]
    split_ifs <;> omega
  cases l with
  | nil => simp at l1; omega
  | cons x rest =>
    have h0 : q.start[q.first]? = some (some x) := by
      have := l2 0 hpos
      have e : slot_index q 0 = q.first := by
        unfold slot_index
        rw [if_pos (by omega)]
        rfl
      rw [e] at this
      simpa using this
    have hcount : count (⟨q.start, q.end_, if q.first + 1 = q.end_ then 0 else q.first + 1,
        q.last, if (if q.first + 1 = q.end_ then 0 else q.first + 1) = q.last then true
          else q.is_empty⟩ : queue_s α) = count q - 1 := by
      have hc : count q = if q.first < q.last then q.last - q.first
          else q.end_ - q.first + q.last := by
        unfold count
        rw [he]
        simp
      rw [hc]
      unfold count
      simp only
      rw [he]
      by_cases hw : q.first + 1 = q.end_
      · simp only [if_pos hw]
        by_cases hf : 0 = q.last
        · simp only [if_pos hf, if_true]
          split_ifs <;> omega
        · simp only [if_neg hf, Bool.false_eq_true, if_false]
          split_ifs <;> omega
      · simp only [if_neg hw]
        by_cases hf : q.first + 1 = q.last
        · simp only [if_pos hf, if_true]
          split_ifs <;> omega
        · simp only [if_neg hf, Bool.false_eq_true, if_false]
          split_ifs <;> omega
    have hh : holds (⟨q.start, q.end_, if q.first + 1 = q.end_ then 0 else q.first + 1,
        q.last, if (if q.first + 1 = q.end_ then 0 else q.first + 1) = q.last then true
          else q.is_empty⟩ : queue_s α) rest := by
      refine ⟨?_, ?_⟩
      · rw [hcount, ← l1]
        simp
      · intro i hi
        rw [hcount] at hi
        have e : slot_index (⟨q.start, q.end_, if q.first + 1 = q.end_ then 0 else q.first + 1,
            q.last, if (if q.first + 1 = q.end_ then 0 else q.first + 1) = q.last then true
              else q.is_empty⟩ : queue_s α) i = slot_index q (i + 1) := by
          have hc := l1
          have hle : count q ≤ size := by
            unfold count
            rw [he]
            simp only [Bool.false_eq_true, if_false]
            split_ifs <;> omega
          unfold slot_index
          simp only
          split_ifs <;> omega
        rw [e]
        simp only
        rw [l2 (i + 1) (by omega)]
        simp
    refine ⟨x, rest, _, rfl, ?_, ?_, hh⟩
    · unfold queue_dequeue
      rw [he]
      simp only [Bool.false_eq_true, if_false, h0]
    · refine ⟨h1, h2, ?_, h4, ?_, rest, hh⟩
      · show (if q.first + 1 = q.end_ then 0 else q.first + 1) < size
        split_ifs <;> omega
      · show (if (if q.first + 1 = q.end_ then 0 else q.first + 1) = q.last then true
          else q.is_empty) = true → (if q.first + 1 = q.end_ then 0 else q.first + 1) = q.last
        rw [he]
        split_ifs <;> simp_all

theorem queue_reachable_inv (size : Nat) (hs : 0 < queue_slots size) (q : queue_s α)
    (h : queue_reachable size q) : inv (queue_slots size) q := by
  induction h with
  | create => exact inv_create size hs
  | enqueue q q' v r _ e ih =>
    by_cases hc : count q = queue_slots size
    · rw [enqueue_full _ q v ih hc] at e
      simp only [Option.some.injEq, Prod.mk.injEq] at e
      rw [← e.2]
      exact ih
    · obtain ⟨l, hl⟩ := ih.2.2.2.2.2
      obtain ⟨q'', e', hi, -⟩ := enqueue_step _ q l v ih hl
        (by have := count_le _ q ih; omega)
      rw [e'] at e
      simp only [Option.some.injEq, Prod.mk.injEq] at e
      rw [← e.2]
      exact hi
  | dequeue q q' v _ hne e ih =>
    obtain ⟨l, hl⟩ := ih.2.2.2.2.2
    obtain ⟨x, rest, q'', -, e', hi, -⟩ := dequeue_step _ q l ih hl hne
    rw [e'] at e
    simp only [Option.some.injEq, Prod.mk.injEq] at e
    rw [← e.2]
    exact hi

theorem holds_contents (size : Nat) (q : queue_s α) (h : inv size q) : holds q (contents q) := by
  obtain ⟨l, hl⟩ := h.2.2.2.2.2
  rw [contents_eq_of_holds q l hl]
  exact hl

theorem contents_create (size : Nat) : contents (queue_create size : queue_s α) = [] := by
  simp [contents, count, queue_create]

theorem count_eq_length (size : Nat) (q : queue_s α) (h : inv size q) :
    count q = (contents q).length :=
  (holds_contents size q h).1.symm


/-- A queue created with a size from 1 up to `2 ^ 61 - 1`, where the byte count
of the buffer does not wrap, is bounded by its creation size: the number of
stored elements never exceeds `size`, `queue_is_full` holds exactly when it
equals `size`, `queue_is_empty` exactly when it is 0, and `queue_enqueue`
returns -1 and leaves the queue as it was exactly when the queue holds `size`
elements, and otherwise returns 0 and writes the value into the slot `last`
inside the buffer. -/
theorem queue_bounded (size : Nat) (hs : 0 < size) (hlt : size < 2 ^ 61) (q : queue_s α)
    (hr : queue_reachable size q) :
    count q ≤ size ∧ count q = (contents q).length ∧
      (queue_is_full q = true ↔ count q = size) ∧
      (queue_is_empty q = true ↔ count q = 0) ∧
      ∀ v, (count q = size → queue_enqueue q v = some (-1, q)) ∧
        (count q < size → ∃ q', queue_enqueue q v = some (0, q') ∧ q.last < size ∧
          q'.start = q.start.set q.last (some v) ∧ q'.start.length = size ∧
          count q' = count q + 1) := by
  have hi := queue_reachable_inv size (by rw [queue_slots_eq size hlt]; exact hs) q hr
  rw [queue_slots_eq size hlt] at hi
  refine ⟨count_le size q hi, count_eq_length size q hi, is_full_iff size q hi,
    is_empty_iff q size hi, fun v => ⟨enqueue_full size q v hi, fun hc => ?_⟩⟩
  obtain ⟨q', e, hi', -, h1, h2, h3⟩ := enqueue_step size q _ v hi (holds_contents size q hi) hc
  exact ⟨q', e, h1, h2, hi'.2.1, h3⟩

theorem queue_bounded_witness :
    (0 < 2 ∧ 2 < 2 ^ 61 ∧ queue_reachable 2 (⟨[some 7, none], 2, 0, 1, false⟩ : queue_s Nat)) ∧
      count (⟨[some 7, none], 2, 0, 1, false⟩ : queue_s Nat) ≤ 2 :=
  ⟨⟨by decide, by decide,
      queue_reachable.enqueue (queue_create 2) _ 7 0 queue_reachable.create rfl⟩,
    (queue_bounded 2 (by decide) (by decide) _
      (queue_reachable.enqueue (queue_create 2) _ 7 0 queue_reachable.create rfl)).1⟩

/-- C14, at the creation size 0: the queue created holds 0 elements, which is
its size, yet `queue_is_full` is false and `queue_enqueue` neither returns -1
nor leaves the queue as it was: it writes the value through `last`, outside the
buffer of no slots. -/
theorem enqueue_at_size_zero (v : α) :
    count (queue_create 0 : queue_s α) = 0 ∧
      queue_is_full (queue_create 0 : queue_s α) = false ∧
      (queue_create 0 : queue_s α).start.length = 0 ∧
      queue_enqueue (queue_create 0 : queue_s α) v = none ∧
      queue_enqueue (queue_create 0 : queue_s α) v ≠ some (-1, queue_create 0) := by
  refine ⟨rfl, rfl, rfl, rfl, ?_⟩
  intro h
  cases h

/-- A queue whose buffer has at least one slot is first-in first-out.  Driven
by calls of `queue_enqueue` and by calls of `queue_dequeue` made when it is not
empty, it stores a list of at most `queue_slots size` values, empty at
creation: `queue_enqueue` on fewer values returns 0 and appends the value at
the back, on that many values it returns -1 and changes nothing, and
`queue_dequeue` on a queue that is not empty returns the front value and
removes it; this holds wherever `first` and `last` stand, wrapped or not.  The
number of slots is at most `size`, and is `size` for every `size` below
`2 ^ 61`. -/
theorem queue_is_fifo (size : Nat) (hs : 1 ≤ queue_slots size) (q : queue_s α)
    (hr : queue_reachable size q) :
    queue_slots size ≤ size ∧ (size < 2 ^ 61 → queue_slots size = size) ∧
      contents (queue_create size : queue_s α) = [] ∧
      (contents q).length ≤ queue_slots size ∧
      (∀ v, ((contents q).length = queue_slots size → queue_enqueue q v = some (-1, q)) ∧
        ((contents q).length < queue_slots size →
          ∃ q', queue_enqueue q v = some (0, q') ∧ contents q' = contents q ++ [v])) ∧
      (queue_is_empty q = false →
        ∃ x rest q', contents q = x :: rest ∧ queue_dequeue q = some (x, q') ∧
          contents q' = rest) := by
  have hi := queue_reachable_inv size hs q hr
  have hc := count_eq_length _ q hi
  refine ⟨queue_slots_le size, queue_slots_eq size, contents_create size,
    by rw [← hc]; exact count_le _ q hi, fun v => ⟨?_, ?_⟩, fun he => ?_⟩
  · intro h
    exact enqueue_full _ q v hi (by rw [hc]; exact h)
  · intro h
    obtain ⟨q', e, -, hh, -⟩ :=
      enqueue_step _ q _ v hi (holds_contents _ q hi) (by rw [hc]; exact h)
    exact ⟨q', e, contents_eq_of_holds q' _ hh⟩
  · obtain ⟨x, rest, q', e1, e2, -, hh⟩ :=
      dequeue_step _ q _ hi (holds_contents _ q hi) he
    exact ⟨x, rest, q', e1, e2, contents_eq_of_holds q' _ hh⟩

theorem queue_is_fifo_witness :
    (1 ≤ queue_slots 2 ∧ queue_reachable 2 (⟨[some 9, some 8], 2, 1, 1, false⟩ : queue_s Nat) ∧
        queue_is_empty (⟨[some 9, some 8], 2, 1, 1, false⟩ : queue_s Nat) = false) ∧
      contents (⟨[some 9, some 8], 2, 1, 1, false⟩ : queue_s Nat) = [8, 9] ∧
      ∃ x rest q', contents (⟨[some 9, some 8], 2, 1, 1, false⟩ : queue_s Nat) = x :: rest ∧
        queue_dequeue (⟨[some 9, some 8], 2, 1, 1, false⟩ : queue_s Nat) = some (x, q') ∧
        contents q' = rest :=
  have hr : queue_reachable 2 (⟨[some 9, some 8], 2, 1, 1, false⟩ : queue_s Nat) :=
    queue_reachable.enqueue ⟨[some 7, some 8], 2, 1, 0, false⟩ _ 9 0
      (queue_reachable.dequeue ⟨[some 7, some 8], 2, 0, 0, false⟩ _ 7
        (queue_reachable.enqueue ⟨[some 7, none], 2, 0, 1, false⟩ _ 8 0
          (queue_reachable.enqueue (queue_create 2) _ 7 0 queue_reachable.create rfl) rfl) rfl rfl) rfl
  ⟨⟨by decide, hr, rfl⟩, by decide, (queue_is_fifo 2 (by decide) _ hr).2.2.2.2.2 rfl⟩

/-- The creation size `2 ^ 61 + 1`: the byte count wraps to 8, the buffer has
one slot, and the queue is a queue of one value: the first `queue_enqueue`
stores its value and returns 0, the second returns -1. -/
theorem enqueue_at_size_one_slot (v w : α) :
    queue_slots (2 ^ 61 + 1) = 1 ∧
      queue_enqueue (queue_create (2 ^ 61 + 1) : queue_s α) v =
        some (0, ⟨[some v], 1, 0, 0, false⟩) ∧
      queue_enqueue (⟨[some v], 1, 0, 0, false⟩ : queue_s α) w =
        some (-1, ⟨[some v], 1, 0, 0, false⟩) :=
  ⟨rfl, rfl, rfl⟩

/-- C20, at the creation size `2 ^ 61`: the byte count `size * sizeof(void *)`
is `2 ^ 64`, which wraps to 0, so the buffer has no slot and `end` is `start`;
the queue is empty and not full, and the first `queue_enqueue` does not append
its value to the stored list: it writes through `last`, outside the buffer. -/
theorem enqueue_at_wrapped_size (v : α) :
    1 ≤ 2 ^ 61 ∧ 2 ^ 61 * sizeof_ptr % 2 ^ size_t_bits = 0 ∧ queue_slots (2 ^ 61) = 0 ∧
      (queue_create (2 ^ 61) : queue_s α) = ⟨[], 0, 0, 0, true⟩ ∧
      contents (queue_create (2 ^ 61) : queue_s α) = [] ∧
      queue_is_full (queue_create (2 ^ 61) : queue_s α) = false ∧
      queue_enqueue (queue_create (2 ^ 61) : queue_s α) v = none ∧
      ∀ r q', queue_enqueue (queue_create (2 ^ 61) : queue_s α) v ≠ some (r, q') := by
  refine ⟨by decide, rfl, rfl, rfl, rfl, rfl, rfl, ?_⟩
  intro r q' h
  cases h

end Queue
